import Mathlib

/-!
# stl-web-viewer: splitting a triangle soup into disjoint bodies

A shallow embedding of `wasm-cpp/src/not-atan.cpp`, `wasm-cpp/src/vector3.h` and
`wasm-cpp/src/split-geometry.cpp` (with the resolver loop and the queue traversal of the
older `wasm/src/split-geometry.cpp`), followed by theorems about them.

## The number model

The C++ code computes on `float`.  Here a float is a value of `Fl K`: the IEEE-754
special values (NaN, the two infinities, the two zeros) are kept as such, and every
other value is carried exactly in an ordered field `K` (no rounding, no overflow, no
underflow).  `K = ℚ` gives an executable model, `K = ℝ` is used where a claim compares
with the real arctangent.  The macro `M_PI` of `<cmath>` is not part of the sources and
is a parameter `pi : K` of every function that uses it.

The exact operations serve the statements that do not depend on the value of an angle
(the traversal, the index, the selection rule relative to the computed angles) and those
that are worded for exact arithmetic.  Where the value a `float` computation returns is
what matters, the namespace `Binary32` holds the same functions with every operation
rounded as on the wasm32 target (binary32 for `float`, binary64 for `double`).
-/

namespace StlViewer

/-! ## Floats -/

/-- A float: `nan`, `inf neg` (±∞), `nzero` (the negative zero `-0.0`) or a finite value
`fin q`; `fin 0` is the positive zero `+0.0`. -/
inductive Fl (K : Type) where
  | nan : Fl K
  | inf (neg : Bool) : Fl K
  | nzero : Fl K
  | fin (q : K) : Fl K

deriving instance DecidableEq for Fl

namespace Fl

variable {K : Type} [LinearOrderedField K]

/-- The C `isnan`. -/
def isnan : Fl K → Bool
  | nan => true
  | _ => false

/-- True on the two infinities. -/
def isInf : Fl K → Bool
  | inf _ => true
  | _ => false

/-- True on the two zeros. -/
def isZero : Fl K → Bool
  | nzero => true
  | fin q => decide (q = 0)
  | _ => false

/-- The C `signbit`.  The sign of a NaN is never consulted by the code below
(`notAtan2` returns before), it is taken as clear. -/
def signbit : Fl K → Bool
  | nan => false
  | inf s => s
  | nzero => true
  | fin q => decide (q < 0)

/-- The field value of a finite float (both zeros are `0`); `0` on NaN and ±∞, where it is
not used. -/
def toK : Fl K → K
  | fin q => q
  | _ => 0

/-- Neither NaN nor an infinity. -/
def isFin : Fl K → Bool
  | nan => false
  | inf _ => false
  | _ => true

/-- The zero of the given sign. -/
def mkZero (s : Bool) : Fl K :=
  if s then nzero else fin 0

/-- Unary minus: flips the sign bit. -/
def neg : Fl K → Fl K
  | nan => nan
  | inf s => inf (!s)
  | nzero => fin 0
  | fin q => if q = 0 then nzero else fin (-q)

/-- The C `fabs` (the `abs` overload on `float`): clears the sign bit. -/
def abs : Fl K → Fl K
  | nan => nan
  | inf _ => inf false
  | nzero => fin 0
  | fin q => fin |q|

/-- The C `copysign(mag, sgn)`: the magnitude of `mag` with the sign bit of `sgn`. -/
def copysign (mag sgn : Fl K) : Fl K :=
  if sgn.signbit then mag.abs.neg else mag.abs

/-- IEEE addition, exact on finite values.  An exact zero sum of two finite values is
`+0.0` (round to nearest), `-0.0 + -0.0` is `-0.0`. -/
def add : Fl K → Fl K → Fl K
  | nan, _ => nan
  | _, nan => nan
  | inf s, inf t => if s = t then inf s else nan
  | inf s, _ => inf s
  | _, inf t => inf t
  | nzero, nzero => nzero
  | nzero, fin b => fin b
  | fin a, nzero => fin a
  | fin a, fin b => fin (a + b)

/-- IEEE subtraction: `a - b = a + (-b)`. -/
def sub (a b : Fl K) : Fl K :=
  a.add b.neg

/-- IEEE multiplication, exact on finite values; `∞ * 0` is NaN and the sign of a zero
or infinite product is the exclusive or of the signs. -/
def mul (a b : Fl K) : Fl K :=
  if a.isnan || b.isnan then nan
  else if a.isInf then (if b.isZero then nan else inf (xor a.signbit b.signbit))
  else if b.isInf then (if a.isZero then nan else inf (xor a.signbit b.signbit))
  else if a.isZero || b.isZero then mkZero (xor a.signbit b.signbit)
  else fin (a.toK * b.toK)

/-- IEEE division, exact on finite values; `0/0` and `∞/∞` are NaN, a non-zero value
over a zero is an infinity, a finite value over an infinity is a zero. -/
def div (a b : Fl K) : Fl K :=
  if a.isnan || b.isnan then nan
  else if a.isInf then (if b.isInf then nan else inf (xor a.signbit b.signbit))
  else if b.isInf then mkZero (xor a.signbit b.signbit)
  else if b.isZero then (if a.isZero then nan else inf (xor a.signbit b.signbit))
  else if a.isZero then mkZero (xor a.signbit b.signbit)
  else fin (a.toK / b.toK)

/-- The C comparison `a < b`: false when either side is NaN, the two zeros are equal. -/
def lt : Fl K → Fl K → Bool
  | nan, _ => false
  | _, nan => false
  | inf s, inf t => s && !t
  | inf s, _ => s
  | _, inf t => !t
  | a, b => decide (a.toK < b.toK)

/-- The C comparison `a <= b`. -/
def le : Fl K → Fl K → Bool
  | nan, _ => false
  | _, nan => false
  | inf s, inf t => s || !t
  | inf s, _ => s
  | _, inf t => !t
  | a, b => decide (a.toK ≤ b.toK)

/-- The C comparison `a == b` on floats: false when either side is NaN, `+0.0 == -0.0`. -/
def feq : Fl K → Fl K → Bool
  | nan, _ => false
  | _, nan => false
  | inf s, inf t => s == t
  | inf _, _ => false
  | _, inf _ => false
  | a, b => decide (a.toK = b.toK)

end Fl

open Fl

/-! ## `not-atan.cpp` -/

/-- `notAtan2(y, x)` of `not-atan.cpp`; `pi` is the value of `M_PI`. -/
def notAtan2 {K : Type} [LinearOrderedField K] (pi : K) (y x : Fl K) : Fl K :=
  let alpha := y.div x
  if alpha.isnan then fin 0
  else
    let normalized :=
      (((fin pi).mul (fin (1 / 2))).mul (copysign (fin 1) alpha)).mul
        ((fin 1).sub ((fin 1).div ((fin 1).add alpha.abs)))
    if (fin 0).le x && !x.signbit then normalized
    else normalized.add (copysign (fin pi) y)

/-! ## `vector3.h` -/

/-- `struct Vector3`. -/
structure Vector3 (K : Type) where
  x : Fl K
  y : Fl K
  z : Fl K

deriving instance DecidableEq for Vector3

namespace Vector3

variable {K : Type} [LinearOrderedField K]

/-- `Vector3::operator-`. -/
def sub (a other : Vector3 K) : Vector3 K :=
  ⟨a.x.sub other.x, a.y.sub other.y, a.z.sub other.z⟩

/-- `Vector3::cross`. -/
def cross (a other : Vector3 K) : Vector3 K :=
  ⟨(a.y.mul other.z).sub (a.z.mul other.y),
   (a.z.mul other.x).sub (a.x.mul other.z),
   (a.x.mul other.y).sub (a.y.mul other.x)⟩

/-- `Vector3::dot`. -/
def dot (a other : Vector3 K) : Fl K :=
  ((a.x.mul other.x).add (a.y.mul other.y)).add (a.z.mul other.z)

/-- `Vector3::operator==`: field-wise float comparison. -/
def beq (a other : Vector3 K) : Bool :=
  a.x.feq other.x && a.y.feq other.y && a.z.feq other.z

end Vector3

/-! ## `split-geometry.cpp` -/

/-- `struct Triangle`. -/
structure Triangle (K : Type) where
  triIdx : Nat
  triNormal : Vector3 K

deriving instance DecidableEq for Triangle

/-- `struct Edge`. -/
structure Edge (K : Type) where
  v1 : Vector3 K
  v2 : Vector3 K

/-- `Edge::operator==`. -/
def Edge.beq {K : Type} [LinearOrderedField K] (a other : Edge K) : Bool :=
  a.v1.beq other.v1 && a.v2.beq other.v2

/-- The value of `SIZE_MAX` (`size_t` has 32 bits on the wasm32 target). -/
def SIZE_MAX : Nat := 4294967295

/-- The constant `epsilon = 0.001f` of the resolver. -/
def epsilon {K : Type} [LinearOrderedField K] : K := 1 / 1000

section Resolver

variable {K : Type} [LinearOrderedField K]

/-- The angle the resolver loop computes for one candidate normal: `notAtan2(cross, dot)`,
replaced by `-M_PI` when it exceeds `M_PI - epsilon`. -/
def candidateAngle (pi : K) (curTriNormal edgeVec : Vector3 K) (triNormal : Vector3 K) :
    Fl K :=
  let dot := curTriNormal.dot triNormal
  let cross := (curTriNormal.cross triNormal).dot edgeVec
  let angle := notAtan2 pi cross dot
  if ((fin pi).sub (fin epsilon)).lt angle then (fin pi).neg else angle

/-- One iteration of the loop of `findNextTriangleWithSharedEdge`, on the pair
`(bestTriIdx, bestAngle)`. -/
def resolverStep (pi : K) (curTriNormal edgeVec : Vector3 K) (best : Nat × Fl K)
    (tri : Triangle K) : Nat × Fl K :=
  let angle := candidateAngle pi curTriNormal edgeVec tri.triNormal
  if best.2.lt angle then (tri.triIdx, angle) else best

/-- The scanning loop of the resolver, from `bestTriIdx = SIZE_MAX`, `bestAngle = -INFINITY`.
It is the whole of `findNextTriangle` in `wasm/src/split-geometry.cpp` up to the scaling of
`epsilon`. -/
def resolverLoop (pi : K) (v1 v2 v3 : Vector3 K) (tris : List (Triangle K)) : Nat :=
  let curTriNormal := (v2.sub v1).cross (v3.sub v1)
  let edgeVec := v2.sub v1
  (tris.foldl (resolverStep pi curTriNormal edgeVec) (SIZE_MAX, inf true)).1

/-- `findNextTriangleWithSharedEdge`. -/
def findNextTriangleWithSharedEdge (pi : K) (v1 v2 v3 : Vector3 K)
    (tris : List (Triangle K)) : Nat :=
  match tris with
  | [t] => t.triIdx
  | _ => resolverLoop pi v1 v2 v3 tris

/-- The clamped angle of a candidate as the selection rule of the specification words it:
`notAtan2((curNormal x c.normal) . edgeVec, curNormal . c.normal)` with
`curNormal = (v2 - v1) x (v3 - v1)` and `edgeVec = v2 - v1`, replaced by `-pi` when it is
greater than `pi - 0.001`. -/
def specClampedAngle (pi : K) (v1 v2 v3 : Vector3 K) (c : Triangle K) : Fl K :=
  let curNormal := (v2.sub v1).cross (v3.sub v1)
  let edgeVec := v2.sub v1
  let angle :=
    notAtan2 pi ((curNormal.cross c.triNormal).dot edgeVec) (curNormal.dot c.triNormal)
  if ((fin pi).sub (fin (1 / 1000))).lt angle then (fin pi).neg else angle

end Resolver

/-- The edge index `std::unordered_map<Edge, std::vector<Triangle>>`, as an association
list; a key is found by `Edge::operator==`. -/
abbrev EdgeMap (K : Type) := List (Edge K × List (Triangle K))

namespace EdgeMap

variable {K : Type} [LinearOrderedField K]

/-- `edgeMap.find(e)`: the bucket of the stored key equal to `e`, if any. -/
def find : EdgeMap K → Edge K → Option (List (Triangle K))
  | [], _ => none
  | (k, bucket) :: rest, e => if k.beq e then some bucket else find rest e

/-- `edgeMap[e].push_back(t)`: appends to the bucket of `e`, creating it when no stored
key equals `e`. -/
def pushBack : EdgeMap K → Edge K → Triangle K → EdgeMap K
  | [], e, t => [(e, [t])]
  | (k, bucket) :: rest, e, t =>
    if k.beq e then (k, bucket ++ [t]) :: rest else (k, bucket) :: pushBack rest e t

end EdgeMap

section Split

variable {K : Type} [LinearOrderedField K]

/-- The vertex `Vector3{pos[off], pos[off + 1], pos[off + 2]}`. -/
def vertexAt (pos : List (Fl K)) (off : Nat) : Vector3 K :=
  ⟨pos.getD off (fin 0), pos.getD (off + 1) (fin 0), pos.getD (off + 2) (fin 0)⟩

/-- The body of the index-building loop for one `triIdx`. -/
def addTriangle (pos : List (Fl K)) (edgeMap : EdgeMap K) (triIdx : Nat) : EdgeMap K :=
  let off := triIdx * 9
  let v1 := vertexAt pos off
  let v2 := vertexAt pos (off + 3)
  let v3 := vertexAt pos (off + 6)
  let triNormal := (v2.sub v1).cross (v3.sub v1)
  ((edgeMap.pushBack ⟨v1, v2⟩ ⟨triIdx, triNormal⟩).pushBack ⟨v2, v3⟩
    ⟨triIdx, triNormal⟩).pushBack ⟨v3, v1⟩ ⟨triIdx, triNormal⟩

/-- The index-building loop of `splitDisjointGeometry`. -/
def buildEdgeMap (pos : List (Fl K)) (triCount : Nat) : EdgeMap K :=
  (List.range triCount).foldl (addTriangle pos) []

/-- The mutable state of the traversal: the `visited` flags, the `stack` (top of the
stack first) and the current `part`. -/
structure Traversal where
  visited : List Bool
  stack : List Nat
  part : List Nat

deriving instance DecidableEq for Traversal

/-- The lambda `visitEdge` of `splitDisjointGeometry`. -/
def visitEdge (pi : K) (edgeMap : EdgeMap K) (v1 v2 v3 : Vector3 K) (s : Traversal) :
    Traversal :=
  match edgeMap.find ⟨v2, v1⟩ with
  | none => s
  | some tris =>
    let nextTriIdx := findNextTriangleWithSharedEdge pi v1 v2 v3 tris
    if !(s.visited.getD nextTriIdx false) then
      { s with stack := nextTriIdx :: s.stack, visited := s.visited.set nextTriIdx true }
    else s

/-- One iteration of the `while (!stack.empty())` loop on a non-empty stack. -/
def popAndVisit (pi : K) (pos : List (Fl K)) (edgeMap : EdgeMap K) (nextTriIdx : Nat)
    (s : Traversal) : Traversal :=
  let off := nextTriIdx * 9
  let v1 := vertexAt pos off
  let v2 := vertexAt pos (off + 3)
  let v3 := vertexAt pos (off + 6)
  visitEdge pi edgeMap v3 v1 v2
    (visitEdge pi edgeMap v2 v3 v1
      (visitEdge pi edgeMap v1 v2 v3 { s with part := s.part ++ [nextTriIdx] }))

/-- The `while (!stack.empty())` loop, run for at most `fuel` iterations. -/
def whileLoop (pi : K) (pos : List (Fl K)) (edgeMap : EdgeMap K) : Nat → Traversal → Traversal
  | 0, s => s
  | fuel + 1, s =>
    match s.stack with
    | [] => s
    | nextTriIdx :: rest =>
      whileLoop pi pos edgeMap fuel (popAndVisit pi pos edgeMap nextTriIdx { s with stack := rest })

/-- The serialisation of one part: 9 floats copied per triangle index. -/
def partPos (pos : List (Fl K)) (part : List Nat) : List (Fl K) :=
  part.flatMap (fun triIdx => (pos.drop (triIdx * 9)).take 9)

/-- The traversal of one body, from the seed `triIdx`; every iteration of the `while` loop
pops one triangle and a triangle is pushed once, so `triCount` iterations are enough
(`DfsInv.run`). -/
def traverseFrom (pi : K) (pos : List (Fl K)) (edgeMap : EdgeMap K) (triCount : Nat)
    (visited : List Bool) (triIdx : Nat) : Traversal :=
  whileLoop pi pos edgeMap triCount ⟨visited.set triIdx true, [triIdx], []⟩

/-- The body of the outer `for` loop, on the pair `(visited, result)`. -/
def outerStep (pi : K) (pos : List (Fl K)) (edgeMap : EdgeMap K) (triCount : Nat)
    (st : List Bool × List (List (Fl K))) (triIdx : Nat) : List Bool × List (List (Fl K)) :=
  if st.1.getD triIdx false then st
  else
    let t := traverseFrom pi pos edgeMap triCount st.1 triIdx
    (t.visited, st.2 ++ [partPos pos t.part])

/-- `splitDisjointGeometry`. -/
def splitDisjointGeometry (pi : K) (pos : List (Fl K)) : List (List (Fl K)) :=
  if pos.length % 9 ≠ 0 then []
  else
    let triCount := pos.length / 9
    if triCount = 0 then []
    else
      let edgeMap := buildEdgeMap pos triCount
      ((List.range triCount).foldl (outerStep pi pos edgeMap triCount)
        (List.replicate triCount false, [])).2

/-- The outer loop again, recording for each body the seed `triIdx` and the `part` (the
triangle indices, in the order of discovery) instead of the serialisation of the part. -/
def partsStep (pi : K) (pos : List (Fl K)) (edgeMap : EdgeMap K) (triCount : Nat)
    (st : List Bool × List (Nat × List Nat)) (triIdx : Nat) :
    List Bool × List (Nat × List Nat) :=
  if st.1.getD triIdx false then st
  else
    let t := traverseFrom pi pos edgeMap triCount st.1 triIdx
    (t.visited, st.2 ++ [(triIdx, t.part)])

/-- The seeds and parts of the run of `splitDisjointGeometry`, in the order of the result. -/
def splitSeededParts (pi : K) (pos : List (Fl K)) : List (Nat × List Nat) :=
  if pos.length % 9 ≠ 0 then []
  else
    let triCount := pos.length / 9
    if triCount = 0 then []
    else
      let edgeMap := buildEdgeMap pos triCount
      ((List.range triCount).foldl (partsStep pi pos edgeMap triCount)
        (List.replicate triCount false, [])).2

/-- The parts that `splitDisjointGeometry` serialises (`splitDisjointGeometry_eq_map`). -/
def splitParts (pi : K) (pos : List (Fl K)) : List (List Nat) :=
  (splitSeededParts pi pos).map Prod.snd

/-! ### The traversal as a graph search

The index and `pos` do not change during the traversal, so the triangle that `visitEdge`
looks at is a function of the popped triangle alone. -/

/-- The triangle `visitEdge(v1, v2, v3)` looks at, when the reverse edge is in the index. -/
def chosen (pi : K) (edgeMap : EdgeMap K) (v1 v2 v3 : Vector3 K) : Option Nat :=
  (edgeMap.find ⟨v2, v1⟩).map (findNextTriangleWithSharedEdge pi v1 v2 v3)

/-- The triangles the three `visitEdge` calls of triangle `triIdx` look at, in that order. -/
def neighbours (pi : K) (pos : List (Fl K)) (edgeMap : EdgeMap K) (triIdx : Nat) : List Nat :=
  let off := triIdx * 9
  let v1 := vertexAt pos off
  let v2 := vertexAt pos (off + 3)
  let v3 := vertexAt pos (off + 6)
  (chosen pi edgeMap v1 v2 v3).toList ++ (chosen pi edgeMap v2 v3 v1).toList ++
    (chosen pi edgeMap v3 v1 v2).toList

/-- The three directed edges of triangle `triIdx`, as inserted in the index. -/
def edgesOf (pos : List (Fl K)) (triIdx : Nat) : List (Edge K) :=
  let off := triIdx * 9
  let v1 := vertexAt pos off
  let v2 := vertexAt pos (off + 3)
  let v3 := vertexAt pos (off + 6)
  [⟨v1, v2⟩, ⟨v2, v3⟩, ⟨v3, v1⟩]

/-- The normal `(v2 - v1) x (v3 - v1)` of triangle `triIdx`. -/
def normalOf (pos : List (Fl K)) (triIdx : Nat) : Vector3 K :=
  let off := triIdx * 9
  let v1 := vertexAt pos off
  let v2 := vertexAt pos (off + 3)
  let v3 := vertexAt pos (off + 6)
  (v2.sub v1).cross (v3.sub v1)

/-- The insertions of the index-building loop, in order: three per triangle. -/
def edgeRecords (pos : List (Fl K)) (triCount : Nat) : List (Edge K × Triangle K) :=
  (List.range triCount).flatMap
    (fun triIdx => (edgesOf pos triIdx).map (fun e => (e, ⟨triIdx, normalOf pos triIdx⟩)))

/-- Triangle `j` has a directed edge that is the reverse of a directed edge of triangle `i`
(vertices compared as the index compares them, with `Vector3::operator==`). -/
def sharesEdge (pos : List (Fl K)) (i j : Nat) : Bool :=
  (edgesOf pos i).any (fun e => (edgesOf pos j).any (fun f => f.beq ⟨e.v2, e.v1⟩))

end Split

/-- Every bucket of the index of `pos` holds at most one record: no directed edge occurs
twice in the input. -/
def Manifold {K : Type} [LinearOrderedField K] (pos : List (Fl K)) : Prop :=
  ∀ kb ∈ buildEdgeMap pos (pos.length / 9), kb.2.length ≤ 1

/-! ### Depth-first search over a neighbour function -/

/-- The effect of `visitEdge` once the triangle it looks at is known: push it unless it is
flagged. -/
def pushNew (s : Traversal) (nextTriIdx : Nat) : Traversal :=
  if !(s.visited.getD nextTriIdx false) then
    { s with stack := nextTriIdx :: s.stack, visited := s.visited.set nextTriIdx true }
  else s

/-- The `while` loop over an arbitrary neighbour function. -/
def dfs (nb : Nat → List Nat) : Nat → Traversal → Traversal
  | 0, s => s
  | fuel + 1, s =>
    match s.stack with
    | [] => s
    | t :: rest =>
      dfs nb fuel ((nb t).foldl pushNew { s with stack := rest, part := s.part ++ [t] })

/-- The body of the outer loop over an arbitrary neighbour function. -/
def componentsStep (nb : Nat → List Nat) (n : Nat) (st : List Bool × List (Nat × List Nat))
    (i : Nat) : List Bool × List (Nat × List Nat) :=
  if st.1.getD i false then st
  else
    let t := dfs nb n ⟨st.1.set i true, [i], []⟩
    (t.visited, st.2 ++ [(i, t.part)])

/-- The outer loop over an arbitrary neighbour function, on `n` vertices. -/
def components (nb : Nat → List Nat) (n : Nat) : List Bool × List (Nat × List Nat) :=
  (List.range n).foldl (componentsStep nb n) (List.replicate n false, [])


/-! ### The reference arctangent -/

/-- The reference four-quadrant arctangent `atan2(y, x)` on real arguments: the argument
of the complex number `x + i y`, in `(-pi, pi]`. -/
noncomputable def atan2 (y x : ℝ) : ℝ := Complex.arg ⟨x, y⟩

/-- The value at the start of sector `k = 0 .. 4` of the angles: `-pi`, `-pi/2`, `0`,
`pi/2`, `pi`. -/
noncomputable def sectorOffset (k : ℕ) : ℝ := ((k : ℝ) - 2) * (Real.pi / 2)

/-- The offsets `b` from `sectorOffset k` that make up sector `k`: the open third
quadrant, the negative `y` axis, the open right half plane, the positive `y` axis, and
the second quadrant with the negative `x` axis. -/
def InSector (k : ℕ) (b : ℝ) : Prop :=
  (k = 0 ∧ 0 < b ∧ b < Real.pi / 2) ∨ (k = 1 ∧ b = 0) ∨
    (k = 2 ∧ -(Real.pi / 2) < b ∧ b < Real.pi / 2) ∨ (k = 3 ∧ b = 0) ∨
    (k = 4 ∧ -(Real.pi / 2) < b ∧ b ≤ 0)

/-- The value `(pi/2) * tan b / (1 + |tan b|)` that `notAtan2` gives to the angle `b`
of the right half plane. -/
noncomputable def notAtanOfAngle (b : ℝ) : ℝ :=
  Real.pi * (1 / 2) * (Real.tan b / (1 + |Real.tan b|))

/-- All three coordinates are finite. -/
def Vector3.isFin {K : Type} [LinearOrderedField K] (v : Vector3 K) : Bool :=
  v.x.isFin && v.y.isFin && v.z.isFin

/-- The signed angle from the normal `n` to the normal `m` around the axis `e`:
`atan2((n x m) . e / |e|, n . m)`. -/
noncomputable def signedAngle (n m e : Vector3 ℝ) : ℝ :=
  atan2 (((n.cross m).dot e).toK / Real.sqrt ((e.dot e).toK)) ((n.dot m).toK)


/-- The value `notAtan2` gives to a signed angle of 10 degrees around an edge of length
`len`: `(pi/2) * a / (1 + |a|)` with `a = len * tan(pi/18)`. -/
noncomputable def tenDegreeProxy (len : ℝ) : ℝ :=
  Real.pi * (1 / 2) * (len * Real.tan (Real.pi / 18) / (1 + |len * Real.tan (Real.pi / 18)|))

/-- The reference triangle of the fan: `v1 = (0,0,0)`, `v2 = (0,0,len)`, `v3 = (1,0,0)`; its
normal is `(0, len, 0)` and the shared edge has length `len`. -/
def fanV1 : Vector3 ℝ := ⟨Fl.fin 0, Fl.fin 0, Fl.fin 0⟩

/-- The second vertex of the reference triangle of the fan. -/
def fanV2 (len : ℝ) : Vector3 ℝ := ⟨Fl.fin 0, Fl.fin 0, Fl.fin len⟩

/-- The third vertex of the reference triangle of the fan. -/
def fanV3 : Vector3 ℝ := ⟨Fl.fin 1, Fl.fin 0, Fl.fin 0⟩

/-- A candidate of the fan: index `idx` and the unit normal `(-sin a, cos a, 0)`, the normal
of the reference triangle turned by the angle `a` around the shared edge. -/
noncomputable def fanCandidate (idx : Nat) (a : ℝ) : Triangle ℝ :=
  ⟨idx, ⟨Fl.fin (-Real.sin a), Fl.fin (Real.cos a), Fl.fin 0⟩⟩

/-! ### Concrete inputs -/

/-- The value of the macro `M_PI` as a `double`, `0x400921FB54442D18`. -/
def M_PI_double : ℚ := 884279719003555 / 281474976710656

/-- The finite floats with the given values. -/
def floats (l : List ℚ) : List (Fl ℚ) := l.map Fl.fin

/-- A tetrahedron: the faces `(a,b,c)`, `(a,c,d)`, `(a,d,b)`, `(b,d,c)` on
`a = (0,0,0)`, `b = (1,0,0)`, `c = (0,1,0)`, `d = (0,0,1)`. -/
def tetrahedron : List (Fl ℚ) :=
  floats [0, 0, 0, 1, 0, 0, 0, 1, 0,
          0, 0, 0, 0, 1, 0, 0, 0, 1,
          0, 0, 0, 0, 0, 1, 1, 0, 0,
          1, 0, 0, 0, 0, 1, 0, 1, 0]

/-- The 12 triangles of the axis-aligned unit cube with its corner at `(dx, 0, 0)`, two
per face, wound so that the normals point outwards. -/
def cubeAt (dx : ℚ) : List ℚ :=
  let quad (a b c d : List ℚ) : List ℚ := a ++ b ++ c ++ a ++ c ++ d
  let v (x y z : ℚ) : List ℚ := [x + dx, y, z]
  quad (v 0 0 0) (v 0 1 0) (v 1 1 0) (v 1 0 0) ++
  quad (v 0 0 1) (v 1 0 1) (v 1 1 1) (v 0 1 1) ++
  quad (v 0 0 0) (v 1 0 0) (v 1 0 1) (v 0 0 1) ++
  quad (v 0 1 0) (v 0 1 1) (v 1 1 1) (v 1 1 0) ++
  quad (v 0 0 0) (v 0 0 1) (v 0 1 1) (v 0 1 0) ++
  quad (v 1 0 0) (v 1 1 0) (v 1 1 1) (v 1 0 1)

/-- Two unit cubes far apart (24 triangles, no shared vertex). -/
def twoCubes : List (Fl ℚ) :=
  floats (cubeAt 0 ++ cubeAt 10)

/-- Four triangles around the edge `a = (0,0,0)`, `b = (1,0,0)`: `w = (p', b, q)`,
`u = (a, b, p)`, `u' = (a, b, p')` and `t = (b, a, r)` with `p = (0,1,0)`, `p' = (0,2,0)`,
`q = (0,0,5)`, `r = (0,0,1)`.  The coplanar triangles `u` and `u'` share the directed edge
`(a, b)` and have parallel normals. -/
def tiedMesh : List (Fl ℚ) :=
  floats [0, 2, 0, 1, 0, 0, 0, 0, 5,
          0, 0, 0, 1, 0, 0, 0, 1, 0,
          0, 0, 0, 1, 0, 0, 0, 2, 0,
          1, 0, 0, 0, 0, 0, 0, 0, 1]

/-- The vertex with the given coordinates. -/
def vec (x y z : ℚ) : Vector3 ℚ := ⟨Fl.fin x, Fl.fin y, Fl.fin z⟩

/-- Two candidates on the reverse of the edge `(1,0,0) -> (0,0,0)` of the triangle with
third vertex `(0,0,1)`: their normals `(0,0,1)` and `(0,0,2)` are parallel, so that their
angles are equal. -/
def tiedCandidates : List (Triangle ℚ) :=
  [⟨1, vec 0 0 1⟩, ⟨3, vec 0 0 2⟩]

/-! ### Invariants of the traversal -/

/-- Invariant of the `while` loop of the body seeded at `seed`; `done` lists the triangles
of the bodies emitted before. -/
structure DfsInv (nb : Nat → List Nat) (n : Nat) (done : List Nat) (seed : Nat)
    (s : Traversal) : Prop where
  len : s.visited.length = n
  nodup : (done ++ (s.part ++ s.stack)).Nodup
  vis : ∀ i, s.visited.getD i false = true ↔ i ∈ done ++ (s.part ++ s.stack)
  hd : (s.part = [] ∧ s.stack = [seed]) ∨ ∃ rest, s.part = seed :: rest
  reachP : ∀ p u q, s.part = p ++ u :: q → p = [] ∨ ∃ t ∈ p, u ∈ nb t
  reachS : ∀ u ∈ s.stack, s.part = [] ∨ ∃ t ∈ s.part, u ∈ nb t
  closed : ∀ t ∈ s.part, ∀ u ∈ nb t, s.visited.getD u false = true

/-- What the traversal guarantees for one emitted part `P` seeded at `seed`, `done` listing
the triangles of the parts emitted before: the seed comes first, every other triangle was
looked at from an earlier one of the part, and whatever a triangle of the part looks at was
emitted with or before the part. -/
structure PartOK (nb : Nat → List Nat) (n : Nat) (done : List Nat) (seed : Nat)
    (P : List Nat) : Prop where
  hd : ∃ tl, P = seed :: tl
  reach : ∀ p u q, P = p ++ u :: q → p = [] ∨ ∃ t ∈ p, u ∈ nb t
  closed : ∀ t ∈ P, ∀ u ∈ nb t, u ∈ done ++ P
  nodup : (done ++ P).Nodup
  run : ∃ vis : List Bool, vis.length = n ∧ (∀ j, vis.getD j false = true ↔ j ∈ done) ∧
    seed < n ∧ P = (dfs nb n ⟨vis.set seed true, [seed], []⟩).part ∧
    (dfs nb n ⟨vis.set seed true, [seed], []⟩).stack = []

/-- `PartOK` for every part of the list, each relative to the parts before it. -/
def PartsOK (nb : Nat → List Nat) (n : Nat) : List Nat → List (Nat × List Nat) → Prop
  | _, [] => True
  | done, sp :: rest => PartOK nb n done sp.1 sp.2 ∧ PartsOK nb n (done ++ sp.2) rest

/-- Invariant of the outer loop before the iteration of index `i`. -/
structure OuterInv (nb : Nat → List Nat) (n i : Nat) (st : List Bool × List (Nat × List Nat)) :
    Prop where
  len : st.1.length = n
  nodup : (st.2.map Prod.snd).flatten.Nodup
  vis : ∀ j, st.1.getD j false = true ↔ j ∈ (st.2.map Prod.snd).flatten
  below : ∀ j < i, st.1.getD j false = true
  seedsLt : ∀ sp ∈ st.2, sp.1 < i
  sorted : st.2.Pairwise (fun a b => a.1 < b.1)
  seedMin : ∀ sp ∈ st.2, ∀ u ∈ sp.2, sp.1 ≤ u
  parts : PartsOK nb n [] st.2

/-- The states of two searches correspond under the renumbering `f` of the `m` vertices of
the first search: same stack and part up to `f`, and a vertex is flagged in the first
search exactly when its image is flagged in the second. -/
structure Sim (f : Nat → Nat) (m n : Nat) (s' s : Traversal) : Prop where
  stack : s.stack = s'.stack.map f
  part : s.part = s'.part.map f
  lt : ∀ l ∈ s'.stack, l < m
  len' : s'.visited.length = m
  len : s.visited.length = n
  vis : ∀ k < m, s'.visited.getD k false = s.visited.getD (f k) false

/-! ### The resolver of `wasm/src/split-geometry.cpp` -/

/-- `Vector3::length` of `wasm/src/split-geometry.cpp`; `sqrt` stands for `std::sqrt` of
`<cmath>`, which is not part of the sources. -/
def Vector3.length {K : Type} [LinearOrderedField K] (sqrt : Fl K → Fl K) (a : Vector3 K) :
    Fl K :=
  sqrt (((a.x.mul a.x).add (a.y.mul a.y)).add (a.z.mul a.z))

/-- `findNextTriangle` of `wasm/src/split-geometry.cpp`: the scanning loop without a fast
path, from `bestTriIdx = -1`, with `epsilon = 1e-3f * edgeVec.length()`. -/
def findNextTriangle {K : Type} [LinearOrderedField K] (pi : K) (sqrt : Fl K → Fl K)
    (v1 v2 v3 : Vector3 K) (tris : List (Triangle K)) : Int :=
  let curNormal := (v2.sub v1).cross (v3.sub v1)
  let edgeVec := v2.sub v1
  let epsilon := (fin (1 / 1000)).mul (edgeVec.length sqrt)
  (tris.foldl (fun (best : Int × Fl K) (tri : Triangle K) =>
    let dot := curNormal.dot tri.triNormal
    let cross := curNormal.cross tri.triNormal
    let crossDot := cross.dot edgeVec
    let angle := notAtan2 pi crossDot dot
    let angle := if ((fin pi).sub epsilon).lt angle then (fin pi).neg else angle
    if best.2.lt angle then ((tri.triIdx : Int), angle) else best) (-1, inf true)).1

/-! ### `vector3.h` in exact arithmetic -/

/-- `struct Vector3` with coordinates in a commutative ring `R` in the place of `float`. -/
structure RingVector3 (R : Type) where
  x : R
  y : R
  z : R

namespace RingVector3

variable {R : Type} [CommRing R]

/-- `Vector3::operator-`. -/
def sub (a other : RingVector3 R) : RingVector3 R :=
  ⟨a.x - other.x, a.y - other.y, a.z - other.z⟩

/-- `Vector3::cross`. -/
def cross (a other : RingVector3 R) : RingVector3 R :=
  ⟨a.y * other.z - a.z * other.y, a.z * other.x - a.x * other.z,
   a.x * other.y - a.y * other.x⟩

end RingVector3

/-- The field values of the coordinates of a float vector. -/
def Vector3.toRing {K : Type} [LinearOrderedField K] (v : Vector3 K) : RingVector3 K :=
  ⟨v.x.toK, v.y.toK, v.z.toK⟩

/-! ### Inputs given as lists of triangles -/

section Meshes

variable {K : Type} [LinearOrderedField K]

/-- The 9 floats of the triangle `(v1, v2, v3)`. -/
def triangleFloats (f : Vector3 K × Vector3 K × Vector3 K) : List (Fl K) :=
  [f.1.x, f.1.y, f.1.z, f.2.1.x, f.2.1.y, f.2.1.z, f.2.2.x, f.2.2.y, f.2.2.z]

/-- The buffer `pos` of a list of triangles. -/
def meshOf (faces : List (Vector3 K × Vector3 K × Vector3 K)) : List (Fl K) :=
  faces.flatMap triangleFloats

/-- The three directed edges of the triangle `(v1, v2, v3)`. -/
def faceEdges (f : Vector3 K × Vector3 K × Vector3 K) : List (Edge K) :=
  [⟨f.1, f.2.1⟩, ⟨f.2.1, f.2.2⟩, ⟨f.2.2, f.1⟩]

/-- The consistently wound faces `(a,b,c)`, `(a,c,d)`, `(a,d,b)`, `(b,d,c)` of the tetrahedron
on the vertices `a`, `b`, `c`, `d`. -/
def tetrahedronFaces (a b c d : Vector3 K) : List (Vector3 K × Vector3 K × Vector3 K) :=
  [(a, b, c), (a, c, d), (a, d, b), (b, d, c)]

end Meshes

/-! ### The traversal with a queue

The traversal of `wasm/src/split-geometry.cpp` (`std::queue`, `front`/`pop`/`push`), run on
the edge index and with the resolver of `wasm-cpp/src/split-geometry.cpp`.  The field
`stack` of the state holds the queue, front first. -/

section Queue

variable {K : Type} [LinearOrderedField K]

/-- The lambda `visitEdge` of `wasm/src/split-geometry.cpp`: the triangle found is flagged
and pushed at the back of the queue.  The test `nextTriIdx >= 0` of that file guards the
sentinel `-1` of its own resolver and is always passed with the resolver used here. -/
def visitEdgeQueue (pi : K) (edgeMap : EdgeMap K) (v1 v2 v3 : Vector3 K) (s : Traversal) :
    Traversal :=
  match edgeMap.find ⟨v2, v1⟩ with
  | none => s
  | some tris =>
    let nextTriIdx := findNextTriangleWithSharedEdge pi v1 v2 v3 tris
    if !(s.visited.getD nextTriIdx false) then
      { s with visited := s.visited.set nextTriIdx true, stack := s.stack ++ [nextTriIdx] }
    else s

/-- One iteration of the `while (!queue.empty())` loop on a non-empty queue. -/
def popAndVisitQueue (pi : K) (pos : List (Fl K)) (edgeMap : EdgeMap K) (currentTriIdx : Nat)
    (s : Traversal) : Traversal :=
  let off := currentTriIdx * 9
  let v1 := vertexAt pos off
  let v2 := vertexAt pos (off + 3)
  let v3 := vertexAt pos (off + 6)
  visitEdgeQueue pi edgeMap v3 v1 v2
    (visitEdgeQueue pi edgeMap v2 v3 v1
      (visitEdgeQueue pi edgeMap v1 v2 v3 { s with part := s.part ++ [currentTriIdx] }))

/-- The `while (!queue.empty())` loop, run for at most `fuel` iterations. -/
def whileLoopQueue (pi : K) (pos : List (Fl K)) (edgeMap : EdgeMap K) :
    Nat → Traversal → Traversal
  | 0, s => s
  | fuel + 1, s =>
    match s.stack with
    | [] => s
    | currentTriIdx :: rest =>
      whileLoopQueue pi pos edgeMap fuel
        (popAndVisitQueue pi pos edgeMap currentTriIdx { s with stack := rest })

/-- The body of the outer `for` loop with the queue, recording the seed and the part. -/
def partsStepQueue (pi : K) (pos : List (Fl K)) (edgeMap : EdgeMap K) (triCount : Nat)
    (st : List Bool × List (Nat × List Nat)) (triIdx : Nat) :
    List Bool × List (Nat × List Nat) :=
  if st.1.getD triIdx false then st
  else
    let t := whileLoopQueue pi pos edgeMap triCount ⟨st.1.set triIdx true, [triIdx], []⟩
    (t.visited, st.2 ++ [(triIdx, t.part)])

/-- The seeds and parts of the run with the queue, in the order of the result. -/
def splitSeededPartsQueue (pi : K) (pos : List (Fl K)) : List (Nat × List Nat) :=
  if pos.length % 9 ≠ 0 then []
  else
    let triCount := pos.length / 9
    if triCount = 0 then []
    else
      let edgeMap := buildEdgeMap pos triCount
      ((List.range triCount).foldl (partsStepQueue pi pos edgeMap triCount)
        (List.replicate triCount false, [])).2

end Queue

/-- The effect of `visitEdgeQueue` once the triangle it looks at is known. -/
def pushNewQueue (s : Traversal) (nextTriIdx : Nat) : Traversal :=
  if !(s.visited.getD nextTriIdx false) then
    { s with visited := s.visited.set nextTriIdx true, stack := s.stack ++ [nextTriIdx] }
  else s

/-- The `while` loop with the queue over an arbitrary neighbour function. -/
def bfs (nb : Nat → List Nat) : Nat → Traversal → Traversal
  | 0, s => s
  | fuel + 1, s =>
    match s.stack with
    | [] => s
    | t :: rest =>
      bfs nb fuel ((nb t).foldl pushNewQueue { s with stack := rest, part := s.part ++ [t] })

/-- The body of the outer loop with the queue over an arbitrary neighbour function. -/
def componentsQueueStep (nb : Nat → List Nat) (n : Nat)
    (st : List Bool × List (Nat × List Nat)) (i : Nat) : List Bool × List (Nat × List Nat) :=
  if st.1.getD i false then st
  else
    let t := bfs nb n ⟨st.1.set i true, [i], []⟩
    (t.visited, st.2 ++ [(i, t.part)])

/-- The outer loop with the queue over an arbitrary neighbour function, on `n` vertices. -/
def componentsQueue (nb : Nat → List Nat) (n : Nat) : List Bool × List (Nat × List Nat) :=
  (List.range n).foldl (componentsQueueStep nb n) (List.replicate n false, [])

/-! ## The code in binary floating point

The definitions above carry finite values exactly.  The definitions of this section follow
the same source lines with the arithmetic of the wasm32 target: every operation on `float`
is the exact operation followed by rounding to binary32, every operation on `double`
(`M_PI` is a `double` constant, and an expression with a `double` operand is evaluated in
`double`) is followed by rounding to binary64, and a `double` stored in a `float` is rounded
to binary32.  Rounding is to nearest, ties to even. -/

/-- The power `2 ^ e` for an integer exponent. -/
def pow2 (e : Int) : ℚ :=
  if 0 ≤ e then ((2 ^ e.toNat : Nat) : ℚ) else 1 / ((2 ^ (-e).toNat : Nat) : ℚ)

/-- The number of halvings that bring `n` below 2, at most `fuel` of them. -/
def log2Fuel : Nat → Nat → Nat
  | 0, _ => 0
  | fuel + 1, n => if 2 ≤ n then log2Fuel fuel (n / 2) + 1 else 0

/-- The exponent `e` with `2 ^ e ≤ n < 2 ^ (e + 1)`, for `n > 0`. -/
def natLog2 (n : Nat) : Nat := log2Fuel n n

/-- The exponent `e` with `2 ^ e ≤ q < 2 ^ (e + 1)`, for `q > 0`. -/
def ilog2 (q : ℚ) : Int :=
  let e0 : Int := (natLog2 q.num.natAbs : Int) - (natLog2 q.den : Int)
  if q < pow2 e0 then e0 - 1 else e0

/-- The integer nearest to `q ≥ 0`, the even one of the two when `q` is half way. -/
def roundHalfEven (q : ℚ) : Int :=
  let f : Int := q.num / (q.den : Int)
  let r : ℚ := q - (f : ℚ)
  if r < 1 / 2 then f
  else if 1 / 2 < r then f + 1
  else if f % 2 = 0 then f else f + 1

/-- The value `q` rounded to the binary format with `prec` significant bits and exponents
from `emin` to `emax` (round to nearest, ties to even): values below `2 ^ emin` are rounded
on the subnormal grid, a result of magnitude `2 ^ (emax + 1)` is an infinity, and a zero
result keeps the sign of `q`. -/
def roundBinary (prec : Nat) (emin emax : Int) (q : ℚ) : Fl ℚ :=
  if q = 0 then fin 0
  else
    let e : Int := max (ilog2 |q|) emin
    let quantum : ℚ := pow2 (e - (prec : Int) + 1)
    let r : ℚ := (roundHalfEven (|q| / quantum) : ℚ) * quantum
    if pow2 (emax + 1) ≤ r then inf (decide (q < 0))
    else if r = 0 then mkZero (decide (q < 0))
    else fin (if q < 0 then -r else r)

/-- Rounding of the exact result of an operation to binary32 (`float`); NaN, the infinities
and the zeros are kept. -/
def f32 : Fl ℚ → Fl ℚ
  | fin q => if q = 0 then fin 0 else roundBinary 24 (-126) 127 q
  | a => a

/-- Rounding of the exact result of an operation to binary64 (`double`). -/
def f64 : Fl ℚ → Fl ℚ
  | fin q => if q = 0 then fin 0 else roundBinary 53 (-1022) 1023 q
  | a => a

namespace Binary32

/-- `notAtan2(y, x)` of `not-atan.cpp` in binary floating point; `pi` is the `double` value
of `M_PI`.  `alpha` and the factor `1.0f - 1.0f / (1.0f + abs(alpha))` are computed in
`float`, the product with `M_PI * 0.5f` in `double` and stored in the `float`
`normalized`; `normalized + copysign(M_PI, y)` is computed in `double` and returned as
`float`. -/
def notAtan2 (pi : ℚ) (y x : Fl ℚ) : Fl ℚ :=
  let alpha := f32 (y.div x)
  if alpha.isnan then fin 0
  else
    let normalized :=
      f32 (f64 ((f64 ((f64 ((fin pi).mul (fin (1 / 2)))).mul (copysign (fin 1) alpha))).mul
        (f32 ((fin 1).sub (f32 ((fin 1).div (f32 ((fin 1).add alpha.abs))))))))
    if (fin 0).le x && !x.signbit then normalized
    else f32 (f64 (normalized.add (copysign (fin pi) y)))

/-- `Vector3::operator-` in `float`. -/
def vsub (a other : Vector3 ℚ) : Vector3 ℚ :=
  ⟨f32 (a.x.sub other.x), f32 (a.y.sub other.y), f32 (a.z.sub other.z)⟩

/-- `Vector3::cross` in `float`. -/
def cross (a other : Vector3 ℚ) : Vector3 ℚ :=
  ⟨f32 ((f32 (a.y.mul other.z)).sub (f32 (a.z.mul other.y))),
   f32 ((f32 (a.z.mul other.x)).sub (f32 (a.x.mul other.z))),
   f32 ((f32 (a.x.mul other.y)).sub (f32 (a.y.mul other.x)))⟩

/-- `Vector3::dot` in `float`. -/
def dot (a other : Vector3 ℚ) : Fl ℚ :=
  f32 ((f32 ((f32 (a.x.mul other.x)).add (f32 (a.y.mul other.y)))).add (f32 (a.z.mul other.z)))

/-- The angle the resolver loop computes for one candidate normal: `epsilon` is the `float`
`0.001f`, `M_PI - epsilon` is a `double`, and `-M_PI` is stored in the `float` `angle`. -/
def candidateAngle (pi : ℚ) (curTriNormal edgeVec : Vector3 ℚ) (triNormal : Vector3 ℚ) :
    Fl ℚ :=
  let dot := dot curTriNormal triNormal
  let cross := Binary32.dot (Binary32.cross curTriNormal triNormal) edgeVec
  let angle := notAtan2 pi cross dot
  if (f64 ((fin pi).sub (f32 (fin (1 / 1000))))).lt angle then f32 (fin pi).neg else angle

/-- One iteration of the loop of `findNextTriangleWithSharedEdge`. -/
def resolverStep (pi : ℚ) (curTriNormal edgeVec : Vector3 ℚ) (best : Nat × Fl ℚ)
    (tri : Triangle ℚ) : Nat × Fl ℚ :=
  let angle := candidateAngle pi curTriNormal edgeVec tri.triNormal
  if best.2.lt angle then (tri.triIdx, angle) else best

/-- `findNextTriangleWithSharedEdge` in binary floating point. -/
def findNextTriangleWithSharedEdge (pi : ℚ) (v1 v2 v3 : Vector3 ℚ)
    (tris : List (Triangle ℚ)) : Nat :=
  match tris with
  | [t] => t.triIdx
  | _ =>
    let curTriNormal := cross (vsub v2 v1) (vsub v3 v1)
    let edgeVec := vsub v2 v1
    (tris.foldl (resolverStep pi curTriNormal edgeVec) (SIZE_MAX, inf true)).1

/-- `findNextTriangle` of `wasm/src/split-geometry.cpp` in binary floating point: the loop of
the resolver with `epsilon = 1e-3f * edgeVec.length()`; `sqrt` stands for `std::sqrt` on
`float`, which is not part of the sources. -/
def findNextTriangle (pi : ℚ) (sqrt : Fl ℚ → Fl ℚ) (v1 v2 v3 : Vector3 ℚ)
    (tris : List (Triangle ℚ)) : Int :=
  let curNormal := cross (vsub v2 v1) (vsub v3 v1)
  let edgeVec := vsub v2 v1
  let length := sqrt (f32 ((f32 ((f32 (edgeVec.x.mul edgeVec.x)).add
    (f32 (edgeVec.y.mul edgeVec.y)))).add (f32 (edgeVec.z.mul edgeVec.z))))
  let epsilon := f32 ((f32 (fin (1 / 1000))).mul length)
  (tris.foldl (fun (best : Int × Fl ℚ) (tri : Triangle ℚ) =>
    let dot := dot curNormal tri.triNormal
    let cross := cross curNormal tri.triNormal
    let crossDot := Binary32.dot cross edgeVec
    let angle := notAtan2 pi crossDot dot
    let angle := if (f64 ((fin pi).sub epsilon)).lt angle then f32 (fin pi).neg else angle
    if best.2.lt angle then ((tri.triIdx : Int), angle) else best) (-1, inf true)).1

end Binary32

/-- The binary32 value nearest to `cos(10 deg)`, `0.98480773`. -/
def cos10 : ℚ := 4130583 / 4194304

/-- The binary32 value nearest to `sin(10 deg)`, `0.17364818`. -/
def sin10 : ℚ := 2913333 / 16777216

/-- The candidates of a fan around an edge along the `z` axis from a reference triangle with
normal `(0, 1, 0)` direction: index 0 with the normal `(-sin 10, cos 10, 0)` at about 10
degrees, index 1 with the normal `(-1, 0, 0)` at 90 degrees, and index 2 with the normal
`(-sin 10, -cos 10, 0)` at about 170 degrees. -/
def fanCandidates : List (Triangle ℚ) :=
  [⟨0, ⟨fin (-sin10), fin cos10, fin 0⟩⟩, ⟨1, ⟨fin (-1), fin 0, fin 0⟩⟩,
   ⟨2, ⟨fin (-sin10), fin (-cos10), fin 0⟩⟩]

/-! # Theorems -/

set_option linter.unusedSectionVars false
set_option linter.unnecessarySeqFocus false
set_option linter.unusedVariables false

/-! ## Floats: finite values form a field image -/

namespace Fl

variable {K : Type} [LinearOrderedField K]

@[simp]
theorem isFin_nan : (nan : Fl K).isFin = false := rfl
@[simp]
theorem isFin_inf (s : Bool) : (inf s : Fl K).isFin = false := rfl
@[simp]
theorem isFin_nzero : (nzero : Fl K).isFin = true := rfl
@[simp]
theorem isFin_fin (q : K) : (fin q).isFin = true := rfl
@[simp]
theorem toK_nan : (nan : Fl K).toK = 0 := rfl
@[simp]
theorem toK_inf (s : Bool) : (inf s : Fl K).toK = 0 := rfl
@[simp]
theorem toK_nzero : (nzero : Fl K).toK = 0 := rfl
@[simp]
theorem toK_fin (q : K) : (fin q).toK = q := rfl
@[simp]
theorem isnan_nan : (nan : Fl K).isnan = true := rfl
@[simp]
theorem isnan_inf (s : Bool) : (inf s : Fl K).isnan = false := rfl
@[simp]
theorem isnan_nzero : (nzero : Fl K).isnan = false := rfl
@[simp]
theorem isnan_fin (q : K) : (fin q).isnan = false := rfl
@[simp]
theorem isInf_nan : (nan : Fl K).isInf = false := rfl
@[simp]
theorem isInf_inf (s : Bool) : (inf s : Fl K).isInf = true := rfl
@[simp]
theorem isInf_nzero : (nzero : Fl K).isInf = false := rfl
@[simp]
theorem isInf_fin (q : K) : (fin q).isInf = false := rfl
@[simp]
theorem isZero_nan : (nan : Fl K).isZero = false := rfl
@[simp]
theorem isZero_inf (s : Bool) : (inf s : Fl K).isZero = false := rfl
@[simp]
theorem isZero_nzero : (nzero : Fl K).isZero = true := rfl
@[simp]
theorem isZero_fin (q : K) : (fin q).isZero = decide (q = 0) := rfl
@[simp]
theorem signbit_nan : (nan : Fl K).signbit = false := rfl
@[simp]
theorem signbit_inf (s : Bool) : (inf s : Fl K).signbit = s := rfl
@[simp]
theorem signbit_nzero : (nzero : Fl K).signbit = true := rfl
@[simp]
theorem signbit_fin (q : K) : (fin q).signbit = decide (q < 0) := rfl

@[simp]
theorem isFin_mkZero (s : Bool) : (mkZero s : Fl K).isFin = true := by
  cases s <;> rfl

@[simp]
theorem toK_mkZero (s : Bool) : (mkZero s : Fl K).toK = 0 := by
  cases s <;> rfl

theorem isZero_iff_toK {a : Fl K} (h : a.isFin = true) : a.isZero = true ↔ a.toK = 0 := by
  cases a <;> simp_all

@[simp]
theorem isFin_neg (a : Fl K) : a.neg.isFin = a.isFin := by
  cases a <;> simp [neg]
  split_ifs <;> rfl

@[simp]
theorem toK_neg (a : Fl K) : a.neg.toK = -a.toK := by
  cases a <;> simp [neg]
  split_ifs with h <;> simp [h]

@[simp]
theorem isFin_abs (a : Fl K) : a.abs.isFin = a.isFin := by
  cases a <;> simp [abs]

@[simp]
theorem toK_abs (a : Fl K) : a.abs.toK = |a.toK| := by
  cases a <;> simp [abs]

theorem isFin_add {a b : Fl K} (ha : a.isFin = true) (hb : b.isFin = true) :
    (a.add b).isFin = true := by
  cases a <;> cases b <;> simp_all [add]

theorem toK_add {a b : Fl K} (ha : a.isFin = true) (hb : b.isFin = true) :
    (a.add b).toK = a.toK + b.toK := by
  cases a <;> cases b <;> simp_all [add]

theorem isFin_sub {a b : Fl K} (ha : a.isFin = true) (hb : b.isFin = true) :
    (a.sub b).isFin = true :=
  isFin_add ha (by rw [isFin_neg]; exact hb)

theorem toK_sub {a b : Fl K} (ha : a.isFin = true) (hb : b.isFin = true) :
    (a.sub b).toK = a.toK - b.toK := by
  rw [sub, toK_add ha (by rw [isFin_neg]; exact hb), toK_neg, sub_eq_add_neg]

theorem isFin_mul {a b : Fl K} (ha : a.isFin = true) (hb : b.isFin = true) :
    (a.mul b).isFin = true := by
  cases a <;> cases b <;> simp_all [mul] <;> split_ifs <;> simp

theorem toK_mul {a b : Fl K} (ha : a.isFin = true) (hb : b.isFin = true) :
    (a.mul b).toK = a.toK * b.toK := by
  cases a <;> cases b <;> simp_all [mul] <;> split_ifs <;> simp_all

theorem isFin_div {a b : Fl K} (ha : a.isFin = true) (hb : b.isFin = true)
    (hz : b.toK ≠ 0) : (a.div b).isFin = true := by
  cases a <;> cases b <;> simp_all [div] <;> split_ifs <;> simp

theorem toK_div {a b : Fl K} (ha : a.isFin = true) (hb : b.isFin = true)
    (hz : b.toK ≠ 0) : (a.div b).toK = a.toK / b.toK := by
  cases a <;> cases b <;> simp_all [div] <;> split_ifs <;> simp_all

theorem lt_of_isFin {a b : Fl K} (ha : a.isFin = true) (hb : b.isFin = true) :
    a.lt b = decide (a.toK < b.toK) := by
  cases a <;> cases b <;> simp_all [lt]

end Fl

/-! ## `notAtan2` is finite; the resolver picks the first largest angle -/

section ResolverLemmas

variable {K : Type} [LinearOrderedField K]

theorem Fl.isFin_copysign (m s : Fl K) (h : m.isFin = true) : (copysign m s).isFin = true := by
  unfold copysign
  split_ifs <;> simp [h]

/-- The factor `1 - 1/(1 + |alpha|)` is finite whenever `alpha` is not NaN. -/
theorem isFin_ratioTerm (alpha : Fl K) (h : alpha.isnan = false) :
    ((fin 1).sub ((fin 1).div ((fin 1).add alpha.abs))).isFin = true := by
  cases alpha with
  | nan => simp at h
  | inf s =>
    apply Fl.isFin_sub (by simp)
    simp [Fl.abs, Fl.add, Fl.div]
  | nzero =>
    apply Fl.isFin_sub (by simp)
    apply Fl.isFin_div (by simp) (by simp [Fl.abs, Fl.add])
    simp [Fl.abs, Fl.add]
  | fin q =>
    apply Fl.isFin_sub (by simp)
    apply Fl.isFin_div (by simp) (by simp [Fl.abs, Fl.add])
    simp only [Fl.abs, Fl.add, Fl.toK_fin]
    have : (0 : K) ≤ |q| := abs_nonneg q
    linarith

theorem notAtan2_isFin (pi : K) (y x : Fl K) : (notAtan2 pi y x).isFin = true := by
  unfold notAtan2
  simp only
  split_ifs with h1 h2
  · rfl
  · exact Fl.isFin_mul (Fl.isFin_mul (Fl.isFin_mul (by simp) (by simp))
      (Fl.isFin_copysign _ _ (by simp))) (isFin_ratioTerm _ (by simpa using h1))
  · exact Fl.isFin_add (Fl.isFin_mul (Fl.isFin_mul (Fl.isFin_mul (by simp) (by simp))
      (Fl.isFin_copysign _ _ (by simp))) (isFin_ratioTerm _ (by simpa using h1)))
      (Fl.isFin_copysign _ _ (by simp))



theorem candidateAngle_isFin (pi : K) (n e m : Vector3 K) :
    (candidateAngle pi n e m).isFin = true := by
  unfold candidateAngle
  simp only
  split_ifs
  · simp
  · exact notAtan2_isFin _ _ _

theorem Fl.ninf_lt_of_isFin {a : Fl K} (h : a.isFin = true) : (inf true).lt a = true := by
  cases a <;> simp_all [Fl.lt]

/-- Invariant of the resolver loop: after the candidates `pre`, the pair
`(bestTriIdx, bestAngle)` is the first candidate of `pre` with the largest angle. -/
theorem resolverLoop_inv (pi : K) (n e : Vector3 K) (suf : List (Triangle K)) :
    ∀ (pre : List (Triangle K)) (best : Nat × Fl K),
      ((pre = [] ∧ best = (SIZE_MAX, inf true)) ∨
        ∃ p c s, pre = p ++ c :: s ∧ best = (c.triIdx, candidateAngle pi n e c.triNormal) ∧
          (∀ d ∈ p, (candidateAngle pi n e d.triNormal).lt
            (candidateAngle pi n e c.triNormal) = true) ∧
          (∀ d ∈ s, (candidateAngle pi n e c.triNormal).lt
            (candidateAngle pi n e d.triNormal) = false)) →
      ((pre ++ suf = [] ∧ suf.foldl (resolverStep pi n e) best = (SIZE_MAX, inf true)) ∨
        ∃ p c s, pre ++ suf = p ++ c :: s ∧
          suf.foldl (resolverStep pi n e) best =
            (c.triIdx, candidateAngle pi n e c.triNormal) ∧
          (∀ d ∈ p, (candidateAngle pi n e d.triNormal).lt
            (candidateAngle pi n e c.triNormal) = true) ∧
          (∀ d ∈ s, (candidateAngle pi n e c.triNormal).lt
            (candidateAngle pi n e d.triNormal) = false)) := by
  induction suf with
  | nil => intro pre best h; simpa using h
  | cons t suf ih =>
    intro pre best h
    have key := ih (pre ++ [t]) (resolverStep pi n e best t)
    simp only [List.append_assoc, List.singleton_append, List.foldl_cons] at key ⊢
    apply key
    right
    have hfin := fun m => candidateAngle_isFin pi n e m
    rcases h with ⟨rfl, rfl⟩ | ⟨p, c, s, rfl, rfl, hp, hs⟩
    · refine ⟨[], t, [], by simp, ?_, by simp, by simp⟩
      simp [resolverStep, Fl.ninf_lt_of_isFin (hfin _)]
    · by_cases hlt : (candidateAngle pi n e c.triNormal).lt
          (candidateAngle pi n e t.triNormal) = true
      · refine ⟨p ++ c :: s, t, [], by simp, by simp [resolverStep, hlt], ?_, by simp⟩
        intro d hd
        rw [Fl.lt_of_isFin (hfin _) (hfin _)] at hlt ⊢
        simp only [decide_eq_true_eq] at hlt ⊢
        rcases List.mem_append.1 hd with hd | hd
        · have := hp d hd
          rw [Fl.lt_of_isFin (hfin _) (hfin _)] at this
          simp only [decide_eq_true_eq] at this
          exact lt_trans this hlt
        · rcases List.mem_cons.1 hd with rfl | hd
          · exact hlt
          · have := hs d hd
            rw [Fl.lt_of_isFin (hfin _) (hfin _)] at this
            simp only [decide_eq_false_iff_not, not_lt] at this
            exact lt_of_le_of_lt this hlt
      · refine ⟨p, c, s ++ [t], by simp, by simp [resolverStep, hlt], hp, ?_⟩
        intro d hd
        rcases List.mem_append.1 hd with hd | hd
        · exact hs d hd
        · simp only [List.mem_singleton] at hd
          subst hd
          simpa using hlt



/-- The resolver returns the first candidate with the largest angle. -/
theorem findNext_first_max (pi : K) (v1 v2 v3 : Vector3 K) (tris : List (Triangle K))
    (h : tris ≠ []) :
    ∃ p c s, tris = p ++ c :: s ∧ findNextTriangleWithSharedEdge pi v1 v2 v3 tris = c.triIdx ∧
      (∀ d ∈ p, (candidateAngle pi ((v2.sub v1).cross (v3.sub v1)) (v2.sub v1) d.triNormal).lt
        (candidateAngle pi ((v2.sub v1).cross (v3.sub v1)) (v2.sub v1) c.triNormal) = true) ∧
      (∀ d ∈ s, (candidateAngle pi ((v2.sub v1).cross (v3.sub v1)) (v2.sub v1) c.triNormal).lt
        (candidateAngle pi ((v2.sub v1).cross (v3.sub v1)) (v2.sub v1) d.triNormal) = false) := by
  have loop : ∃ p c s, tris = p ++ c :: s ∧ resolverLoop pi v1 v2 v3 tris = c.triIdx ∧
      (∀ d ∈ p, (candidateAngle pi ((v2.sub v1).cross (v3.sub v1)) (v2.sub v1) d.triNormal).lt
        (candidateAngle pi ((v2.sub v1).cross (v3.sub v1)) (v2.sub v1) c.triNormal) = true) ∧
      (∀ d ∈ s, (candidateAngle pi ((v2.sub v1).cross (v3.sub v1)) (v2.sub v1) c.triNormal).lt
        (candidateAngle pi ((v2.sub v1).cross (v3.sub v1)) (v2.sub v1) d.triNormal) = false) := by
    have := resolverLoop_inv pi ((v2.sub v1).cross (v3.sub v1)) (v2.sub v1) tris []
      (SIZE_MAX, inf true) (Or.inl ⟨rfl, rfl⟩)
    rcases this with ⟨hnil, _⟩ | ⟨p, c, s, h1, h2, h3, h4⟩
    · exact absurd (by simpa using hnil) h
    · exact ⟨p, c, s, by simpa using h1, by simp [resolverLoop, h2], h3, h4⟩
  match tris, h, loop with
  | [], h, _ => exact absurd rfl h
  | [t], _, _ => exact ⟨[], t, [], rfl, rfl, by simp, by simp⟩
  | _ :: _ :: _, _, loop => exact loop

theorem findNext_mem (pi : K) (v1 v2 v3 : Vector3 K) (tris : List (Triangle K))
    (h : tris ≠ []) :
    ∃ c ∈ tris, findNextTriangleWithSharedEdge pi v1 v2 v3 tris = c.triIdx := by
  obtain ⟨p, c, s, h1, h2, -, -⟩ := findNext_first_max pi v1 v2 v3 tris h
  exact ⟨c, by simp [h1], h2⟩


end ResolverLemmas

/-! ## The depth-first search -/

theorem getD_set_true (v : List Bool) (u i : Nat) (hu : u < v.length) :
    (v.set u true).getD i false = true ↔ (i = u ∨ v.getD i false = true) := by
  simp only [List.getD_eq_getElem?_getD, List.getElem?_set]
  by_cases h : u = i
  · subst h; simp [hu]
  · have h' : ¬ i = u := fun e => h e.symm
    simp [h, h']

theorem lt_length_of_getD {v : List Bool} {i : Nat} (h : v.getD i false = true) :
    i < v.length := by
  by_contra hlt
  rw [List.getD_eq_getElem?_getD, List.getElem?_eq_none (by omega)] at h
  simp at h

theorem pushNew_of_visited {s : Traversal} {u : Nat} (h : s.visited.getD u false = true) :
    pushNew s u = s := by
  simp only [pushNew, h]; rfl

theorem pushNew_of_not_visited {s : Traversal} {u : Nat} (h : s.visited.getD u false = false) :
    pushNew s u = ⟨s.visited.set u true, u :: s.stack, s.part⟩ := by
  simp only [pushNew, h]; rfl

/-- What the three `visitEdge` calls of one popped triangle do to the state: the
neighbours not yet flagged are flagged and pushed, once each. -/
theorem foldl_pushNew (n : Nat) (l : List Nat) :
    ∀ s : Traversal, s.visited.length = n → (∀ u ∈ l, u < n) →
      ∃ new : List Nat,
        (l.foldl pushNew s).stack = new ++ s.stack ∧
        (l.foldl pushNew s).part = s.part ∧
        (l.foldl pushNew s).visited.length = n ∧
        new.Nodup ∧
        (∀ u ∈ new, u ∈ l ∧ s.visited.getD u false = false) ∧
        (∀ i, (l.foldl pushNew s).visited.getD i false = true ↔
          (s.visited.getD i false = true ∨ i ∈ new)) ∧
        (∀ u ∈ l, (l.foldl pushNew s).visited.getD u false = true) := by
  induction l with
  | nil => intro s hlen _; exact ⟨[], by simp [hlen]⟩
  | cons u l ih =>
    intro s hlen hl
    have hu : u < n := hl u (by simp)
    have hl' : ∀ x ∈ l, x < n := fun x hx => hl x (by simp [hx])
    by_cases hv : s.visited.getD u false = true
    · obtain ⟨new, h1, h2, h3, h4, h5, h6, h7⟩ := ih s hlen hl'
      simp only [List.foldl_cons, pushNew_of_visited hv]
      refine ⟨new, h1, h2, h3, h4, ?_, h6, ?_⟩
      · intro x hx; exact ⟨by simp [(h5 x hx).1], (h5 x hx).2⟩
      · intro x hx
        rcases List.mem_cons.1 hx with rfl | hx
        · exact (h6 _).2 (Or.inl hv)
        · exact h7 x hx
    · have hv' : s.visited.getD u false = false := by simpa using hv
      obtain ⟨new, h1, h2, h3, h4, h5, h6, h7⟩ :=
        ih ⟨s.visited.set u true, u :: s.stack, s.part⟩ (by simp [hlen]) hl'
      simp only [List.foldl_cons, pushNew_of_not_visited hv']
      have hset : ∀ i, (s.visited.set u true).getD i false = true ↔
          (i = u ∨ s.visited.getD i false = true) :=
        fun i => getD_set_true _ _ _ (by omega)
      refine ⟨new ++ [u], by simp [h1], h2, h3, ?_, ?_, ?_, ?_⟩
      · rw [List.nodup_append]
        refine ⟨h4, by simp, ?_⟩
        intro x hx hx'
        simp only [List.mem_singleton] at hx'
        subst hx'
        have := (h5 x hx).2
        simp only at this
        rw [← Bool.not_eq_true, hset] at this
        exact this (Or.inl rfl)
      · intro x hx
        rcases List.mem_append.1 hx with hx | hx
        · refine ⟨by simp [(h5 x hx).1], ?_⟩
          have := (h5 x hx).2
          simp only at this
          rw [← Bool.not_eq_true, hset] at this
          simpa using fun h => this (Or.inr h)
        · simp only [List.mem_singleton] at hx
          subst hx
          exact ⟨by simp, hv'⟩
      · intro i
        rw [h6 i]
        simp only [hset, List.mem_append, List.mem_singleton]
        tauto
      · intro x hx
        rcases List.mem_cons.1 hx with rfl | hx
        · exact (h6 _).2 (Or.inl ((hset _).2 (Or.inl rfl)))
        · exact h7 x hx

theorem DfsInv.lt_of_mem {nb : Nat → List Nat} {n : Nat} {done : List Nat} {seed : Nat}
    {s : Traversal} (h : DfsInv nb n done seed s) {i : Nat}
    (hi : i ∈ done ++ (s.part ++ s.stack)) : i < n := by
  have := lt_length_of_getD ((h.vis i).2 hi)
  rw [h.len] at this
  exact this

theorem length_le_of_nodup_of_lt {l : List Nat} {n : Nat} (hnd : l.Nodup)
    (hlt : ∀ i ∈ l, i < n) : l.length ≤ n := by
  have h1 : l.toFinset ⊆ Finset.range n := by
    intro i hi
    simp only [List.mem_toFinset] at hi
    simpa using hlt i hi
  have h2 := Finset.card_le_card h1
  rw [List.toFinset_card_of_nodup hnd, Finset.card_range] at h2
  exact h2

/-- One iteration of the `while` loop keeps the invariant. -/
theorem DfsInv.iterate {nb : Nat → List Nat} {n : Nat} {done : List Nat} {seed : Nat}
    {s : Traversal} (hnb : ∀ t < n, ∀ u ∈ nb t, u < n) (h : DfsInv nb n done seed s)
    {t : Nat} {rest : List Nat} (hst : s.stack = t :: rest) :
    DfsInv nb n done seed
      ((nb t).foldl pushNew { s with stack := rest, part := s.part ++ [t] }) := by
  have ht : t < n := h.lt_of_mem (by simp [hst])
  obtain ⟨new, h1, h2, h3, h4, h5, h6, h7⟩ :=
    foldl_pushNew n (nb t) { s with stack := rest, part := s.part ++ [t] } h.len (hnb t ht)
  simp only at h1 h2 h5 h6
  have hnd := h.nodup
  have hvis := h.vis
  rw [hst] at hnd hvis
  have hnew : ∀ u ∈ new, u ∉ done ++ (s.part ++ t :: rest) := by
    intro u hu hmem
    have := (h5 u hu).2
    rw [(hvis u).2 hmem] at this
    exact Bool.noConfusion this
  refine ⟨h3, ?_, ?_, ?_, ?_, ?_, ?_⟩
  · rw [h1, h2]
    have hperm : (done ++ (s.part ++ [t] ++ (new ++ rest))).Perm
        (new ++ (done ++ (s.part ++ t :: rest))) := by
      have e1 : done ++ (s.part ++ [t] ++ (new ++ rest)) =
          (done ++ (s.part ++ [t])) ++ (new ++ rest) := by simp
      have e2 : new ++ (done ++ (s.part ++ t :: rest)) =
          new ++ ((done ++ (s.part ++ [t])) ++ rest) := by simp
      rw [e1, e2]
      exact (List.perm_append_comm_assoc _ _ _)
    rw [hperm.nodup_iff, List.nodup_append]
    exact ⟨h4, hnd, fun x hx hx' => hnew x hx hx'⟩
  · intro i
    rw [h6 i, hvis i, h1, h2]
    simp only [List.mem_append, List.mem_cons, List.mem_singleton, List.not_mem_nil, or_false]
    tauto
  · rw [h2]
    rcases h.hd with ⟨hp, hs⟩ | ⟨r, hr⟩
    · rw [hst] at hs
      right
      refine ⟨[], ?_⟩
      simp only [List.cons.injEq] at hs
      simp [hp, hs.1]
    · exact Or.inr ⟨r ++ [t], by simp [hr]⟩
  · intro p u q hpq
    rw [h2] at hpq
    rcases List.eq_nil_or_concat q with rfl | ⟨q', x, rfl⟩
    · have := List.append_inj' hpq (by simp)
      obtain ⟨e1, e2⟩ := this
      simp only [List.cons.injEq, and_true] at e2
      subst e1 e2
      rcases h.reachS t (by simp [hst]) with hnil | hex
      · exact Or.inl hnil
      · exact Or.inr hex
    · have e : s.part ++ [t] = (p ++ u :: q') ++ [x] := by simpa using hpq
      have := List.append_inj' e (by simp)
      exact h.reachP p u q' this.1
  · intro u hu
    rw [h1] at hu
    rw [h2]
    right
    rcases List.mem_append.1 hu with hu | hu
    · exact ⟨t, by simp, (h5 u hu).1⟩
    · rcases h.reachS u (by simp [hst, hu]) with hnil | ⟨t', ht', hut'⟩
      · rcases h.hd with ⟨_, hs⟩ | ⟨r, hr⟩
        · rw [hst] at hs
          simp only [List.cons.injEq] at hs
          rw [hs.2] at hu
          simp at hu
        · rw [hnil] at hr
          simp at hr
      · exact ⟨t', by simp [ht'], hut'⟩
  · intro t' ht' u hu
    rw [h2] at ht'
    rcases List.mem_append.1 ht' with ht' | ht'
    · exact (h6 u).2 (Or.inl (h.closed t' ht' u hu))
    · simp only [List.mem_singleton] at ht'
      subst ht'
      exact h7 u hu

/-- The `while` loop keeps the invariant and, given one unit of fuel for each triangle not
yet in a part, ends with the stack empty. -/
theorem DfsInv.run {nb : Nat → List Nat} {n : Nat} {done : List Nat} {seed : Nat}
    (hnb : ∀ t < n, ∀ u ∈ nb t, u < n) :
    ∀ (fuel : Nat) (s : Traversal), DfsInv nb n done seed s →
      n ≤ fuel + (done ++ s.part).length →
      DfsInv nb n done seed (StlViewer.dfs nb fuel s) ∧ (StlViewer.dfs nb fuel s).stack = [] := by
  intro fuel
  induction fuel with
  | zero =>
    intro s h hf
    refine ⟨h, ?_⟩
    have := length_le_of_nodup_of_lt h.nodup (fun i hi => h.lt_of_mem hi)
    simp only [List.length_append] at this hf
    have : s.stack.length = 0 := by omega
    simpa using this
  | succ fuel ih =>
    intro s h hf
    unfold StlViewer.dfs
    split
    · rename_i hs; exact ⟨h, hs⟩
    · rename_i t rest hs
      have hstep := h.iterate hnb hs
      apply ih _ hstep
      obtain ⟨new, h1, h2, -⟩ :=
        foldl_pushNew n (nb t) { s with stack := rest, part := s.part ++ [t] } h.len
          (hnb t (h.lt_of_mem (by simp [hs])))
      rw [h2]
      simp only [List.length_append, List.length_singleton] at hf ⊢
      omega

theorem PartsOK.append {nb : Nat → List Nat} {n : Nat} {seed : Nat} {P : List Nat} :
    ∀ (parts : List (Nat × List Nat)) (done : List Nat), PartsOK nb n done parts →
      PartOK nb n (done ++ (parts.map Prod.snd).flatten) seed P →
      PartsOK nb n done (parts ++ [(seed, P)]) := by
  intro parts
  induction parts with
  | nil => intro done _ h; simpa [PartsOK] using h
  | cons sp parts ih =>
    intro done h hP
    refine ⟨h.1, ih _ h.2 ?_⟩
    simpa using hP

/-- The state after seeding satisfies the invariant of the `while` loop. -/
theorem DfsInv.of_seed {nb : Nat → List Nat} {n i : Nat} {st : List Bool × List (Nat × List Nat)}
    (h : OuterInv nb n i st) (hi : i < n) (hv : st.1.getD i false = false) :
    DfsInv nb n (st.2.map Prod.snd).flatten i ⟨st.1.set i true, [i], []⟩ := by
  have hni : i ∉ (st.2.map Prod.snd).flatten := by
    intro hmem
    rw [(h.vis i).2 hmem] at hv
    exact Bool.noConfusion hv
  refine ⟨by simp [h.len], ?_, ?_, Or.inl ⟨rfl, rfl⟩, ?_, fun _ _ => Or.inl rfl, ?_⟩
  · simp only [List.nil_append]
    rw [List.nodup_append]
    exact ⟨h.nodup, by simp, fun x hx hx' => hni (by simp at hx'; rw [← hx']; exact hx)⟩
  · intro j
    rw [getD_set_true _ _ _ (by rw [h.len]; exact hi), h.vis j]
    simp only [List.nil_append, List.mem_append, List.mem_singleton]
    tauto
  · intro p u q hpq
    simp at hpq
  · intro t ht
    simp at ht

/-- One iteration of the outer loop keeps its invariant. -/
theorem OuterInv.next {nb : Nat → List Nat} {n i : Nat} {st : List Bool × List (Nat × List Nat)}
    (hnb : ∀ t < n, ∀ u ∈ nb t, u < n) (h : OuterInv nb n i st) (hi : i < n) :
    OuterInv nb n (i + 1) (componentsStep nb n st i) := by
  unfold componentsStep
  by_cases hv : st.1.getD i false = true
  · simp only [hv, if_true]
    refine ⟨h.len, h.nodup, h.vis, ?_, ?_, h.sorted, h.seedMin, h.parts⟩
    · intro j hj
      rcases Nat.lt_succ_iff_lt_or_eq.1 hj with hj | rfl
      · exact h.below j hj
      · exact hv
    · intro sp hsp
      exact Nat.lt_succ_of_lt (h.seedsLt sp hsp)
  · have hv' : st.1.getD i false = false := by simpa using hv
    simp only [hv', Bool.false_eq_true, if_false]
    obtain ⟨hd, hstack⟩ := DfsInv.run hnb n _ (DfsInv.of_seed h hi hv') (by simp)
    have hpart : ∃ rest, (dfs nb n ⟨st.1.set i true, [i], []⟩).part = i :: rest := by
      rcases hd.hd with ⟨_, hs⟩ | hr
      · rw [hstack] at hs; simp at hs
      · exact hr
    have hnd := hd.nodup
    have hvis := hd.vis
    rw [hstack] at hnd hvis
    simp only [List.append_nil] at hnd hvis
    refine ⟨hd.len, ?_, ?_, ?_, ?_, ?_, ?_, ?_⟩
    · simpa using hnd
    · intro j
      rw [hvis j]
      simp
    · intro j hj
      rw [hvis j]
      rcases Nat.lt_succ_iff_lt_or_eq.1 hj with hj | rfl
      · exact List.mem_append_left _ ((h.vis j).1 (h.below j hj))
      · obtain ⟨r, hr⟩ := hpart
        rw [hr]
        simp
    · intro sp hsp
      rcases List.mem_append.1 hsp with hsp | hsp
      · exact Nat.lt_succ_of_lt (h.seedsLt sp hsp)
      · simp only [List.mem_singleton] at hsp
        subst hsp
        exact Nat.lt_succ_self _
    · rw [List.pairwise_append]
      refine ⟨h.sorted, by simp, ?_⟩
      intro a ha b hb
      simp only [List.mem_singleton] at hb
      subst hb
      exact h.seedsLt a ha
    · intro sp hsp u hu
      rcases List.mem_append.1 hsp with hsp | hsp
      · exact h.seedMin sp hsp u hu
      · simp only [List.mem_singleton] at hsp
        subst hsp
        simp only at hu ⊢
        by_contra hlt
        have hlt : u < i := Nat.lt_of_not_le hlt
        have hdone := (h.vis u).1 (h.below u hlt)
        exact (List.nodup_append.1 hnd).2.2 hdone hu
    · apply PartsOK.append _ _ h.parts
      simp only [List.nil_append]
      refine ⟨hpart, hd.reachP, ?_, hnd, ⟨st.1, h.len, h.vis, hi, rfl, hstack⟩⟩
      intro t ht u hu
      exact (hvis u).1 (hd.closed t ht u hu)

theorem OuterInv.start (nb : Nat → List Nat) (n : Nat) :
    OuterInv nb n 0 (List.replicate n false, []) := by
  refine ⟨by simp, by simp, ?_, by simp, by simp, by simp, by simp, trivial⟩
  intro j
  simp only [List.map_nil, List.flatten_nil, List.not_mem_nil, iff_false,
    Bool.not_eq_true]
  rw [List.getD_eq_getElem?_getD]
  by_cases hj : j < n
  · simp [List.getElem?_replicate, hj]
  · simp [List.getElem?_replicate, hj]

/-- The outer loop ends with its invariant at `n`. -/
theorem OuterInv.final {nb : Nat → List Nat} {n : Nat}
    (hnb : ∀ t < n, ∀ u ∈ nb t, u < n) : OuterInv nb n n (StlViewer.components nb n) := by
  have key : ∀ k, k ≤ n → OuterInv nb n k
      ((List.range k).foldl (componentsStep nb n) (List.replicate n false, [])) := by
    intro k
    induction k with
    | zero => intro _; exact OuterInv.start nb n
    | succ k ih =>
      intro hk
      rw [List.range_succ, List.foldl_append]
      exact (ih (by omega)).next hnb (by omega)
  exact key n le_rfl

/-! ## The code is the graph search over `neighbours` -/

section Link

variable {K : Type} [LinearOrderedField K]

theorem visitEdge_eq (pi : K) (edgeMap : EdgeMap K) (v1 v2 v3 : Vector3 K) (s : Traversal) :
    visitEdge pi edgeMap v1 v2 v3 s = (chosen pi edgeMap v1 v2 v3).toList.foldl pushNew s := by
  unfold visitEdge chosen
  cases edgeMap.find ⟨v2, v1⟩ <;> rfl

theorem popAndVisit_eq (pi : K) (pos : List (Fl K)) (edgeMap : EdgeMap K) (t : Nat)
    (s : Traversal) :
    popAndVisit pi pos edgeMap t s =
      (neighbours pi pos edgeMap t).foldl pushNew { s with part := s.part ++ [t] } := by
  simp only [popAndVisit, neighbours, visitEdge_eq, List.foldl_append]

theorem whileLoop_eq_dfs (pi : K) (pos : List (Fl K)) (edgeMap : EdgeMap K) :
    ∀ (fuel : Nat) (s : Traversal),
      whileLoop pi pos edgeMap fuel s = dfs (neighbours pi pos edgeMap) fuel s := by
  intro fuel
  induction fuel with
  | zero => intro s; rfl
  | succ fuel ih =>
    intro s
    unfold whileLoop dfs
    split
    · rfl
    · rw [popAndVisit_eq, ih]

theorem partsStep_eq (pi : K) (pos : List (Fl K)) (edgeMap : EdgeMap K) (n : Nat) :
    partsStep pi pos edgeMap n = componentsStep (neighbours pi pos edgeMap) n := by
  funext st i
  simp only [partsStep, componentsStep, traverseFrom, whileLoop_eq_dfs]

/-- On a valid input the recorded seeds and parts are those of the graph search. -/
theorem splitSeededParts_eq (pi : K) (pos : List (Fl K)) (h9 : pos.length % 9 = 0)
    (h0 : pos.length / 9 ≠ 0) :
    splitSeededParts pi pos =
      (components (neighbours pi pos (buildEdgeMap pos (pos.length / 9)))
        (pos.length / 9)).2 := by
  simp only [splitSeededParts, h9, h0, ne_eq, not_true_eq_false, if_false, partsStep_eq,
    components]

/-- The outer loop and its recording copy run in step. -/
theorem outer_foldl_eq (pi : K) (pos : List (Fl K)) (edgeMap : EdgeMap K) (n : Nat)
    (l : List Nat) :
    ∀ (st : List Bool × List (List (Fl K))) (st' : List Bool × List (Nat × List Nat)),
      st.1 = st'.1 → st.2 = st'.2.map (fun sp => partPos pos sp.2) →
      (l.foldl (outerStep pi pos edgeMap n) st).1 =
          (l.foldl (partsStep pi pos edgeMap n) st').1 ∧
        (l.foldl (outerStep pi pos edgeMap n) st).2 =
          (l.foldl (partsStep pi pos edgeMap n) st').2.map (fun sp => partPos pos sp.2) := by
  induction l with
  | nil => intro st st' h1 h2; exact ⟨h1, h2⟩
  | cons i l ih =>
    intro st st' h1 h2
    simp only [List.foldl_cons]
    apply ih
    · simp only [outerStep, partsStep, h1]
      split_ifs <;> simp [h1]
    · simp only [outerStep, partsStep, h1]
      split_ifs <;> simp [h1, h2]

/-- The result is the serialisation of the recorded parts, in order. -/
theorem splitDisjointGeometry_eq_map (pi : K) (pos : List (Fl K)) :
    splitDisjointGeometry pi pos = (splitParts pi pos).map (partPos pos) := by
  unfold splitDisjointGeometry splitParts splitSeededParts
  by_cases h9 : pos.length % 9 ≠ 0
  · simp [h9]
  by_cases h0 : pos.length / 9 = 0
  · simp [h0]
  have := (outer_foldl_eq pi pos (buildEdgeMap pos (pos.length / 9)) (pos.length / 9)
    (List.range (pos.length / 9)) (List.replicate (pos.length / 9) false, [])
    (List.replicate (pos.length / 9) false, []) rfl rfl).2
  simp only [h9, h0, if_false, this, List.map_map]
  rfl

end Link

/-! ## The edge index -/

section Index

variable {K : Type} [LinearOrderedField K]

theorem Fl.feq_symm (a b : Fl K) : a.feq b = b.feq a := by
  cases a <;> cases b <;> simp [Fl.feq, eq_comm]

theorem Fl.feq_trans {a b c : Fl K} (h1 : a.feq b = true) (h2 : b.feq c = true) :
    a.feq c = true := by
  cases a <;> cases b <;> cases c <;> simp_all [Fl.feq]

theorem Vector3.vbeq_symm (a b : Vector3 K) : a.beq b = b.beq a := by
  simp [Vector3.beq, Fl.feq_symm a.x, Fl.feq_symm a.y, Fl.feq_symm a.z]

theorem Vector3.vbeq_trans {a b c : Vector3 K} (h1 : a.beq b = true) (h2 : b.beq c = true) :
    a.beq c = true := by
  simp only [Vector3.beq, Bool.and_eq_true] at h1 h2 ⊢
  exact ⟨⟨Fl.feq_trans h1.1.1 h2.1.1, Fl.feq_trans h1.1.2 h2.1.2⟩, Fl.feq_trans h1.2 h2.2⟩

theorem Edge.ebeq_symm (a b : Edge K) : a.beq b = b.beq a := by
  simp [Edge.beq, Vector3.vbeq_symm a.v1, Vector3.vbeq_symm a.v2]

theorem Edge.ebeq_trans {a b c : Edge K} (h1 : a.beq b = true) (h2 : b.beq c = true) :
    a.beq c = true := by
  simp only [Edge.beq, Bool.and_eq_true] at h1 h2 ⊢
  exact ⟨Vector3.vbeq_trans h1.1 h2.1, Vector3.vbeq_trans h1.2 h2.2⟩

/-- A lookup after `edgeMap[e].push_back(t)`. -/
theorem EdgeMap.find_pushBack (m : EdgeMap K) (e q : Edge K) (t : Triangle K) :
    (m.pushBack e t).find q =
      if e.beq q then some ((m.find q).getD [] ++ [t]) else m.find q := by
  induction m with
  | nil => simp [EdgeMap.pushBack, EdgeMap.find]
  | cons kb rest ih =>
    obtain ⟨k, b⟩ := kb
    simp only [EdgeMap.pushBack]
    by_cases hke : k.beq e = true
    · simp only [hke, if_true, EdgeMap.find]
      by_cases heq : e.beq q = true
      · simp [heq, Edge.ebeq_trans hke heq]
      · have hkq : ¬ k.beq q = true := by
          intro hkq
          apply heq
          rw [Edge.ebeq_symm] at hke
          exact Edge.ebeq_trans hke hkq
        simp [heq, hkq]
    · simp only [hke, EdgeMap.find]
      by_cases hkq : k.beq q = true
      · have heq : ¬ e.beq q = true := by
          intro heq
          apply hke
          rw [Edge.ebeq_symm] at heq
          exact Edge.ebeq_trans hkq heq
        simp [hkq, heq]
      · simp only [hkq, if_false, Bool.false_eq_true]
        exact ih

/-- A lookup after a sequence of insertions. -/
theorem EdgeMap.find_insertAll (ins : List (Edge K × Triangle K)) (q : Edge K) :
    ∀ m : EdgeMap K,
      (ins.foldl (fun m p => EdgeMap.pushBack m p.1 p.2) m).find q =
        if (ins.filter (fun p => p.1.beq q)).isEmpty then m.find q
        else some ((m.find q).getD [] ++ (ins.filter (fun p => p.1.beq q)).map Prod.snd) := by
  induction ins with
  | nil => intro m; simp
  | cons p ins ih =>
    intro m
    rw [List.foldl_cons, ih, EdgeMap.find_pushBack]
    by_cases hp : p.1.beq q = true
    · rw [List.filter_cons_of_pos (p := fun p => p.1.beq q) (a := p) (l := ins) hp]
      simp only [hp, if_true, Option.getD_some, List.isEmpty_cons, Bool.false_eq_true,
        if_false, List.map_cons]
      cases List.filter (fun p => p.1.beq q) ins <;> simp
    · simp only [hp, if_false, Bool.false_eq_true]
      rw [List.filter_cons_of_neg (p := fun p => p.1.beq q) (a := p) (l := ins) hp]

theorem buildEdgeMap_eq (pos : List (Fl K)) (n : Nat) :
    buildEdgeMap pos n = (edgeRecords pos n).foldl (fun m p => EdgeMap.pushBack m p.1 p.2) [] := by
  induction n with
  | zero => rfl
  | succ n ih =>
    unfold buildEdgeMap edgeRecords at *
    rw [List.range_succ, List.foldl_append, List.flatMap_append, List.foldl_append, ih]
    simp [addTriangle, edgesOf, normalOf]

/-- The bucket found for a key holds the records of the directed edges equal to the key, in
the order of insertion; no bucket is found when there is none. -/
theorem find_buildEdgeMap (pos : List (Fl K)) (n : Nat) (q : Edge K) :
    (buildEdgeMap pos n).find q =
      if ((edgeRecords pos n).filter (fun p => p.1.beq q)).isEmpty then none
      else some (((edgeRecords pos n).filter (fun p => p.1.beq q)).map Prod.snd) := by
  rw [buildEdgeMap_eq, EdgeMap.find_insertAll]
  simp [EdgeMap.find]

theorem mem_edgeRecords {pos : List (Fl K)} {n : Nat} {p : Edge K × Triangle K} :
    p ∈ edgeRecords pos n ↔
      ∃ i, i < n ∧ p.1 ∈ edgesOf pos i ∧ p.2 = ⟨i, normalOf pos i⟩ := by
  simp only [edgeRecords, List.mem_flatMap, List.mem_range, List.mem_map]
  constructor
  · rintro ⟨i, hi, e, he, rfl⟩
    exact ⟨i, hi, he, rfl⟩
  · rintro ⟨i, hi, he, hp⟩
    exact ⟨i, hi, p.1, he, by rw [← hp]⟩

/-- A bucket that is found is not empty and holds indices of input triangles only. -/
theorem find_buildEdgeMap_some {pos : List (Fl K)} {n : Nat} {q : Edge K}
    {tris : List (Triangle K)} (h : (buildEdgeMap pos n).find q = some tris) :
    tris ≠ [] ∧ ∀ c ∈ tris, c.triIdx < n ∧ c.triNormal = normalOf pos c.triIdx ∧
      ∃ e ∈ edgesOf pos c.triIdx, e.beq q = true := by
  rw [find_buildEdgeMap] at h
  split_ifs at h with hnil
  simp only [Option.some.injEq] at h
  subst h
  refine ⟨by simpa [List.isEmpty_iff] using hnil, ?_⟩
  intro c hc
  simp only [List.mem_map, List.mem_filter] at hc
  obtain ⟨p, ⟨hp, hq⟩, rfl⟩ := hc
  obtain ⟨i, hi, he, h2⟩ := mem_edgeRecords.1 hp
  rw [h2]
  exact ⟨hi, rfl, p.1, he, hq⟩

/-- Whatever `visitEdge` looks at is an input triangle. -/
theorem chosen_lt {pi : K} {pos : List (Fl K)} {n : Nat} {v1 v2 v3 : Vector3 K} {u : Nat}
    (h : chosen pi (buildEdgeMap pos n) v1 v2 v3 = some u) : u < n := by
  unfold chosen at h
  cases hf : (buildEdgeMap pos n).find ⟨v2, v1⟩ with
  | none => rw [hf] at h; simp at h
  | some tris =>
    rw [hf] at h
    simp only [Option.map_some', Option.some.injEq] at h
    obtain ⟨hne, hall⟩ := find_buildEdgeMap_some hf
    obtain ⟨c, hc, hu⟩ := findNext_mem pi v1 v2 v3 tris hne
    rw [← h, hu]
    exact (hall c hc).1

theorem neighbours_lt (pi : K) (pos : List (Fl K)) (n : Nat) :
    ∀ t < n, ∀ u ∈ neighbours pi pos (buildEdgeMap pos n) t, u < n := by
  intro t _ u hu
  simp only [neighbours, List.mem_append, Option.mem_toList, Option.mem_def] at hu
  rcases hu with (hu | hu) | hu <;> exact chosen_lt hu

end Index

/-! ## The parts of a valid input -/

section Parts

variable {K : Type} [LinearOrderedField K]

/-- The outer-loop invariant holds for the recorded run of `splitDisjointGeometry`. -/
theorem splitSeededParts_inv (pi : K) (pos : List (Fl K)) (h9 : pos.length % 9 = 0)
    (h0 : pos.length ≠ 0) :
    ∃ visited, OuterInv (neighbours pi pos (buildEdgeMap pos (pos.length / 9)))
      (pos.length / 9) (pos.length / 9) (visited, splitSeededParts pi pos) := by
  have h0' : pos.length / 9 ≠ 0 := by omega
  rw [splitSeededParts_eq pi pos h9 h0']
  exact ⟨_, OuterInv.final (neighbours_lt pi pos _)⟩

theorem mem_splitParts_flatten (pi : K) (pos : List (Fl K)) (h9 : pos.length % 9 = 0)
    (h0 : pos.length ≠ 0) (j : Nat) :
    j ∈ (splitParts pi pos).flatten ↔ j < pos.length / 9 := by
  obtain ⟨visited, h⟩ := splitSeededParts_inv pi pos h9 h0
  unfold splitParts
  rw [← h.vis j]
  constructor
  · intro hj
    have := lt_length_of_getD hj
    rw [h.len] at this
    exact this
  · exact h.below j

theorem splitParts_perm (pi : K) (pos : List (Fl K)) (h9 : pos.length % 9 = 0)
    (h0 : pos.length ≠ 0) :
    (splitParts pi pos).flatten.Perm (List.range (pos.length / 9)) := by
  obtain ⟨visited, h⟩ := splitSeededParts_inv pi pos h9 h0
  have hnd : (splitParts pi pos).flatten.Nodup := h.nodup
  rw [List.perm_ext_iff_of_nodup hnd (List.nodup_range _)]
  intro j
  rw [mem_splitParts_flatten pi pos h9 h0, List.mem_range]

theorem partPos_flatten (pos : List (Fl K)) (parts : List (List Nat)) :
    (parts.map (partPos pos)).flatten = partPos pos parts.flatten := by
  induction parts with
  | nil => rfl
  | cons P parts ih =>
    simp only [List.map_cons, List.flatten_cons, ih, partPos, List.flatMap_append]

end Parts

/-! ## Partition, length and order of the result -/

section Partition

variable {K : Type} [LinearOrderedField K]

/-- C1 (partition property): on an input of `triCount = len(pos)/9 > 0` triangles the
triangle indices of all the parts together are a permutation of `0 .. triCount-1` (each
index exactly once), the result is the serialisation of the parts, and the concatenation of
the returned buffers is the concatenation of the 9-float groups of the input taken in that
order. -/
theorem splitDisjointGeometry_partition (pi : K) (pos : List (Fl K))
    (h9 : pos.length % 9 = 0) (h0 : pos.length ≠ 0) :
    (splitParts pi pos).flatten.Perm (List.range (pos.length / 9)) ∧
      splitDisjointGeometry pi pos =
        (splitParts pi pos).map
          (fun part => part.flatMap (fun i => (pos.drop (i * 9)).take 9)) ∧
      (splitDisjointGeometry pi pos).flatten =
        (splitParts pi pos).flatten.flatMap (fun i => (pos.drop (i * 9)).take 9) := by
  refine ⟨splitParts_perm pi pos h9 h0, splitDisjointGeometry_eq_map pi pos, ?_⟩
  rw [splitDisjointGeometry_eq_map, partPos_flatten]
  rfl

/-- The partition property at the tetrahedron. -/
theorem splitDisjointGeometry_partition_witness :
    tetrahedron.length % 9 = 0 ∧ tetrahedron.length ≠ 0 ∧
      (splitParts M_PI_double tetrahedron).flatten.Perm
        (List.range (tetrahedron.length / 9)) ∧
      splitDisjointGeometry M_PI_double tetrahedron =
        (splitParts M_PI_double tetrahedron).map
          (fun part => part.flatMap (fun i => (tetrahedron.drop (i * 9)).take 9)) ∧
      (splitDisjointGeometry M_PI_double tetrahedron).flatten =
        (splitParts M_PI_double tetrahedron).flatten.flatMap
          (fun i => (tetrahedron.drop (i * 9)).take 9) :=
  ⟨by decide, by decide,
    splitDisjointGeometry_partition M_PI_double tetrahedron (by decide) (by decide)⟩

/-- C2 (length property): an input whose length is not a multiple of 9, or is 0, gives the
empty sequence of components. -/
theorem splitDisjointGeometry_invalid_length (pi : K) (pos : List (Fl K))
    (h : pos.length % 9 ≠ 0 ∨ pos.length = 0) : splitDisjointGeometry pi pos = [] := by
  unfold splitDisjointGeometry
  rcases h with h | h
  · simp [h]
  · simp [h]

/-- The length property at an input of ten floats and at the empty input. -/
theorem splitDisjointGeometry_invalid_length_witness :
    splitDisjointGeometry M_PI_double (floats [0, 0, 0, 1, 0, 0, 0, 1, 0, 5]) = [] ∧
      splitDisjointGeometry M_PI_double (floats []) = [] :=
  ⟨splitDisjointGeometry_invalid_length M_PI_double _ (Or.inl (by decide)),
    splitDisjointGeometry_invalid_length M_PI_double _ (Or.inr (by decide))⟩

end Partition

/-! ## Order of the components -/

section Order

variable {K : Type} [LinearOrderedField K]

theorem PartsOK.hd_of_mem {nb : Nat → List Nat} {n : Nat} :
    ∀ (parts : List (Nat × List Nat)) (done : List Nat), PartsOK nb n done parts →
      ∀ sp ∈ parts, ∃ tl, sp.2 = sp.1 :: tl := by
  intro parts
  induction parts with
  | nil => intro _ _ sp hsp; simp at hsp
  | cons a parts ih =>
    intro done h sp hsp
    rcases List.mem_cons.1 hsp with rfl | hsp
    · exact h.1.hd
    · exact ih _ h.2 sp hsp

/-- The first part of a valid input starts with triangle 0. -/
theorem splitSeededParts_head (pi : K) (pos : List (Fl K)) (h9 : pos.length % 9 = 0)
    (h0 : pos.length ≠ 0) :
    ∃ tl rest, splitSeededParts pi pos = (0, 0 :: tl) :: rest := by
  obtain ⟨visited, h⟩ := splitSeededParts_inv pi pos h9 h0
  have hmem : 0 ∈ ((splitSeededParts pi pos).map Prod.snd).flatten :=
    (h.vis 0).1 (h.below 0 (by omega))
  simp only [List.mem_flatten, List.mem_map] at hmem
  obtain ⟨P, ⟨sp, hsp, rfl⟩, h0P⟩ := hmem
  have hseed : sp.1 = 0 := Nat.le_zero.1 (h.seedMin sp hsp 0 h0P)
  cases hparts : splitSeededParts pi pos with
  | nil => rw [hparts] at hsp; simp at hsp
  | cons a rest =>
    have hsorted := h.sorted
    simp only [hparts] at hsorted hsp
    have ha : a.1 = 0 := by
      rcases List.mem_cons.1 hsp with rfl | hsp
      · exact hseed
      · have := (List.pairwise_cons.1 hsorted).1 sp hsp
        omega
    obtain ⟨tl, htl⟩ := PartsOK.hd_of_mem _ _ h.parts a (by simp [hparts])
    refine ⟨tl, rest, ?_⟩
    rw [← ha, ← htl]

theorem take_nine_partPos (pos : List (Fl K)) (h : 9 ≤ pos.length) (tl : List Nat) :
    (partPos pos (0 :: tl)).take 9 = pos.take 9 := by
  simp only [partPos, List.flatMap_cons, Nat.zero_mul, List.drop_zero]
  rw [List.take_append_of_le_length (by simp [h])]
  rw [List.take_take]
  simp

/-- C5 (component order): in the run on a valid non-empty input each part starts with its
seed, the seed is the smallest triangle index of the part, the seeds increase strictly
along the result, the result lists the serialised parts in that order, and so the first 9
floats of the first component are the first 9 floats of `pos`. -/
theorem splitDisjointGeometry_component_order (pi : K) (pos : List (Fl K))
    (h9 : pos.length % 9 = 0) (h0 : pos.length ≠ 0) :
    (∀ sp ∈ splitSeededParts pi pos, sp.2.head? = some sp.1 ∧ ∀ u ∈ sp.2, sp.1 ≤ u) ∧
      (splitSeededParts pi pos).Pairwise (fun a b => a.1 < b.1) ∧
      splitDisjointGeometry pi pos =
        (splitSeededParts pi pos).map (fun sp => partPos pos sp.2) ∧
      ∃ c rest, splitDisjointGeometry pi pos = c :: rest ∧ c.take 9 = pos.take 9 := by
  obtain ⟨visited, h⟩ := splitSeededParts_inv pi pos h9 h0
  have hmap : splitDisjointGeometry pi pos =
      (splitSeededParts pi pos).map (fun sp => partPos pos sp.2) := by
    rw [splitDisjointGeometry_eq_map, splitParts, List.map_map]
    rfl
  refine ⟨?_, h.sorted, hmap, ?_⟩
  · intro sp hsp
    obtain ⟨tl, htl⟩ := PartsOK.hd_of_mem _ _ h.parts sp hsp
    exact ⟨by rw [htl]; rfl, h.seedMin sp hsp⟩
  · obtain ⟨tl, rest, hhead⟩ := splitSeededParts_head pi pos h9 h0
    refine ⟨partPos pos (0 :: tl), rest.map (fun sp => partPos pos sp.2), ?_, ?_⟩
    · rw [hmap, hhead]
      rfl
    · exact take_nine_partPos pos (by omega) tl

/-- The component order at the tetrahedron. -/
theorem splitDisjointGeometry_component_order_witness :
    tetrahedron.length % 9 = 0 ∧ tetrahedron.length ≠ 0 ∧
      (∀ sp ∈ splitSeededParts M_PI_double tetrahedron,
        sp.2.head? = some sp.1 ∧ ∀ u ∈ sp.2, sp.1 ≤ u) ∧
      (splitSeededParts M_PI_double tetrahedron).Pairwise (fun a b => a.1 < b.1) ∧
      splitDisjointGeometry M_PI_double tetrahedron =
        (splitSeededParts M_PI_double tetrahedron).map
          (fun sp => partPos tetrahedron sp.2) ∧
      ∃ c rest, splitDisjointGeometry M_PI_double tetrahedron = c :: rest ∧
        c.take 9 = tetrahedron.take 9 :=
  ⟨by decide, by decide,
    splitDisjointGeometry_component_order M_PI_double tetrahedron (by decide) (by decide)⟩

end Order

/-! ## Components of a symmetric neighbour relation -/

/-- Every triangle of a part is reached from the seed along neighbour steps inside the
part. -/
theorem PartOK.reachable {nb : Nat → List Nat} {n : Nat} {done : List Nat} {seed : Nat}
    {P : List Nat} (h : PartOK nb n done seed P) (R : Nat → Nat → Prop)
    (hR : ∀ t ∈ P, ∀ u ∈ P, u ∈ nb t → R t u) :
    ∀ u ∈ P, Relation.ReflTransGen R seed u := by
  have key : ∀ k, ∀ p u q, P = p ++ u :: q → p.length = k → Relation.ReflTransGen R seed u := by
    intro k
    induction k using Nat.strong_induction_on with
    | _ k ih =>
      intro p u q hP hk
      rcases h.reach p u q hP with rfl | ⟨t, ht, hut⟩
      · obtain ⟨tl, htl⟩ := h.hd
        rw [htl] at hP
        simp only [List.nil_append, List.cons.injEq] at hP
        rw [hP.1]
      · obtain ⟨p1, p2, rfl⟩ := List.append_of_mem ht
        have hseed_t := ih p1.length (by rw [← hk]; simp) p1 t (p2 ++ u :: q)
          (by rw [hP]; simp) rfl
        refine hseed_t.tail (hR t ?_ u ?_ hut)
        · rw [hP]; simp
        · rw [hP]; simp
  intro u hu
  obtain ⟨p, q, rfl⟩ := List.append_of_mem hu
  exact key p.length p u q rfl rfl

/-- With a symmetric neighbour relation every part is closed under it. -/
theorem PartsOK.closed_of_symm {nb : Nat → List Nat} {n : Nat}
    (hsym : ∀ t u, t < n → u ∈ nb t → t ∈ nb u) :
    ∀ (parts : List (Nat × List Nat)) (done : List Nat), PartsOK nb n done parts →
      (done ++ (parts.map Prod.snd).flatten).Nodup →
      (∀ x ∈ (parts.map Prod.snd).flatten, x < n) →
      (∀ t ∈ done, ∀ u ∈ nb t, u ∈ done) →
      ∀ sp ∈ parts, ∀ t ∈ sp.2, ∀ u ∈ nb t, u ∈ sp.2 := by
  intro parts
  induction parts with
  | nil => intro _ _ _ _ _ sp hsp; simp at hsp
  | cons a parts ih =>
    intro done h hnd hlt hdone sp hsp
    have hP : ∀ t ∈ a.2, ∀ u ∈ nb t, u ∈ a.2 := by
      intro t ht u hu
      rcases List.mem_append.1 (h.1.closed t ht u hu) with hud | huP
      · exfalso
        have htd := hdone u hud t (hsym t u (hlt t (by simp [ht])) hu)
        have := (List.nodup_append.1 hnd).2.2 htd
        exact this (by simp [ht])
      · exact huP
    rcases List.mem_cons.1 hsp with rfl | hsp
    · exact hP
    · refine ih (done ++ a.2) h.2 (by simpa using hnd)
        (fun x hx => hlt x (by simp only [List.map_cons, List.flatten_cons, List.mem_append]
                               exact Or.inr hx)) ?_ sp hsp
      intro t ht u hu
      rcases List.mem_append.1 ht with ht | ht
      · exact List.mem_append_left _ (hdone t ht u hu)
      · exact List.mem_append_right _ (hP t ht u hu)

theorem PartsOK.partOK_of_mem {nb : Nat → List Nat} {n : Nat} :
    ∀ (parts : List (Nat × List Nat)) (done : List Nat), PartsOK nb n done parts →
      ∀ sp ∈ parts, ∃ done', PartOK nb n done' sp.1 sp.2 := by
  intro parts
  induction parts with
  | nil => intro _ _ sp hsp; simp at hsp
  | cons a parts ih =>
    intro done h sp hsp
    rcases List.mem_cons.1 hsp with rfl | hsp
    · exact ⟨done, h.1⟩
    · exact ih _ h.2 sp hsp

/-- With a symmetric neighbour relation two vertices are in the same part exactly when a
chain of neighbour steps joins them. -/
theorem OuterInv.same_part_iff {nb : Nat → List Nat} {n : Nat}
    {st : List Bool × List (Nat × List Nat)} (h : OuterInv nb n n st)
    (hsym : ∀ t u, t < n → u ∈ nb t → t ∈ nb u) {i j : Nat} (hi : i < n) :
    (∃ sp ∈ st.2, i ∈ sp.2 ∧ j ∈ sp.2) ↔
      Relation.ReflTransGen (fun a b => a < n ∧ b ∈ nb a) i j := by
  have hlt : ∀ x ∈ (st.2.map Prod.snd).flatten, x < n := by
    intro x hx
    have := lt_length_of_getD ((h.vis x).2 hx)
    rw [h.len] at this
    exact this
  have hltP : ∀ sp ∈ st.2, ∀ x ∈ sp.2, x < n := by
    intro sp hsp x hx
    apply hlt
    simp only [List.mem_flatten, List.mem_map]
    exact ⟨sp.2, ⟨sp, hsp, rfl⟩, hx⟩
  have hclosed := PartsOK.closed_of_symm hsym st.2 [] h.parts (by simpa using h.nodup)
    hlt (by simp)
  constructor
  · rintro ⟨sp, hsp, hiP, hjP⟩
    obtain ⟨done', hok⟩ := PartsOK.partOK_of_mem _ _ h.parts sp hsp
    have hreach := hok.reachable (fun a b => (a < n ∧ b ∈ nb a) ∧ (b < n ∧ a ∈ nb b))
      (fun t ht u hu hut => ⟨⟨hltP sp hsp t ht, hut⟩, hltP sp hsp u hu,
        hsym t u (hltP sp hsp t ht) hut⟩)
    have hsi := hreach i hiP
    have hsj := hreach j hjP
    have his : Relation.ReflTransGen (fun a b => a < n ∧ b ∈ nb a) i sp.1 := by
      have := Relation.ReflTransGen.swap hsi
      exact this.mono (fun a b hab => hab.2)
    exact his.trans (hsj.mono (fun a b hab => hab.1))
  · intro hchain
    have hmem : i ∈ (st.2.map Prod.snd).flatten := (h.vis i).1 (h.below i hi)
    simp only [List.mem_flatten, List.mem_map] at hmem
    obtain ⟨P, ⟨sp, hsp, rfl⟩, hiP⟩ := hmem
    refine ⟨sp, hsp, hiP, ?_⟩
    induction hchain with
    | refl => exact hiP
    | tail _ hbc ih => exact hclosed sp hsp _ ih _ hbc.2

/-! ## Manifold inputs -/

section ManifoldInputs

variable {K : Type} [LinearOrderedField K]

theorem EdgeMap.find_mem {m : EdgeMap K} {q : Edge K} {b : List (Triangle K)}
    (h : m.find q = some b) : ∃ k, (k, b) ∈ m := by
  induction m with
  | nil => simp [EdgeMap.find] at h
  | cons kb rest ih =>
    obtain ⟨k, b'⟩ := kb
    simp only [EdgeMap.find] at h
    split_ifs at h with hk
    · simp only [Option.some.injEq] at h
      exact ⟨k, by simp [h]⟩
    · obtain ⟨k', hk'⟩ := ih h
      exact ⟨k', by simp [hk']⟩

theorem sharesEdge_iff {pos : List (Fl K)} {i j : Nat} :
    sharesEdge pos i j = true ↔
      ∃ e ∈ edgesOf pos i, ∃ f ∈ edgesOf pos j, f.beq ⟨e.v2, e.v1⟩ = true := by
  simp only [sharesEdge, List.any_eq_true]

theorem sharesEdge_symm (pos : List (Fl K)) (i j : Nat) :
    sharesEdge pos i j = true → sharesEdge pos j i = true := by
  rw [sharesEdge_iff, sharesEdge_iff]
  rintro ⟨e, he, f, hf, hfe⟩
  refine ⟨f, hf, e, he, ?_⟩
  simp only [Edge.beq, Bool.and_eq_true] at hfe ⊢
  rw [Vector3.vbeq_symm e.v1, Vector3.vbeq_symm e.v2]
  exact ⟨hfe.2, hfe.1⟩

/-- Whatever `visitEdge(v1, v2, v3)` looks at has a directed edge equal to `(v2, v1)`. -/
theorem chosen_edge {pi : K} {pos : List (Fl K)} {n : Nat} {v1 v2 v3 : Vector3 K} {u : Nat}
    (h : chosen pi (buildEdgeMap pos n) v1 v2 v3 = some u) :
    ∃ f ∈ edgesOf pos u, f.beq ⟨v2, v1⟩ = true := by
  unfold chosen at h
  cases hf : (buildEdgeMap pos n).find ⟨v2, v1⟩ with
  | none => rw [hf] at h; simp at h
  | some tris =>
    rw [hf] at h
    simp only [Option.map_some', Option.some.injEq] at h
    obtain ⟨hne, hall⟩ := find_buildEdgeMap_some hf
    obtain ⟨c, hc, hu⟩ := findNext_mem pi v1 v2 v3 tris hne
    rw [← h, hu]
    exact (hall c hc).2.2

theorem sharesEdge_of_mem_neighbours {pi : K} {pos : List (Fl K)} {n : Nat} {t u : Nat}
    (h : u ∈ neighbours pi pos (buildEdgeMap pos n) t) : sharesEdge pos t u = true := by
  rw [sharesEdge_iff]
  simp only [neighbours, List.mem_append, Option.mem_toList, Option.mem_def] at h
  rcases h with (h | h) | h
  · obtain ⟨f, hf, hb⟩ := chosen_edge h
    exact ⟨⟨vertexAt pos (t * 9), vertexAt pos (t * 9 + 3)⟩, by simp [edgesOf], f, hf, hb⟩
  · obtain ⟨f, hf, hb⟩ := chosen_edge h
    exact ⟨⟨vertexAt pos (t * 9 + 3), vertexAt pos (t * 9 + 6)⟩, by simp [edgesOf], f, hf, hb⟩
  · obtain ⟨f, hf, hb⟩ := chosen_edge h
    exact ⟨⟨vertexAt pos (t * 9 + 6), vertexAt pos (t * 9)⟩, by simp [edgesOf], f, hf, hb⟩

/-- In a manifold input the only triangle with a directed edge equal to `(v2, v1)` is the
one `visitEdge(v1, v2, v3)` looks at. -/
theorem chosen_of_manifold {pi : K} {pos : List (Fl K)} (hman : Manifold pos)
    (v1 v2 v3 : Vector3 K) {u : Nat} (hu : u < pos.length / 9) {f : Edge K}
    (hf : f ∈ edgesOf pos u) (hb : f.beq ⟨v2, v1⟩ = true) :
    chosen pi (buildEdgeMap pos (pos.length / 9)) v1 v2 v3 = some u := by
  have hrec : (f, (⟨u, normalOf pos u⟩ : Triangle K)) ∈
      (edgeRecords pos (pos.length / 9)).filter (fun p => p.1.beq ⟨v2, v1⟩) := by
    rw [List.mem_filter]
    exact ⟨mem_edgeRecords.2 ⟨u, hu, hf, rfl⟩, hb⟩
  have hfind := find_buildEdgeMap pos (pos.length / 9) ⟨v2, v1⟩
  have hne : ((edgeRecords pos (pos.length / 9)).filter
      (fun p => p.1.beq ⟨v2, v1⟩)).isEmpty = false := by
    cases hl : (edgeRecords pos (pos.length / 9)).filter (fun p => p.1.beq ⟨v2, v1⟩) with
    | nil => rw [hl] at hrec; simp at hrec
    | cons a l => rfl
  rw [hne] at hfind
  simp only [Bool.false_eq_true, if_false] at hfind
  obtain ⟨k, hk⟩ := EdgeMap.find_mem hfind
  have hlen := hman _ hk
  simp only at hlen
  have hmem : (⟨u, normalOf pos u⟩ : Triangle K) ∈
      ((edgeRecords pos (pos.length / 9)).filter (fun p => p.1.beq ⟨v2, v1⟩)).map Prod.snd :=
    List.mem_map.2 ⟨_, hrec, rfl⟩
  unfold chosen
  rw [hfind]
  generalize ((edgeRecords pos (pos.length / 9)).filter
    (fun p => p.1.beq ⟨v2, v1⟩)).map Prod.snd = tris at hlen hmem
  match tris, hlen, hmem with
  | [c], _, hmem =>
    simp only [List.mem_singleton] at hmem
    subst hmem
    rfl
  | _ :: _ :: _, hlen, _ => simp at hlen

theorem mem_neighbours_of_manifold {pi : K} {pos : List (Fl K)} (hman : Manifold pos)
    {t u : Nat} (hu : u < pos.length / 9) (h : sharesEdge pos t u = true) :
    u ∈ neighbours pi pos (buildEdgeMap pos (pos.length / 9)) t := by
  rw [sharesEdge_iff] at h
  obtain ⟨e, he, f, hf, hb⟩ := h
  simp only [neighbours, List.mem_append, Option.mem_toList, Option.mem_def]
  simp only [edgesOf, List.mem_cons, List.mem_singleton, List.not_mem_nil, or_false] at he
  rcases he with rfl | rfl | rfl
  · exact Or.inl (Or.inl (chosen_of_manifold hman _ _ _ hu hf hb))
  · exact Or.inl (Or.inr (chosen_of_manifold hman _ _ _ hu hf hb))
  · exact Or.inr (chosen_of_manifold hman _ _ _ hu hf hb)

/-- C3 (connected components on manifold input): when no bucket of the index holds more
than one record, two triangles are in the same part of the result exactly when a chain of
triangles joins them in which consecutive triangles have a directed edge of the one equal
to the reverse of a directed edge of the other. -/
theorem splitDisjointGeometry_manifold_components (pi : K) (pos : List (Fl K))
    (h9 : pos.length % 9 = 0) (h0 : pos.length ≠ 0) (hman : Manifold pos) (i j : Nat)
    (hi : i < pos.length / 9) (hj : j < pos.length / 9) :
    (∃ P ∈ splitParts pi pos, i ∈ P ∧ j ∈ P) ↔
      Relation.ReflTransGen
        (fun a b => a < pos.length / 9 ∧ b < pos.length / 9 ∧ sharesEdge pos a b = true)
        i j := by
  obtain ⟨visited, h⟩ := splitSeededParts_inv pi pos h9 h0
  have hsym : ∀ t u, t < pos.length / 9 →
      u ∈ neighbours pi pos (buildEdgeMap pos (pos.length / 9)) t →
      t ∈ neighbours pi pos (buildEdgeMap pos (pos.length / 9)) u := by
    intro t u ht hu
    exact mem_neighbours_of_manifold hman ht (sharesEdge_symm pos t u
      (sharesEdge_of_mem_neighbours hu))
  have key := h.same_part_iff hsym (j := j) hi
  have hrel : ∀ a b, (a < pos.length / 9 ∧
      b ∈ neighbours pi pos (buildEdgeMap pos (pos.length / 9)) a) ↔
      (a < pos.length / 9 ∧ b < pos.length / 9 ∧ sharesEdge pos a b = true) := by
    intro a b
    constructor
    · rintro ⟨ha, hb⟩
      exact ⟨ha, neighbours_lt pi pos _ a ha b hb, sharesEdge_of_mem_neighbours hb⟩
    · rintro ⟨ha, hb, hs⟩
      exact ⟨ha, mem_neighbours_of_manifold hman hb hs⟩
  have hparts : (∃ P ∈ splitParts pi pos, i ∈ P ∧ j ∈ P) ↔
      ∃ sp ∈ (visited, splitSeededParts pi pos).2, i ∈ sp.2 ∧ j ∈ sp.2 := by
    simp only [splitParts, List.mem_map]
    constructor
    · rintro ⟨P, ⟨sp, hsp, rfl⟩, h1⟩
      exact ⟨sp, hsp, h1⟩
    · rintro ⟨sp, hsp, h1⟩
      exact ⟨sp.2, ⟨sp, hsp, rfl⟩, h1⟩
  rw [hparts, key]
  constructor
  · intro hc
    exact hc.mono (fun a b hab => (hrel a b).1 hab)
  · intro hc
    exact hc.mono (fun a b hab => (hrel a b).2 hab)

/-- C3 at the two unit cubes far apart: the input is manifold, triangles 0 and 12 are
in different parts and no chain joins them, and the result has exactly two components of 12
triangles (108 floats) each. -/
theorem splitDisjointGeometry_manifold_components_witness :
    twoCubes.length % 9 = 0 ∧ twoCubes.length ≠ 0 ∧ Manifold twoCubes ∧
      ((∃ P ∈ splitParts M_PI_double twoCubes, 0 ∈ P ∧ 12 ∈ P) ↔
        Relation.ReflTransGen
          (fun a b => a < twoCubes.length / 9 ∧ b < twoCubes.length / 9 ∧
            sharesEdge twoCubes a b = true) 0 12) ∧
      (splitParts M_PI_double twoCubes).map List.length = [12, 12] ∧
      (splitDisjointGeometry M_PI_double twoCubes).map List.length = [108, 108] :=
  ⟨by decide!, by decide!, by unfold Manifold; decide!,
    splitDisjointGeometry_manifold_components M_PI_double twoCubes (by decide!) (by decide!)
      (by unfold Manifold; decide!) 0 12 (by decide!) (by decide!),
    by decide!, by decide!⟩

end ManifoldInputs

/-! ## The resolver -/

section ResolverClaims

variable {K : Type} [LinearOrderedField K]

theorem specClampedAngle_eq (pi : K) (v1 v2 v3 : Vector3 K) (c : Triangle K) :
    specClampedAngle pi v1 v2 v3 c =
      candidateAngle pi ((v2.sub v1).cross (v3.sub v1)) (v2.sub v1) c.triNormal := rfl

/-- C6 (resolver selection rule): on a non-empty candidate list
`findNextTriangleWithSharedEdge` returns the index of a member `c` of the list, every
member before `c` has a strictly smaller clamped angle and no member after `c` has a larger
one (`c` is the first member with the largest clamped angle); a list of one member gives
that member; and the result is `SIZE_MAX` only if that is the index of a member. -/
theorem findNextTriangleWithSharedEdge_selects (pi : K) (v1 v2 v3 : Vector3 K)
    (tris : List (Triangle K)) (h : tris ≠ []) :
    (∃ p c s, tris = p ++ c :: s ∧
        findNextTriangleWithSharedEdge pi v1 v2 v3 tris = c.triIdx ∧
        (∀ d ∈ p, (specClampedAngle pi v1 v2 v3 d).lt (specClampedAngle pi v1 v2 v3 c) = true) ∧
        (∀ d ∈ s,
          (specClampedAngle pi v1 v2 v3 c).lt (specClampedAngle pi v1 v2 v3 d) = false)) ∧
      (∀ t, tris = [t] → findNextTriangleWithSharedEdge pi v1 v2 v3 tris = t.triIdx) ∧
      ((∀ d ∈ tris, d.triIdx ≠ SIZE_MAX) →
        findNextTriangleWithSharedEdge pi v1 v2 v3 tris ≠ SIZE_MAX) := by
  refine ⟨?_, ?_, ?_⟩
  · simp only [specClampedAngle_eq]
    exact findNext_first_max pi v1 v2 v3 tris h
  · rintro t rfl
    rfl
  · intro hall
    obtain ⟨c, hc, hres⟩ := findNext_mem pi v1 v2 v3 tris h
    rw [hres]
    exact hall c hc

/-- The selection rule at two candidates with equal angles: the first one is returned. -/
theorem findNextTriangleWithSharedEdge_selects_witness :
    tiedCandidates ≠ [] ∧
      findNextTriangleWithSharedEdge M_PI_double (vec 1 0 0) (vec 0 0 0) (vec 0 0 1)
        tiedCandidates = 1 ∧
      ((∀ d ∈ tiedCandidates, d.triIdx ≠ SIZE_MAX) →
        findNextTriangleWithSharedEdge M_PI_double (vec 1 0 0) (vec 0 0 0) (vec 0 0 1)
          tiedCandidates ≠ SIZE_MAX) :=
  ⟨by decide, by decide!,
    (findNextTriangleWithSharedEdge_selects M_PI_double (vec 1 0 0) (vec 0 0 0) (vec 0 0 1)
      tiedCandidates (by decide)).2.2⟩

end ResolverClaims

/-! ## The values of `notAtan2` -/

section NotAtan

variable {K : Type} [LinearOrderedField K]

/-- The value `(pi/2) * a / (1 + |a|)` that `notAtan2` gives to a finite ratio `a`. -/
theorem normalized_fin (pi a : K) (hpi : pi ≠ 0) (ha : a ≠ 0) :
    (((fin pi).mul (fin (1 / 2))).mul (copysign (fin 1) (fin a))).mul
        ((fin 1).sub ((fin 1).div ((fin 1).add (fin a).abs))) =
      fin (pi * (1 / 2) * (a / (1 + |a|))) := by
  have habs : (0 : K) < |a| := abs_pos.2 ha
  have h1 : (1 : K) + |a| ≠ 0 := by positivity
  have h2 : (1 : K) + -(1 + |a|)⁻¹ ≠ 0 := by
    have : (1 + |a|)⁻¹ < 1 := inv_lt_one_of_one_lt₀ (by linarith)
    linarith
  have h3 : (1 + |a|)⁻¹ ≠ 0 := inv_ne_zero h1
  rcases lt_or_gt_of_ne ha with hneg | hpos
  · simp [Fl.mul, Fl.div, Fl.add, Fl.sub, Fl.neg, Fl.abs, copysign, hpi, ha, h1, h2, h3, hneg]
    rw [abs_of_neg hneg]
    rw [abs_of_neg hneg] at h1
    field_simp
  · simp [Fl.mul, Fl.div, Fl.add, Fl.sub, Fl.neg, Fl.abs, copysign, hpi, ha, h1, h2, h3,
      not_lt.2 hpos.le]
    rw [abs_of_pos hpos]
    rw [abs_of_pos hpos] at h1
    field_simp

theorem notAtan2_fin_pos (pi y x : K) (hpi : pi ≠ 0) (hx : 0 < x) (hy : y ≠ 0) :
    notAtan2 pi (fin y) (fin x) = fin (pi * (1 / 2) * (y / x / (1 + |y / x|))) := by
  have ha : y / x ≠ 0 := div_ne_zero hy hx.ne'
  have hdiv : (fin y).div (fin x) = fin (y / x) := by
    simp [Fl.div, hy, hx.ne']
  unfold notAtan2
  simp only [hdiv, isnan_fin, Bool.false_eq_true, if_false]
  rw [normalized_fin pi _ hpi ha]
  simp [Fl.le, hx.le, not_lt.2 hx.le]

theorem notAtan2_fin_neg (pi y x : K) (hpi : 0 < pi) (hx : x < 0) (hy : y ≠ 0) :
    notAtan2 pi (fin y) (fin x) =
      fin (pi * (1 / 2) * (y / x / (1 + |y / x|)) + (if y < 0 then -pi else pi)) := by
  have ha : y / x ≠ 0 := div_ne_zero hy hx.ne
  have hdiv : (fin y).div (fin x) = fin (y / x) := by
    simp [Fl.div, hy, hx.ne]
  unfold notAtan2
  simp only [hdiv, isnan_fin, Bool.false_eq_true, if_false]
  rw [normalized_fin pi _ hpi.ne' ha]
  have hle : ¬ (0 : K) ≤ x := not_le.2 hx
  by_cases hyn : y < 0
  · simp [Fl.le, hle, hx, copysign, Fl.abs, Fl.neg, Fl.add, hyn, abs_of_pos hpi, hpi.ne']
  · simp [Fl.le, hle, hx, copysign, Fl.abs, Fl.neg, Fl.add, hyn, abs_of_pos hpi, hpi.ne']

theorem ratio_bounds_pos {a : K} (ha : 0 < a) : 0 < a / (1 + |a|) ∧ a / (1 + |a|) < 1 := by
  rw [abs_of_pos ha]
  have h1 : (0 : K) < 1 + a := by linarith
  refine ⟨div_pos ha h1, ?_⟩
  rw [div_lt_one h1]
  linarith

theorem ratio_bounds_neg {a : K} (ha : a < 0) : -1 < a / (1 + |a|) ∧ a / (1 + |a|) < 0 := by
  rw [abs_of_neg ha]
  have h1 : (0 : K) < 1 + -a := by linarith
  refine ⟨?_, div_neg_of_neg_of_pos ha h1⟩
  rw [lt_div_iff₀ h1]
  linarith

/-- The quadrant ranges in exact arithmetic (finite values computed without rounding, `pi`
the value of `M_PI`): for finite non-zero `x` and `y` the value `notAtan2(y, x)` lies
strictly between `0` and `pi/2` when `x > 0, y > 0`, between `-pi/2` and `0` when
`x > 0, y < 0`, between `pi/2` and `pi` when `x < 0, y > 0`, and between `-pi` and `-pi/2`
when `x < 0, y < 0`. -/
theorem notAtan2_quadrant_ranges (pi y x : K) (hpi : 0 < pi) (hx : x ≠ 0) (hy : y ≠ 0) :
    (0 < x → 0 < y → (fin 0).lt (notAtan2 pi (fin y) (fin x)) = true ∧
        (notAtan2 pi (fin y) (fin x)).lt (fin (pi / 2)) = true) ∧
      (0 < x → y < 0 → (fin (-(pi / 2))).lt (notAtan2 pi (fin y) (fin x)) = true ∧
        (notAtan2 pi (fin y) (fin x)).lt (fin 0) = true) ∧
      (x < 0 → 0 < y → (fin (pi / 2)).lt (notAtan2 pi (fin y) (fin x)) = true ∧
        (notAtan2 pi (fin y) (fin x)).lt (fin pi) = true) ∧
      (x < 0 → y < 0 → (fin (-pi)).lt (notAtan2 pi (fin y) (fin x)) = true ∧
        (notAtan2 pi (fin y) (fin x)).lt (fin (-(pi / 2))) = true) := by
  refine ⟨?_, ?_, ?_, ?_⟩
  · intro hxp hyp
    rw [notAtan2_fin_pos pi y x hpi.ne' hxp hy]
    obtain ⟨h1, h2⟩ := ratio_bounds_pos (div_pos hyp hxp)
    simp only [Fl.lt, Fl.toK_fin, decide_eq_true_eq]
    constructor <;> nlinarith
  · intro hxp hyn
    rw [notAtan2_fin_pos pi y x hpi.ne' hxp hy]
    obtain ⟨h1, h2⟩ := ratio_bounds_neg (div_neg_of_neg_of_pos hyn hxp)
    simp only [Fl.lt, Fl.toK_fin, decide_eq_true_eq]
    constructor <;> nlinarith
  · intro hxn hyp
    rw [notAtan2_fin_neg pi y x hpi hxn hy]
    obtain ⟨h1, h2⟩ := ratio_bounds_neg (div_neg_of_pos_of_neg hyp hxn)
    simp only [Fl.lt, Fl.toK_fin, decide_eq_true_eq, not_lt.2 hyp.le, if_false]
    constructor <;> nlinarith
  · intro hxn hyn
    rw [notAtan2_fin_neg pi y x hpi hxn hy]
    obtain ⟨h1, h2⟩ := ratio_bounds_pos (div_pos_of_neg_of_neg hyn hxn)
    simp only [Fl.lt, Fl.toK_fin, decide_eq_true_eq, hyn, if_true]
    constructor <;> nlinarith

/-- The quadrant ranges in exact arithmetic at `notAtan2(1, -2)`, in the second quadrant. -/
theorem notAtan2_quadrant_ranges_witness :
    (0 : ℚ) < M_PI_double ∧ (-2 : ℚ) ≠ 0 ∧ (1 : ℚ) ≠ 0 ∧
      ((-2 : ℚ) < 0 → (0 : ℚ) < 1 →
        (fin (M_PI_double / 2)).lt (notAtan2 M_PI_double (fin 1) (fin (-2))) = true ∧
          (notAtan2 M_PI_double (fin 1) (fin (-2))).lt (fin M_PI_double) = true) :=
  ⟨by decide!, by decide!, by decide!,
    (notAtan2_quadrant_ranges M_PI_double 1 (-2) (by decide!) (by decide!) (by decide!)).2.2.1⟩

end NotAtan

section Degenerate

variable {K : Type} [LinearOrderedField K]

@[simp]
theorem Fl.isnan_mkZero (s : Bool) : (mkZero s : Fl K).isnan = false := by
  cases s <;> rfl

/-- The ratio `y / x` is NaN exactly when an argument is NaN, both are zeros or both are
infinities. -/
theorem Fl.isnan_div (y x : Fl K) :
    (y.div x).isnan = true ↔
      (y.isnan = true ∨ x.isnan = true ∨ (y.isZero = true ∧ x.isZero = true) ∨
        (y.isInf = true ∧ x.isInf = true)) := by
  cases y <;> cases x <;> simp [Fl.div] <;> split_ifs <;> simp_all

/-- C10 (degeneracy): the ratio `y / x` is NaN exactly when an argument is NaN, both
arguments are zeros or both are infinities, and `notAtan2(y, x)` is then `0`. -/
theorem notAtan2_degenerate (pi : K) (y x : Fl K) :
    ((y.div x).isnan = true ↔
        (y.isnan = true ∨ x.isnan = true ∨ (y.isZero = true ∧ x.isZero = true) ∨
          (y.isInf = true ∧ x.isInf = true))) ∧
      ((y.div x).isnan = true → notAtan2 pi y x = fin 0) := by
  refine ⟨Fl.isnan_div y x, ?_⟩
  intro h
  simp [notAtan2, h]

/-- The degenerate cases `notAtan2(0, 0)`, `notAtan2(inf, inf)`, `notAtan2(-0, 0)`,
`notAtan2(inf, -inf)` and `notAtan2(NaN, 1)` are all `0`. -/
theorem notAtan2_degenerate_witness :
    notAtan2 M_PI_double (fin 0) (fin 0) = fin 0 ∧
      notAtan2 M_PI_double (inf false) (inf false) = fin 0 ∧
      notAtan2 M_PI_double nzero (fin 0) = fin 0 ∧
      notAtan2 M_PI_double (inf false) (inf true) = fin 0 ∧
      notAtan2 M_PI_double nan (fin 1) = fin 0 :=
  ⟨(notAtan2_degenerate M_PI_double (fin 0) (fin 0)).2 (by decide!),
    (notAtan2_degenerate M_PI_double (inf false) (inf false)).2 (by decide!),
    (notAtan2_degenerate M_PI_double nzero (fin 0)).2 (by decide!),
    (notAtan2_degenerate M_PI_double (inf false) (inf true)).2 (by decide!),
    (notAtan2_degenerate M_PI_double nan (fin 1)).2 (by decide!)⟩

end Degenerate

section NotAtanValues

variable {K : Type} [LinearOrderedField K]

/-- The value of `notAtan2(y, x)` for finite `y` and `x > 0`. -/
theorem toK_notAtan2_pos (pi y x : K) (hpi : 0 < pi) (hx : 0 < x) :
    (notAtan2 pi (fin y) (fin x)).toK = pi * (1 / 2) * (y / x / (1 + |y / x|)) := by
  by_cases hy : y = 0
  · subst hy
    have h2 : ¬ pi * 2⁻¹ < 0 := not_lt.2 (by positivity)
    simp [notAtan2, Fl.div, Fl.mul, Fl.add, Fl.sub, Fl.neg, Fl.abs, copysign, Fl.le, mkZero,
      hx.ne', hx.le, not_lt.2 hx.le, hpi.ne', h2]
  · rw [notAtan2_fin_pos pi y x hpi.ne' hx hy]
    rfl

/-- The value of `notAtan2(y, x)` for finite `y` and `x < 0`. -/
theorem toK_notAtan2_neg (pi y x : K) (hpi : 0 < pi) (hx : x < 0) :
    (notAtan2 pi (fin y) (fin x)).toK =
      pi * (1 / 2) * (y / x / (1 + |y / x|)) + (if y < 0 then -pi else pi) := by
  by_cases hy : y = 0
  · subst hy
    simp [notAtan2, Fl.div, Fl.mul, Fl.add, Fl.sub, Fl.neg, Fl.abs, copysign, Fl.le, mkZero,
      hx.ne, not_le.2 hx, hx, hpi.ne', abs_of_pos hpi, not_lt.2 hpi.le, hpi]
  · rw [notAtan2_fin_neg pi y x hpi hx hy]
    rfl

/-- The value of `notAtan2(y, +0)` for finite `y ≠ 0`. -/
theorem toK_notAtan2_zero (pi y : K) (hpi : 0 < pi) (hy : y ≠ 0) :
    (notAtan2 pi (fin y) (fin 0)).toK = if y < 0 then -(pi * (1 / 2)) else pi * (1 / 2) := by
  have h1 : ¬ (1 : K) < 0 := not_lt.2 zero_le_one
  by_cases hyn : y < 0
  · simp [notAtan2, Fl.div, Fl.mul, Fl.add, Fl.sub, Fl.neg, Fl.abs, copysign, Fl.le, mkZero,
      hy, hyn, hpi.ne', not_lt.2 hpi.le, h1]
  · simp [notAtan2, Fl.div, Fl.mul, Fl.add, Fl.sub, Fl.neg, Fl.abs, copysign, Fl.le, mkZero,
      hy, hyn, hpi.ne', not_lt.2 hpi.le, h1]

end NotAtanValues

/-! ## `notAtan2` and the arctangent order angles alike (exact real arithmetic) -/

section Monotone

theorem ratio_strictMono : StrictMono (fun a : ℝ => a / (1 + |a|)) := by
  intro a b hab
  have ha : (0 : ℝ) < 1 + |a| := by positivity
  have hb : (0 : ℝ) < 1 + |b| := by positivity
  show a / (1 + |a|) < b / (1 + |b|)
  rw [div_lt_div_iff ha hb]
  rcases le_or_lt 0 a with h0a | ha0
  · have h0b : 0 ≤ b := le_trans h0a hab.le
    rw [abs_of_nonneg h0a, abs_of_nonneg h0b]
    nlinarith
  · rcases le_or_lt 0 b with h0b | hb0
    · rw [abs_of_neg ha0, abs_of_nonneg h0b]
      nlinarith
    · rw [abs_of_neg ha0, abs_of_neg hb0]
      nlinarith

theorem notAtanOfAngle_zero : notAtanOfAngle 0 = 0 := by
  simp [notAtanOfAngle]

theorem notAtanOfAngle_lt_iff {b1 b2 : ℝ} (h1 : b1 ∈ Set.Ioo (-(Real.pi / 2)) (Real.pi / 2))
    (h2 : b2 ∈ Set.Ioo (-(Real.pi / 2)) (Real.pi / 2)) :
    notAtanOfAngle b1 < notAtanOfAngle b2 ↔ b1 < b2 := by
  unfold notAtanOfAngle
  have hpi : (0 : ℝ) < Real.pi * (1 / 2) := by positivity
  rw [mul_lt_mul_left hpi, ratio_strictMono.lt_iff_lt, Real.strictMonoOn_tan.lt_iff_lt h1 h2]

theorem notAtanOfAngle_pos {b : ℝ} (h0 : 0 < b) (h1 : b < Real.pi / 2) :
    0 < notAtanOfAngle b ∧ notAtanOfAngle b < Real.pi / 2 := by
  have ht := Real.tan_pos_of_pos_of_lt_pi_div_two h0 h1
  obtain ⟨h2, h3⟩ := ratio_bounds_pos ht
  unfold notAtanOfAngle
  have := Real.pi_pos
  constructor <;> nlinarith

theorem notAtanOfAngle_neg {b : ℝ} (h0 : b < 0) (h1 : -(Real.pi / 2) < b) :
    -(Real.pi / 2) < notAtanOfAngle b ∧ notAtanOfAngle b < 0 := by
  have ht := Real.tan_neg_of_neg_of_pi_div_two_lt h0 h1
  obtain ⟨h2, h3⟩ := ratio_bounds_neg ht
  unfold notAtanOfAngle
  have := Real.pi_pos
  constructor <;> nlinarith

theorem InSector.notAtanOfAngle {k : ℕ} {b : ℝ} (h : InSector k b) :
    InSector k (notAtanOfAngle b) := by
  rcases h with ⟨rfl, h0, h1⟩ | ⟨rfl, rfl⟩ | ⟨rfl, h0, h1⟩ | ⟨rfl, rfl⟩ | ⟨rfl, h0, h1⟩
  · exact Or.inl ⟨rfl, notAtanOfAngle_pos h0 h1⟩
  · exact Or.inr (Or.inl ⟨rfl, notAtanOfAngle_zero⟩)
  · refine Or.inr (Or.inr (Or.inl ⟨rfl, ?_⟩))
    rcases lt_trichotomy b 0 with hb | rfl | hb
    · have := notAtanOfAngle_neg hb h0
      have := Real.pi_pos
      constructor <;> linarith
    · rw [notAtanOfAngle_zero]
      have := Real.pi_pos
      constructor <;> linarith
    · have := notAtanOfAngle_pos hb h1
      have := Real.pi_pos
      constructor <;> linarith
  · exact Or.inr (Or.inr (Or.inr (Or.inl ⟨rfl, notAtanOfAngle_zero⟩)))
  · refine Or.inr (Or.inr (Or.inr (Or.inr ⟨rfl, ?_⟩)))
    rcases lt_or_eq_of_le h1 with hb | rfl
    · have := notAtanOfAngle_neg hb h0
      exact ⟨this.1, this.2.le⟩
    · rw [notAtanOfAngle_zero]
      have := Real.pi_pos
      constructor <;> linarith

theorem InSector.mem_Ioo {k : ℕ} {b : ℝ} (h : InSector k b) :
    b ∈ Set.Ioo (-(Real.pi / 2)) (Real.pi / 2) := by
  have := Real.pi_pos
  rcases h with ⟨rfl, h0, h1⟩ | ⟨rfl, rfl⟩ | ⟨rfl, h0, h1⟩ | ⟨rfl, rfl⟩ | ⟨rfl, h0, h1⟩ <;>
    constructor <;> linarith

/-- Angles of a lower sector are smaller than angles of a higher sector. -/
theorem InSector.lt_of_lt {k1 k2 : ℕ} {b1 b2 : ℝ} (h1 : InSector k1 b1) (h2 : InSector k2 b2)
    (hk : k1 < k2) : sectorOffset k1 + b1 < sectorOffset k2 + b2 := by
  have := Real.pi_pos
  rcases h1 with ⟨rfl, h0, h1⟩ | ⟨rfl, rfl⟩ | ⟨rfl, h0, h1⟩ | ⟨rfl, rfl⟩ | ⟨rfl, h0, h1⟩ <;>
    rcases h2 with ⟨rfl, g0, g1⟩ | ⟨rfl, rfl⟩ | ⟨rfl, g0, g1⟩ | ⟨rfl, rfl⟩ | ⟨rfl, g0, g1⟩ <;>
    first
    | (exfalso; omega)
    | (simp only [sectorOffset]; push_cast; linarith)

/-- Every direction `(x, y) ≠ (0, 0)` lies in a sector in which `atan2` and `notAtan2` are
the sector offset plus the angle, respectively plus the image of the angle. -/
theorem sector_of_point (y x : ℝ) (h : ¬ (y = 0 ∧ x = 0)) :
    ∃ k b, InSector k b ∧ atan2 y x = sectorOffset k + b ∧
      (notAtan2 Real.pi (fin y) (fin x)).toK = sectorOffset k + notAtanOfAngle b := by
  have hpi := Real.pi_pos
  have htan : Real.tan (atan2 y x) = y / x := Complex.tan_arg ⟨x, y⟩
  rcases lt_trichotomy x 0 with hx | rfl | hx
  · by_cases hy : y < 0
    · refine ⟨0, atan2 y x + Real.pi, Or.inl ⟨rfl, ?_, ?_⟩, ?_, ?_⟩
      · have := Complex.neg_pi_lt_arg ⟨x, y⟩
        unfold atan2
        linarith
      · have : ¬ (-(Real.pi / 2) ≤ Complex.arg ⟨x, y⟩) := by
          rw [Complex.neg_pi_div_two_le_arg_iff]
          simp only [not_or, not_le]
          exact ⟨hx, hy⟩
        unfold atan2
        linarith
      · simp only [sectorOffset]; push_cast; ring
      · rw [toK_notAtan2_neg Real.pi y x hpi hx, if_pos hy]
        simp only [notAtanOfAngle, sectorOffset, Real.tan_periodic (atan2 y x), htan]
        push_cast
        ring
    · have hy' : 0 ≤ y := not_lt.1 hy
      refine ⟨4, atan2 y x - Real.pi, Or.inr (Or.inr (Or.inr (Or.inr ⟨rfl, ?_, ?_⟩))), ?_, ?_⟩
      · have : ¬ (Complex.arg ⟨x, y⟩ ≤ Real.pi / 2) := by
          rw [Complex.arg_le_pi_div_two_iff]
          simp only [not_or, not_le, not_lt]
          exact ⟨hx, hy'⟩
        unfold atan2
        linarith
      · have := Complex.arg_le_pi ⟨x, y⟩
        unfold atan2
        linarith
      · simp only [sectorOffset]; push_cast; ring
      · rw [toK_notAtan2_neg Real.pi y x hpi hx, if_neg hy]
        simp only [notAtanOfAngle, sectorOffset, Real.tan_periodic.sub_eq (atan2 y x), htan]
        push_cast
        ring
  · have hy : y ≠ 0 := fun hy => h ⟨hy, rfl⟩
    rcases lt_or_gt_of_ne hy with hyn | hyp
    · refine ⟨1, 0, Or.inr (Or.inl ⟨rfl, rfl⟩), ?_, ?_⟩
      · have : Complex.arg ⟨0, y⟩ = -(Real.pi / 2) :=
          Complex.arg_eq_neg_pi_div_two_iff.2 ⟨rfl, hyn⟩
        simp only [atan2, this, sectorOffset]; push_cast; ring
      · rw [toK_notAtan2_zero Real.pi y hpi hy, if_pos hyn, notAtanOfAngle_zero]
        simp only [sectorOffset]; push_cast; ring
    · refine ⟨3, 0, Or.inr (Or.inr (Or.inr (Or.inl ⟨rfl, rfl⟩))), ?_, ?_⟩
      · have : Complex.arg ⟨0, y⟩ = Real.pi / 2 :=
          Complex.arg_eq_pi_div_two_iff.2 ⟨rfl, hyp⟩
        simp only [atan2, this, sectorOffset]; push_cast; ring
      · rw [toK_notAtan2_zero Real.pi y hpi hy, if_neg (not_lt.2 hyp.le), notAtanOfAngle_zero]
        simp only [sectorOffset]; push_cast; ring
  · have habs : |Complex.arg ⟨x, y⟩| < Real.pi / 2 :=
      Complex.abs_arg_lt_pi_div_two_iff.2 (Or.inl hx)
    rw [abs_lt] at habs
    refine ⟨2, atan2 y x, Or.inr (Or.inr (Or.inl ⟨rfl, habs.1, habs.2⟩)), ?_, ?_⟩
    · simp only [sectorOffset]; push_cast; ring
    · rw [toK_notAtan2_pos Real.pi y x hpi hx]
      simp only [notAtanOfAngle, sectorOffset, htan]
      push_cast
      ring

/-- C8 (AngleOrder monotonicity, over exact real arithmetic): for real pairs `(y1, x1)` and
`(y2, x2)`, neither of them `(0, 0)`, `notAtan2(y1, x1) < notAtan2(y2, x2)` holds exactly
when `atan2(y1, x1) < atan2(y2, x2)` holds. -/
theorem notAtan2_lt_iff_atan2_lt (y1 x1 y2 x2 : ℝ) (h1 : ¬ (y1 = 0 ∧ x1 = 0))
    (h2 : ¬ (y2 = 0 ∧ x2 = 0)) :
    (notAtan2 Real.pi (fin y1) (fin x1)).lt (notAtan2 Real.pi (fin y2) (fin x2)) = true ↔
      atan2 y1 x1 < atan2 y2 x2 := by
  rw [Fl.lt_of_isFin (notAtan2_isFin _ _ _) (notAtan2_isFin _ _ _), decide_eq_true_eq]
  obtain ⟨k1, b1, hs1, ha1, hn1⟩ := sector_of_point y1 x1 h1
  obtain ⟨k2, b2, hs2, ha2, hn2⟩ := sector_of_point y2 x2 h2
  rw [ha1, ha2, hn1, hn2]
  rcases lt_trichotomy k1 k2 with hk | rfl | hk
  · have e1 := hs1.notAtanOfAngle.lt_of_lt hs2.notAtanOfAngle hk
    have e2 := hs1.lt_of_lt hs2 hk
    exact ⟨fun _ => e2, fun _ => e1⟩
  · rw [add_lt_add_iff_left, add_lt_add_iff_left]
    exact notAtanOfAngle_lt_iff hs1.mem_Ioo hs2.mem_Ioo
  · have e1 := hs2.notAtanOfAngle.lt_of_lt hs1.notAtanOfAngle hk
    have e2 := hs2.lt_of_lt hs1 hk
    exact ⟨fun h => absurd h (not_lt.2 e1.le), fun h => absurd h (not_lt.2 e2.le)⟩

/-- The monotonicity at the directions `(1, 1)` (45 degrees) and `(-1, 1)` (135 degrees). -/
theorem notAtan2_lt_iff_atan2_lt_witness :
    ¬ ((1 : ℝ) = 0 ∧ (1 : ℝ) = 0) ∧ ¬ ((1 : ℝ) = 0 ∧ (-1 : ℝ) = 0) ∧
      ((notAtan2 Real.pi (fin 1) (fin 1)).lt (notAtan2 Real.pi (fin 1) (fin (-1))) = true ↔
        atan2 1 1 < atan2 1 (-1)) :=
  ⟨by norm_num, by norm_num, notAtan2_lt_iff_atan2_lt 1 1 1 (-1) (by norm_num) (by norm_num)⟩

end Monotone

/-! ## The non-manifold edge scenario -/

section Finite

variable {K : Type} [LinearOrderedField K]

theorem Vector3.isFin_iff {v : Vector3 K} :
    v.isFin = true ↔ v.x.isFin = true ∧ v.y.isFin = true ∧ v.z.isFin = true := by
  simp [Vector3.isFin, and_assoc]

theorem Vector3.isFin_vsub {a b : Vector3 K} (ha : a.isFin = true) (hb : b.isFin = true) :
    (a.sub b).isFin = true := by
  rw [Vector3.isFin_iff] at ha hb ⊢
  exact ⟨Fl.isFin_sub ha.1 hb.1, Fl.isFin_sub ha.2.1 hb.2.1, Fl.isFin_sub ha.2.2 hb.2.2⟩

theorem Vector3.isFin_cross {a b : Vector3 K} (ha : a.isFin = true) (hb : b.isFin = true) :
    (a.cross b).isFin = true := by
  rw [Vector3.isFin_iff] at ha hb ⊢
  exact ⟨Fl.isFin_sub (Fl.isFin_mul ha.2.1 hb.2.2) (Fl.isFin_mul ha.2.2 hb.2.1),
    Fl.isFin_sub (Fl.isFin_mul ha.2.2 hb.1) (Fl.isFin_mul ha.1 hb.2.2),
    Fl.isFin_sub (Fl.isFin_mul ha.1 hb.2.1) (Fl.isFin_mul ha.2.1 hb.1)⟩

theorem Vector3.isFin_dot {a b : Vector3 K} (ha : a.isFin = true) (hb : b.isFin = true) :
    (a.dot b).isFin = true := by
  rw [Vector3.isFin_iff] at ha hb
  exact Fl.isFin_add (Fl.isFin_add (Fl.isFin_mul ha.1 hb.1) (Fl.isFin_mul ha.2.1 hb.2.1))
    (Fl.isFin_mul ha.2.2 hb.2.2)

theorem Vector3.toK_dot {a b : Vector3 K} (ha : a.isFin = true) (hb : b.isFin = true) :
    (a.dot b).toK = a.x.toK * b.x.toK + a.y.toK * b.y.toK + a.z.toK * b.z.toK := by
  rw [Vector3.isFin_iff] at ha hb
  unfold Vector3.dot
  rw [Fl.toK_add (Fl.isFin_add (Fl.isFin_mul ha.1 hb.1) (Fl.isFin_mul ha.2.1 hb.2.1))
    (Fl.isFin_mul ha.2.2 hb.2.2), Fl.toK_add (Fl.isFin_mul ha.1 hb.1)
    (Fl.isFin_mul ha.2.1 hb.2.1), Fl.toK_mul ha.1 hb.1, Fl.toK_mul ha.2.1 hb.2.1,
    Fl.toK_mul ha.2.2 hb.2.2]

theorem Vector3.toK_cross {a b : Vector3 K} (ha : a.isFin = true) (hb : b.isFin = true) :
    (a.cross b).x.toK = a.y.toK * b.z.toK - a.z.toK * b.y.toK ∧
      (a.cross b).y.toK = a.z.toK * b.x.toK - a.x.toK * b.z.toK ∧
      (a.cross b).z.toK = a.x.toK * b.y.toK - a.y.toK * b.x.toK := by
  rw [Vector3.isFin_iff] at ha hb
  unfold Vector3.cross
  refine ⟨?_, ?_, ?_⟩ <;> simp only
  · rw [Fl.toK_sub (Fl.isFin_mul ha.2.1 hb.2.2) (Fl.isFin_mul ha.2.2 hb.2.1),
      Fl.toK_mul ha.2.1 hb.2.2, Fl.toK_mul ha.2.2 hb.2.1]
  · rw [Fl.toK_sub (Fl.isFin_mul ha.2.2 hb.1) (Fl.isFin_mul ha.1 hb.2.2),
      Fl.toK_mul ha.2.2 hb.1, Fl.toK_mul ha.1 hb.2.2]
  · rw [Fl.toK_sub (Fl.isFin_mul ha.1 hb.2.1) (Fl.isFin_mul ha.2.1 hb.1),
      Fl.toK_mul ha.1 hb.2.1, Fl.toK_mul ha.2.1 hb.1]

theorem Vector3.toK_vsub {a b : Vector3 K} (ha : a.isFin = true) (hb : b.isFin = true) :
    (a.sub b).x.toK = a.x.toK - b.x.toK ∧ (a.sub b).y.toK = a.y.toK - b.y.toK ∧
      (a.sub b).z.toK = a.z.toK - b.z.toK := by
  rw [Vector3.isFin_iff] at ha hb
  exact ⟨Fl.toK_sub ha.1 hb.1, Fl.toK_sub ha.2.1 hb.2.1, Fl.toK_sub ha.2.2 hb.2.2⟩

/-- The value of `notAtan2(y, -0)` for finite `y ≠ 0`. -/
theorem toK_notAtan2_nzero (pi y : K) (hpi : 0 < pi) (hy : y ≠ 0) :
    (notAtan2 pi (fin y) nzero).toK = if y < 0 then -(pi * (1 / 2)) else pi * (1 / 2) := by
  have h1 : ¬ (1 : K) < 0 := not_lt.2 zero_le_one
  by_cases hyn : y < 0
  · simp [notAtan2, Fl.div, Fl.mul, Fl.add, Fl.sub, Fl.neg, Fl.abs, copysign, Fl.le, mkZero,
      hy, hyn, hpi.ne', not_lt.2 hpi.le, h1, hpi, abs_of_pos hpi]
    ring
  · simp [notAtan2, Fl.div, Fl.mul, Fl.add, Fl.sub, Fl.neg, Fl.abs, copysign, Fl.le, mkZero,
      hy, hyn, hpi.ne', not_lt.2 hpi.le, h1, hpi, abs_of_pos hpi]
    ring

/-- The value of `notAtan2(y, x)` for finite arguments with `y > 0`. -/
theorem toK_notAtan2_of_pos (pi : K) (hpi : 0 < pi) {y x : Fl K} (hy : y.isFin = true)
    (hx : x.isFin = true) (hyk : 0 < y.toK) :
    (notAtan2 pi y x).toK =
      if 0 < x.toK then pi * (1 / 2) * (y.toK / x.toK / (1 + |y.toK / x.toK|))
      else if x.toK < 0 then pi * (1 / 2) * (y.toK / x.toK / (1 + |y.toK / x.toK|)) + pi
      else pi * (1 / 2) := by
  cases y with
  | nan => simp at hy
  | inf s => simp at hy
  | nzero => simp at hyk
  | fin yk =>
    simp only [Fl.toK_fin] at hyk
    cases x with
    | nan => simp at hx
    | inf s => simp at hx
    | nzero =>
      rw [toK_notAtan2_nzero pi yk hpi hyk.ne']
      simp [not_lt.2 hyk.le]
    | fin xk =>
      simp only [Fl.toK_fin]
      rcases lt_trichotomy xk 0 with hxk | rfl | hxk
      · rw [toK_notAtan2_neg pi yk xk hpi hxk]
        simp [not_lt.2 hxk.le, hxk, not_lt.2 hyk.le]
      · rw [toK_notAtan2_zero pi yk hpi hyk.ne']
        simp [not_lt.2 hyk.le]
      · rw [toK_notAtan2_pos pi yk xk hpi hxk]
        simp [hxk]

end Finite

section Fan

/-- The resolver returns a candidate whose clamped angle is strictly the largest. -/
theorem findNext_of_strict_max {K : Type} [LinearOrderedField K] (pi : K)
    (v1 v2 v3 : Vector3 K) (tris : List (Triangle K)) (c : Triangle K) (hc : c ∈ tris)
    (hmax : ∀ d ∈ tris, d = c ∨
      (specClampedAngle pi v1 v2 v3 d).lt (specClampedAngle pi v1 v2 v3 c) = true) :
    findNextTriangleWithSharedEdge pi v1 v2 v3 tris = c.triIdx := by
  obtain ⟨p, b, s, htris, hres, hp, hs⟩ :=
    findNext_first_max pi v1 v2 v3 tris (List.ne_nil_of_mem hc)
  simp only [← specClampedAngle_eq] at hp hs
  rw [hres]
  have hb : b ∈ tris := by rw [htris]; simp
  rcases hmax b hb with rfl | hlt
  · rfl
  · exfalso
    have hfin : ∀ d : Triangle K, (specClampedAngle pi v1 v2 v3 d).isFin = true := fun d =>
      candidateAngle_isFin pi ((v2.sub v1).cross (v3.sub v1)) (v2.sub v1) d.triNormal
    rw [Fl.lt_of_isFin (hfin _) (hfin _), decide_eq_true_eq] at hlt
    rw [htris] at hc
    rcases List.mem_append.1 hc with hcp | hcs
    · have := hp c hcp
      rw [Fl.lt_of_isFin (hfin _) (hfin _), decide_eq_true_eq] at this
      exact lt_asymm this hlt
    · rcases List.mem_cons.1 hcs with rfl | hcs
      · exact lt_irrefl _ hlt
      · have := hs c hcs
        rw [Fl.lt_of_isFin (hfin _) (hfin _), decide_eq_false_iff_not] at this
        exact this hlt

/-- What a signed angle strictly between `0` and `pi` says about the two arguments of
`atan2`. -/
theorem atan2_eq_of_pos {d k len a : ℝ} (hlen : 0 < len) (h : atan2 (k / len) d = a)
    (h0 : 0 < a) (h1 : a < Real.pi) :
    0 < k ∧ (0 < Real.cos a → 0 < d) ∧ (Real.cos a < 0 → d < 0) ∧
      (Real.cos a = 0 → d = 0) ∧ k / d = len * Real.tan a := by
  unfold atan2 at h
  have hz : (⟨d, k / len⟩ : ℂ) ≠ 0 := by
    intro hz
    rw [hz, Complex.arg_zero] at h
    exact h0.ne h
  have habs : 0 < Complex.abs ⟨d, k / len⟩ := Complex.abs.pos hz
  have hsin := Complex.sin_arg (⟨d, k / len⟩ : ℂ)
  have hcos := Complex.cos_arg hz
  have htan := Complex.tan_arg (⟨d, k / len⟩ : ℂ)
  rw [h] at hsin hcos htan
  simp only at hsin hcos htan
  have hsinpos := Real.sin_pos_of_pos_of_lt_pi h0 h1
  have him : 0 < k / len := by
    rw [hsin] at hsinpos
    exact (div_pos_iff_of_pos_right habs).1 hsinpos
  have hk : 0 < k := (div_pos_iff_of_pos_right hlen).1 him
  refine ⟨hk, ?_, ?_, ?_, ?_⟩
  · intro hc
    rw [hcos] at hc
    exact (div_pos_iff_of_pos_right habs).1 hc
  · intro hc
    rw [hcos] at hc
    rcases div_neg_iff.1 hc with h | h
    · exact absurd h.2 (not_lt.2 habs.le)
    · exact h.1
  · intro hc
    rw [hcos] at hc
    rcases div_eq_zero_iff.1 hc with h | h
    · exact h
    · exact absurd h habs.ne'
  · rw [htan]
    by_cases hd : d = 0
    · simp [hd]
    · field_simp
      ring

/-- The clamped angle as a real number. -/
theorem toK_specClampedAngle (v1 v2 v3 : Vector3 ℝ) (c : Triangle ℝ) :
    (specClampedAngle Real.pi v1 v2 v3 c).toK =
      if Real.pi - 1 / 1000 <
          (notAtan2 Real.pi
            ((((v2.sub v1).cross (v3.sub v1)).cross c.triNormal).dot (v2.sub v1))
            (((v2.sub v1).cross (v3.sub v1)).dot c.triNormal)).toK
      then -Real.pi
      else (notAtan2 Real.pi
            ((((v2.sub v1).cross (v3.sub v1)).cross c.triNormal).dot (v2.sub v1))
            (((v2.sub v1).cross (v3.sub v1)).dot c.triNormal)).toK := by
  unfold specClampedAngle
  simp only
  rw [Fl.lt_of_isFin (Fl.isFin_sub (by simp) (by simp)) (notAtan2_isFin _ _ _),
    Fl.toK_sub (by simp) (by simp)]
  simp only [Fl.toK_fin, decide_eq_true_eq]
  by_cases h : Real.pi - 1 / 1000 <
      (notAtan2 Real.pi
        ((((v2.sub v1).cross (v3.sub v1)).cross c.triNormal).dot (v2.sub v1))
        (((v2.sub v1).cross (v3.sub v1)).dot c.triNormal)).toK
  · rw [if_pos h, if_pos h]
    simp
  · rw [if_neg h, if_neg h]

theorem tenDegreeProxy_bounds {len : ℝ} (hlen : 0 < len) :
    0 < tenDegreeProxy len ∧ tenDegreeProxy len < Real.pi / 2 := by
  have hpi := Real.pi_pos
  have ht : 0 < Real.tan (Real.pi / 18) :=
    Real.tan_pos_of_pos_of_lt_pi_div_two (by positivity) (by linarith)
  obtain ⟨h1, h2⟩ := ratio_bounds_pos (mul_pos hlen ht)
  unfold tenDegreeProxy
  constructor <;> nlinarith

theorem tan_seventeen : Real.tan (17 * Real.pi / 18) = -Real.tan (Real.pi / 18) := by
  have : 17 * Real.pi / 18 = -(Real.pi / 18) + Real.pi := by ring
  rw [this, Real.tan_periodic, Real.tan_neg]

/-- The clamped angles the resolver computes for candidates at 10, 90 and 170 degrees. -/
theorem fan_angles (v1 v2 v3 : Vector3 ℝ) (c : Triangle ℝ) (hv1 : v1.isFin = true)
    (hv2 : v2.isFin = true) (hv3 : v3.isFin = true) (hc : c.triNormal.isFin = true)
    (hlen : 0 < Real.sqrt ((v2.sub v1).dot (v2.sub v1)).toK) :
    (signedAngle ((v2.sub v1).cross (v3.sub v1)) c.triNormal (v2.sub v1) = Real.pi / 18 →
        (specClampedAngle Real.pi v1 v2 v3 c).toK =
          tenDegreeProxy (Real.sqrt ((v2.sub v1).dot (v2.sub v1)).toK)) ∧
      (signedAngle ((v2.sub v1).cross (v3.sub v1)) c.triNormal (v2.sub v1) = Real.pi / 2 →
        (specClampedAngle Real.pi v1 v2 v3 c).toK = Real.pi / 2) ∧
      (signedAngle ((v2.sub v1).cross (v3.sub v1)) c.triNormal (v2.sub v1) =
          17 * Real.pi / 18 →
        (specClampedAngle Real.pi v1 v2 v3 c).toK =
          if tenDegreeProxy (Real.sqrt ((v2.sub v1).dot (v2.sub v1)).toK) < 1 / 1000
          then -Real.pi
          else Real.pi - tenDegreeProxy (Real.sqrt ((v2.sub v1).dot (v2.sub v1)).toK)) := by
  have hpi := Real.pi_pos
  have he : (v2.sub v1).isFin = true := Vector3.isFin_vsub hv2 hv1
  have hn : ((v2.sub v1).cross (v3.sub v1)).isFin = true :=
    Vector3.isFin_cross he (Vector3.isFin_vsub hv3 hv1)
  have hdot : (((v2.sub v1).cross (v3.sub v1)).dot c.triNormal).isFin = true :=
    Vector3.isFin_dot hn hc
  have hcross : ((((v2.sub v1).cross (v3.sub v1)).cross c.triNormal).dot
      (v2.sub v1)).isFin = true := Vector3.isFin_dot (Vector3.isFin_cross hn hc) he
  obtain ⟨hT0, hT1⟩ := tenDegreeProxy_bounds hlen
  rw [toK_specClampedAngle]
  refine ⟨?_, ?_, ?_⟩
  · intro h
    obtain ⟨hk, hd, -, -, hratio⟩ := atan2_eq_of_pos hlen h (by positivity) (by linarith)
    have hdpos := hd (Real.cos_pos_of_mem_Ioo ⟨by linarith, by linarith⟩)
    rw [toK_notAtan2_of_pos Real.pi hpi hcross hdot hk, if_pos hdpos, hratio]
    have : ¬ (Real.pi - 1 / 1000 <
        Real.pi * (1 / 2) * (Real.sqrt ((v2.sub v1).dot (v2.sub v1)).toK *
          Real.tan (Real.pi / 18) /
          (1 + |Real.sqrt ((v2.sub v1).dot (v2.sub v1)).toK * Real.tan (Real.pi / 18)|))) := by
      have := hT1
      unfold tenDegreeProxy at this
      have h3 := Real.pi_gt_three
      linarith
    rw [if_neg this]
    rfl
  · intro h
    obtain ⟨hk, -, -, hd, -⟩ := atan2_eq_of_pos hlen h (by positivity) (by linarith)
    have hd0 := hd Real.cos_pi_div_two
    rw [toK_notAtan2_of_pos Real.pi hpi hcross hdot hk, hd0]
    simp only [lt_irrefl, if_false]
    have h3 := Real.pi_gt_three
    rw [if_neg (by linarith)]
    ring
  · intro h
    obtain ⟨hk, -, hd, -, hratio⟩ := atan2_eq_of_pos hlen h (by positivity)
      (by linarith)
    have hdneg := hd (Real.cos_neg_of_pi_div_two_lt_of_lt (by linarith) (by linarith))
    rw [toK_notAtan2_of_pos Real.pi hpi hcross hdot hk, if_neg (not_lt.2 hdneg.le),
      if_pos hdneg, hratio, tan_seventeen]
    have hval : Real.pi * (1 / 2) *
        (Real.sqrt ((v2.sub v1).dot (v2.sub v1)).toK * -Real.tan (Real.pi / 18) /
          (1 + |Real.sqrt ((v2.sub v1).dot (v2.sub v1)).toK * -Real.tan (Real.pi / 18)|)) +
        Real.pi = Real.pi - tenDegreeProxy (Real.sqrt ((v2.sub v1).dot (v2.sub v1)).toK) := by
      unfold tenDegreeProxy
      rw [mul_neg, abs_neg]
      ring
    rw [hval]
    by_cases hT : tenDegreeProxy (Real.sqrt ((v2.sub v1).dot (v2.sub v1)).toK) < 1 / 1000
    · rw [if_pos hT, if_pos (by linarith)]
    · rw [if_neg hT, if_neg (by linarith)]

theorem tenDegreeProxy_ge {len : ℝ} (hlen : 1 / 250 ≤ len) : 1 / 1000 ≤ tenDegreeProxy len := by
  have hpi := Real.pi_gt_d2
  have ht : Real.pi / 18 < Real.tan (Real.pi / 18) :=
    Real.lt_tan (by positivity) (by linarith [Real.pi_pos])
  have ha : (157 : ℝ) / 225000 ≤ len * Real.tan (Real.pi / 18) := by
    have h1 : (157 : ℝ) / 225000 = 1 / 250 * (3.14 / 18) := by norm_num
    rw [h1]
    apply mul_le_mul hlen (by linarith) (by norm_num) (by linarith)
  have hphi := ratio_strictMono.monotone ha
  simp only at hphi
  rw [abs_of_pos (by norm_num : (0 : ℝ) < 157 / 225000)] at hphi
  have h2 : (157 : ℝ) / 225157 ≤ len * Real.tan (Real.pi / 18) /
      (1 + |len * Real.tan (Real.pi / 18)|) := by
    refine le_trans (le_of_eq ?_) hphi
    norm_num
  unfold tenDegreeProxy
  nlinarith

theorem tenDegreeProxy_lt {len : ℝ} (h0 : 0 < len) (hlen : len ≤ 1 / 10000) :
    tenDegreeProxy len < 1 / 1000 := by
  have hpi := Real.pi_lt_d2
  have hpi0 := Real.pi_pos
  have ht0 : 0 < Real.tan (Real.pi / 18) :=
    Real.tan_pos_of_pos_of_lt_pi_div_two (by positivity) (by linarith)
  have ht1 : Real.tan (Real.pi / 18) < 1 := by
    rw [← Real.tan_pi_div_four]
    exact Real.strictMonoOn_tan ⟨by linarith, by linarith⟩ ⟨by linarith, by linarith⟩
      (by linarith)
  have ha0 : 0 < len * Real.tan (Real.pi / 18) := mul_pos h0 ht0
  have ha1 : len * Real.tan (Real.pi / 18) < 1 / 10000 := by nlinarith
  have hphi : len * Real.tan (Real.pi / 18) / (1 + |len * Real.tan (Real.pi / 18)|) <
      1 / 10000 := by
    rw [abs_of_pos ha0, div_lt_iff₀ (by linarith)]
    nlinarith
  have hphi0 := (ratio_bounds_pos ha0).1
  unfold tenDegreeProxy
  nlinarith

/-- The non-manifold edge scenario in exact real arithmetic: with finite real coordinates,
candidates whose normals make signed angles of 10, 90 and 170 degrees with the normal of the
reference triangle around the shared edge, in any order, and a shared edge of length at
least `1/250`, `findNextTriangleWithSharedEdge` returns the index of the 170-degree
candidate. -/
theorem findNextTriangleWithSharedEdge_fan (v1 v2 v3 : Vector3 ℝ) (c10 c90 c170 : Triangle ℝ)
    (tris : List (Triangle ℝ)) (hv1 : v1.isFin = true) (hv2 : v2.isFin = true)
    (hv3 : v3.isFin = true) (hc10 : c10.triNormal.isFin = true)
    (hc90 : c90.triNormal.isFin = true) (hc170 : c170.triNormal.isFin = true)
    (hperm : tris.Perm [c10, c90, c170])
    (h10 : signedAngle ((v2.sub v1).cross (v3.sub v1)) c10.triNormal (v2.sub v1) =
      Real.pi / 18)
    (h90 : signedAngle ((v2.sub v1).cross (v3.sub v1)) c90.triNormal (v2.sub v1) =
      Real.pi / 2)
    (h170 : signedAngle ((v2.sub v1).cross (v3.sub v1)) c170.triNormal (v2.sub v1) =
      17 * Real.pi / 18)
    (hlen : 1 / 250 ≤ Real.sqrt ((v2.sub v1).dot (v2.sub v1)).toK) :
    findNextTriangleWithSharedEdge Real.pi v1 v2 v3 tris = c170.triIdx := by
  have hpos : 0 < Real.sqrt ((v2.sub v1).dot (v2.sub v1)).toK := by linarith
  have a10 := (fan_angles v1 v2 v3 c10 hv1 hv2 hv3 hc10 hpos).1 h10
  have a90 := (fan_angles v1 v2 v3 c90 hv1 hv2 hv3 hc90 hpos).2.1 h90
  have a170 := (fan_angles v1 v2 v3 c170 hv1 hv2 hv3 hc170 hpos).2.2 h170
  rw [if_neg (not_lt.2 (tenDegreeProxy_ge hlen))] at a170
  obtain ⟨hT0, hT1⟩ := tenDegreeProxy_bounds hpos
  have hfin : ∀ d : Triangle ℝ, (specClampedAngle Real.pi v1 v2 v3 d).isFin = true := fun d =>
    candidateAngle_isFin Real.pi ((v2.sub v1).cross (v3.sub v1)) (v2.sub v1) d.triNormal
  apply findNext_of_strict_max Real.pi v1 v2 v3 tris c170 (hperm.mem_iff.2 (by simp))
  intro d hd
  have hd' := hperm.mem_iff.1 hd
  simp only [List.mem_cons, List.mem_singleton, List.not_mem_nil, or_false] at hd'
  rcases hd' with rfl | rfl | rfl
  · right
    rw [Fl.lt_of_isFin (hfin _) (hfin _), decide_eq_true_eq, a10, a170]
    linarith
  · right
    rw [Fl.lt_of_isFin (hfin _) (hfin _), decide_eq_true_eq, a90, a170]
    linarith
  · left; rfl

/-- With a shared edge of length at most `1/10000` the 170-degree candidate is clamped
to `-pi` and the 90-degree candidate is returned. -/
theorem findNext_fan_clamped (v1 v2 v3 : Vector3 ℝ) (c10 c90 c170 : Triangle ℝ)
    (tris : List (Triangle ℝ)) (hv1 : v1.isFin = true) (hv2 : v2.isFin = true)
    (hv3 : v3.isFin = true) (hc10 : c10.triNormal.isFin = true)
    (hc90 : c90.triNormal.isFin = true) (hc170 : c170.triNormal.isFin = true)
    (hperm : tris.Perm [c10, c90, c170])
    (h10 : signedAngle ((v2.sub v1).cross (v3.sub v1)) c10.triNormal (v2.sub v1) =
      Real.pi / 18)
    (h90 : signedAngle ((v2.sub v1).cross (v3.sub v1)) c90.triNormal (v2.sub v1) =
      Real.pi / 2)
    (h170 : signedAngle ((v2.sub v1).cross (v3.sub v1)) c170.triNormal (v2.sub v1) =
      17 * Real.pi / 18)
    (hpos : 0 < Real.sqrt ((v2.sub v1).dot (v2.sub v1)).toK)
    (hlen : Real.sqrt ((v2.sub v1).dot (v2.sub v1)).toK ≤ 1 / 10000) :
    findNextTriangleWithSharedEdge Real.pi v1 v2 v3 tris = c90.triIdx := by
  have a10 := (fan_angles v1 v2 v3 c10 hv1 hv2 hv3 hc10 hpos).1 h10
  have a90 := (fan_angles v1 v2 v3 c90 hv1 hv2 hv3 hc90 hpos).2.1 h90
  have a170 := (fan_angles v1 v2 v3 c170 hv1 hv2 hv3 hc170 hpos).2.2 h170
  rw [if_pos (tenDegreeProxy_lt hpos hlen)] at a170
  obtain ⟨hT0, hT1⟩ := tenDegreeProxy_bounds hpos
  have hpi := Real.pi_pos
  have hfin : ∀ d : Triangle ℝ, (specClampedAngle Real.pi v1 v2 v3 d).isFin = true := fun d =>
    candidateAngle_isFin Real.pi ((v2.sub v1).cross (v3.sub v1)) (v2.sub v1) d.triNormal
  apply findNext_of_strict_max Real.pi v1 v2 v3 tris c90 (hperm.mem_iff.2 (by simp))
  intro d hd
  have hd' := hperm.mem_iff.1 hd
  simp only [List.mem_cons, List.mem_singleton, List.not_mem_nil, or_false] at hd'
  rcases hd' with rfl | rfl | rfl
  · right
    rw [Fl.lt_of_isFin (hfin _) (hfin _), decide_eq_true_eq, a10, a90]
    linarith
  · left; rfl
  · right
    rw [Fl.lt_of_isFin (hfin _) (hfin _), decide_eq_true_eq, a170, a90]
    linarith

end Fan

section FanInstance

theorem fan_isFin (len a : ℝ) (idx : Nat) :
    fanV1.isFin = true ∧ (fanV2 len).isFin = true ∧ fanV3.isFin = true ∧
      (fanCandidate idx a).triNormal.isFin = true := by
  simp [Vector3.isFin, fanV1, fanV2, fanV3, fanCandidate]

theorem fan_edge_length (len : ℝ) (hlen : 0 < len) :
    Real.sqrt (((fanV2 len).sub fanV1).dot ((fanV2 len).sub fanV1)).toK = len := by
  obtain ⟨h1, h2, -, -⟩ := fan_isFin len 0 0
  have he := Vector3.isFin_vsub h2 h1
  obtain ⟨ex, ey, ez⟩ := Vector3.toK_vsub h2 h1
  rw [Vector3.toK_dot he he, ex, ey, ez]
  simp only [fanV1, fanV2, Fl.toK_fin]
  rw [show (0 - 0) * (0 - 0) + (0 - 0) * (0 - 0) + (len - 0) * (len - 0) = len * len by ring]
  exact Real.sqrt_mul_self hlen.le

/-- The normal of candidate `fanCandidate idx a` makes the signed angle `a` with the normal
of the reference triangle around the shared edge. -/
theorem fan_signedAngle (len a : ℝ) (idx : Nat) (hlen : 0 < len)
    (ha : a ∈ Set.Ioc (-Real.pi) Real.pi) :
    signedAngle (((fanV2 len).sub fanV1).cross (fanV3.sub fanV1)) (fanCandidate idx a).triNormal
      ((fanV2 len).sub fanV1) = a := by
  obtain ⟨h1, h2, h3, hm⟩ := fan_isFin len a idx
  have he := Vector3.isFin_vsub h2 h1
  have hb := Vector3.isFin_vsub h3 h1
  have hn := Vector3.isFin_cross he hb
  obtain ⟨ex, ey, ez⟩ := Vector3.toK_vsub h2 h1
  obtain ⟨bx, by', bz⟩ := Vector3.toK_vsub h3 h1
  obtain ⟨nx, ny, nz⟩ := Vector3.toK_cross he hb
  obtain ⟨cx, cy, cz⟩ := Vector3.toK_cross hn hm
  unfold signedAngle
  rw [fan_edge_length len hlen, Vector3.toK_dot (Vector3.isFin_cross hn hm) he,
    Vector3.toK_dot hn hm, cx, cy, cz, nx, ny, nz, ex, ey, ez, bx, by', bz]
  simp only [fanV1, fanV2, fanV3, fanCandidate, Fl.toK_fin]
  have e1 : ((0 - 0) * (0 - 0) - (len - 0) * (0 - 0)) * -Real.sin a +
      ((len - 0) * (1 - 0) - (0 - 0) * (0 - 0)) * Real.cos a +
      ((0 - 0) * (0 - 0) - (0 - 0) * (1 - 0)) * 0 = len * Real.cos a := by ring
  have e2 : ((((len - 0) * (1 - 0) - (0 - 0) * (0 - 0)) * 0 -
        ((0 - 0) * (0 - 0) - (0 - 0) * (1 - 0)) * Real.cos a) * (0 - 0) +
      (((0 - 0) * (0 - 0) - (0 - 0) * (1 - 0)) * -Real.sin a -
        ((0 - 0) * (0 - 0) - (len - 0) * (0 - 0)) * 0) * (0 - 0) +
      (((0 - 0) * (0 - 0) - (len - 0) * (0 - 0)) * Real.cos a -
        ((len - 0) * (1 - 0) - (0 - 0) * (0 - 0)) * -Real.sin a) * (len - 0)) / len =
      len * Real.sin a := by
    field_simp
  rw [e1, e2]
  unfold atan2
  have hz : (⟨len * Real.cos a, len * Real.sin a⟩ : ℂ) =
      (len : ℂ) * (Complex.cos a + Complex.sin a * Complex.I) := by
    apply Complex.ext
    · simp [← Complex.ofReal_cos, ← Complex.ofReal_sin]
    · simp [← Complex.ofReal_cos, ← Complex.ofReal_sin]
  rw [hz]
  exact Complex.arg_mul_cos_add_sin_mul_I hlen ha

theorem fan_angle_mem :
    Real.pi / 18 ∈ Set.Ioc (-Real.pi) Real.pi ∧ Real.pi / 2 ∈ Set.Ioc (-Real.pi) Real.pi ∧
      17 * Real.pi / 18 ∈ Set.Ioc (-Real.pi) Real.pi := by
  have := Real.pi_pos
  refine ⟨⟨?_, ?_⟩, ⟨?_, ?_⟩, ⟨?_, ?_⟩⟩ <;> linarith

/-- The scenario in exact real arithmetic at the fan with a shared edge of length 1, the
candidates listed in the order 90, 170, 10 degrees: the 170-degree candidate (index 2) is
returned. -/
theorem findNextTriangleWithSharedEdge_fan_witness :
    signedAngle (((fanV2 1).sub fanV1).cross (fanV3.sub fanV1))
        (fanCandidate 2 (17 * Real.pi / 18)).triNormal ((fanV2 1).sub fanV1) =
        17 * Real.pi / 18 ∧
      findNextTriangleWithSharedEdge Real.pi fanV1 (fanV2 1) fanV3
        [fanCandidate 1 (Real.pi / 2), fanCandidate 2 (17 * Real.pi / 18),
          fanCandidate 0 (Real.pi / 18)] = 2 :=
  ⟨fan_signedAngle 1 _ 2 one_pos fan_angle_mem.2.2,
    findNextTriangleWithSharedEdge_fan fanV1 (fanV2 1) fanV3 (fanCandidate 0 (Real.pi / 18))
      (fanCandidate 1 (Real.pi / 2)) (fanCandidate 2 (17 * Real.pi / 18)) _
      (fan_isFin 1 0 0).1 (fan_isFin 1 0 0).2.1 (fan_isFin 1 0 0).2.2.1
      (fan_isFin 1 _ 0).2.2.2 (fan_isFin 1 _ 1).2.2.2 (fan_isFin 1 _ 2).2.2.2
      (by
        have h : [fanCandidate 1 (Real.pi / 2), fanCandidate 2 (17 * Real.pi / 18),
            fanCandidate 0 (Real.pi / 18)] =
            [fanCandidate 1 (Real.pi / 2), fanCandidate 2 (17 * Real.pi / 18)] ++
              [fanCandidate 0 (Real.pi / 18)] := rfl
        rw [h]
        exact List.perm_append_comm)
      (fan_signedAngle 1 _ 0 one_pos fan_angle_mem.1)
      (fan_signedAngle 1 _ 1 one_pos fan_angle_mem.2.1)
      (fan_signedAngle 1 _ 2 one_pos fan_angle_mem.2.2)
      (by rw [fan_edge_length 1 one_pos]; norm_num)⟩

/-- In exact real arithmetic, at the fan with a shared edge of length `1/10000` the
candidates make signed angles of 10, 90 and 170 degrees with the normal of the reference
triangle, and `findNextTriangleWithSharedEdge` returns the 90-degree candidate (index 1),
not the 170-degree candidate (index 2). -/
theorem findNextTriangleWithSharedEdge_fan_short_edge :
    signedAngle (((fanV2 (1 / 10000)).sub fanV1).cross (fanV3.sub fanV1))
        (fanCandidate 0 (Real.pi / 18)).triNormal ((fanV2 (1 / 10000)).sub fanV1) =
        Real.pi / 18 ∧
      signedAngle (((fanV2 (1 / 10000)).sub fanV1).cross (fanV3.sub fanV1))
        (fanCandidate 1 (Real.pi / 2)).triNormal ((fanV2 (1 / 10000)).sub fanV1) =
        Real.pi / 2 ∧
      signedAngle (((fanV2 (1 / 10000)).sub fanV1).cross (fanV3.sub fanV1))
        (fanCandidate 2 (17 * Real.pi / 18)).triNormal ((fanV2 (1 / 10000)).sub fanV1) =
        17 * Real.pi / 18 ∧
      findNextTriangleWithSharedEdge Real.pi fanV1 (fanV2 (1 / 10000)) fanV3
        [fanCandidate 0 (Real.pi / 18), fanCandidate 1 (Real.pi / 2),
          fanCandidate 2 (17 * Real.pi / 18)] = 1 ∧
      findNextTriangleWithSharedEdge Real.pi fanV1 (fanV2 (1 / 10000)) fanV3
        [fanCandidate 0 (Real.pi / 18), fanCandidate 1 (Real.pi / 2),
          fanCandidate 2 (17 * Real.pi / 18)] ≠ (fanCandidate 2 (17 * Real.pi / 18)).triIdx := by
  have hlen : (0 : ℝ) < 1 / 10000 := by norm_num
  have h10 := fan_signedAngle (1 / 10000) _ 0 hlen fan_angle_mem.1
  have h90 := fan_signedAngle (1 / 10000) _ 1 hlen fan_angle_mem.2.1
  have h170 := fan_signedAngle (1 / 10000) _ 2 hlen fan_angle_mem.2.2
  have hres := findNext_fan_clamped fanV1 (fanV2 (1 / 10000)) fanV3
    (fanCandidate 0 (Real.pi / 18)) (fanCandidate 1 (Real.pi / 2))
    (fanCandidate 2 (17 * Real.pi / 18)) _
    (fan_isFin (1 / 10000) 0 0).1 (fan_isFin (1 / 10000) 0 0).2.1
    (fan_isFin (1 / 10000) 0 0).2.2.1 (fan_isFin (1 / 10000) _ 0).2.2.2
    (fan_isFin (1 / 10000) _ 1).2.2.2 (fan_isFin (1 / 10000) _ 2).2.2.2
    (List.Perm.refl _) h10 h90 h170
    (by rw [fan_edge_length _ hlen]; exact hlen)
    (by rw [fan_edge_length _ hlen])
  refine ⟨h10, h90, h170, hres, ?_⟩
  rw [hres]
  simp [fanCandidate]

end FanInstance

/-! ## Running the search on a renumbered copy of a closed part -/

theorem getD_set_true_eq (v : List Bool) (u i : Nat) (hu : u < v.length) :
    (v.set u true).getD i false = (decide (i = u) || v.getD i false) := by
  have := getD_set_true v u i hu
  by_cases h : i = u
  · rw [this.2 (Or.inl h)]
    simp [h]
  · simp only [h, decide_False, Bool.false_or]
    cases hv : v.getD i false
    · rw [hv] at this
      cases hs : (v.set u true).getD i false
      · rfl
      · exact absurd (this.1 hs) (by simp [h])
    · exact this.2 (Or.inr hv)

theorem Sim.pushNew {f : Nat → Nat} {m n : Nat} {s' s : Traversal}
    (hf : ∀ k < m, ∀ l < m, f k = f l → k = l) (hfn : ∀ k < m, f k < n) (h : Sim f m n s' s)
    {l : Nat} (hl : l < m) : Sim f m n (pushNew s' l) (pushNew s (f l)) := by
  have hv := h.vis l hl
  cases hvl : s'.visited.getD l false
  · have hvl' : s.visited.getD (f l) false = false := by rw [← hv, hvl]
    rw [pushNew_of_not_visited hvl, pushNew_of_not_visited hvl']
    refine ⟨by simp [h.stack], h.part, ?_, by simp [h.len'], by simp [h.len], ?_⟩
    · intro x hx
      rcases List.mem_cons.1 hx with rfl | hx
      · exact hl
      · exact h.lt x hx
    · intro k hk
      simp only
      rw [getD_set_true_eq _ _ _ (by rw [h.len']; exact hl),
        getD_set_true_eq _ _ _ (by rw [h.len]; exact hfn l hl), h.vis k hk]
      congr 1
      by_cases hkl : k = l
      · simp [hkl]
      · have : f k ≠ f l := fun e => hkl (hf k hk l hl e)
        simp [hkl, this]
  · have hvl' : s.visited.getD (f l) false = true := by rw [← hv, hvl]
    rw [pushNew_of_visited hvl, pushNew_of_visited hvl']
    exact h

theorem Sim.foldl_push {f : Nat → Nat} {m n : Nat}
    (hf : ∀ k < m, ∀ l < m, f k = f l → k = l) (hfn : ∀ k < m, f k < n) (ls : List Nat) :
    ∀ {s' s : Traversal}, Sim f m n s' s → (∀ l ∈ ls, l < m) →
      Sim f m n (ls.foldl StlViewer.pushNew s') ((ls.map f).foldl StlViewer.pushNew s) := by
  induction ls with
  | nil => intro s' s h _; exact h
  | cons l ls ih =>
    intro s' s h hls
    simp only [List.foldl_cons, List.map_cons]
    exact ih (h.pushNew hf hfn (hls l (by simp))) (fun x hx => hls x (by simp [hx]))

/-- Two searches whose neighbour functions correspond under an injective renumbering run in
step. -/
theorem Sim.dfs {f : Nat → Nat} {m n : Nat} {nb' nb : Nat → List Nat}
    (hf : ∀ k < m, ∀ l < m, f k = f l → k = l) (hfn : ∀ k < m, f k < n)
    (hnb' : ∀ k < m, ∀ l ∈ nb' k, l < m) (hnb : ∀ k < m, nb (f k) = (nb' k).map f) :
    ∀ (fuel : Nat) {s' s : Traversal}, Sim f m n s' s →
      Sim f m n (StlViewer.dfs nb' fuel s') (StlViewer.dfs nb fuel s) := by
  intro fuel
  induction fuel with
  | zero => intro s' s h; exact h
  | succ fuel ih =>
    intro s' s h
    unfold StlViewer.dfs
    cases hs' : s'.stack with
    | nil =>
      have hs : s.stack = [] := by rw [h.stack, hs']; rfl
      simp only [hs]
      exact h
    | cons l rest =>
      have hs : s.stack = f l :: rest.map f := by rw [h.stack, hs']; rfl
      simp only [hs]
      have hl : l < m := h.lt l (by simp [hs'])
      apply ih
      rw [hnb l hl]
      apply Sim.foldl_push hf hfn _ _ (hnb' l hl)
      refine ⟨rfl, by simp [h.part], ?_, h.len', h.len, h.vis⟩
      intro x hx
      exact h.lt x (by simp [hs', hx])

/-- More fuel does not change a search that has emptied its stack. -/
theorem dfs_fuel_add (nb : Nat → List Nat) (g : Nat) :
    ∀ (fuel : Nat) (s : Traversal), (dfs nb fuel s).stack = [] →
      dfs nb (fuel + g) s = dfs nb fuel s := by
  intro fuel
  induction fuel with
  | zero =>
    intro s hs
    simp only [dfs] at hs
    cases g with
    | zero => rfl
    | succ g =>
      simp only [Nat.zero_add]
      unfold dfs
      simp [hs]
  | succ fuel ih =>
    intro s hs
    rw [Nat.add_right_comm]
    unfold dfs at hs ⊢
    cases hst : s.stack with
    | nil => rfl
    | cons t rest =>
      simp only [hst] at hs ⊢
      exact ih _ hs

section Serialise

variable {K : Type} [LinearOrderedField K]

theorem length_chunk (pos : List (Fl K)) (n t : Nat) (hlen : pos.length = n * 9) (ht : t < n) :
    ((pos.drop (t * 9)).take 9).length = 9 := by
  rw [List.length_take, List.length_drop, hlen]
  have : t * 9 + 9 ≤ n * 9 := by nlinarith
  omega

theorem length_partPos (pos : List (Fl K)) (n : Nat) (hlen : pos.length = n * 9) :
    ∀ P : List Nat, (∀ t ∈ P, t < n) → (partPos pos P).length = P.length * 9 := by
  intro P
  induction P with
  | nil => intro _; rfl
  | cons t P ih =>
    intro hP
    have h1 := length_chunk pos n t hlen (hP t (by simp))
    have h2 := ih (fun x hx => hP x (by simp [hx]))
    simp only [partPos, List.flatMap_cons, List.length_append, List.length_cons] at h2 ⊢
    rw [h1, h2]
    ring

/-- Float `j` of triangle `k` of a serialised part is float `j` of the `k`-th triangle of
the part. -/
theorem getD_partPos (pos : List (Fl K)) (n : Nat) (hlen : pos.length = n * 9) (d : Fl K) :
    ∀ (P : List Nat), (∀ t ∈ P, t < n) → ∀ k j, k < P.length → j < 9 →
      (partPos pos P).getD (k * 9 + j) d = pos.getD (P.getD k 0 * 9 + j) d := by
  intro P
  induction P with
  | nil => intro _ k j hk _; simp at hk
  | cons t P ih =>
    intro hP k j hk hj
    have h1 := length_chunk pos n t hlen (hP t (by simp))
    have hchunk : partPos pos (t :: P) = (pos.drop (t * 9)).take 9 ++ partPos pos P := by
      simp [partPos]
    rw [hchunk]
    cases k with
    | zero =>
      simp only [Nat.zero_mul, Nat.zero_add, List.getD_cons_zero]
      rw [List.getD_eq_getElem?_getD, List.getD_eq_getElem?_getD,
        List.getElem?_append_left (by rw [h1]; exact hj), List.getElem?_take_of_lt hj,
        List.getElem?_drop]
    | succ k =>
      have hk' : k < P.length := by simpa using hk
      have := ih (fun x hx => hP x (by simp [hx])) k j hk' hj
      simp only [List.getD_cons_succ]
      rw [← this, List.getD_eq_getElem?_getD, List.getD_eq_getElem?_getD,
        List.getElem?_append_right (by rw [h1]; omega), h1]
      congr 2
      omega

theorem vertexAt_partPos (pos : List (Fl K)) (n : Nat) (hlen : pos.length = n * 9)
    (P : List Nat) (hP : ∀ t ∈ P, t < n) (k j : Nat) (hk : k < P.length) (hj : j + 2 < 9) :
    vertexAt (partPos pos P) (k * 9 + j) = vertexAt pos (P.getD k 0 * 9 + j) := by
  unfold vertexAt
  rw [getD_partPos pos n hlen _ P hP k j hk (by omega),
    Nat.add_assoc (k * 9), getD_partPos pos n hlen _ P hP k (j + 1) hk (by omega),
    Nat.add_assoc (k * 9), getD_partPos pos n hlen _ P hP k (j + 2) hk (by omega)]
  simp only [Nat.add_assoc]

theorem edgesOf_partPos (pos : List (Fl K)) (n : Nat) (hlen : pos.length = n * 9)
    (P : List Nat) (hP : ∀ t ∈ P, t < n) (k : Nat) (hk : k < P.length) :
    edgesOf (partPos pos P) k = edgesOf pos (P.getD k 0) := by
  have h0 := vertexAt_partPos pos n hlen P hP k 0 hk (by omega)
  have h3 := vertexAt_partPos pos n hlen P hP k 3 hk (by omega)
  have h6 := vertexAt_partPos pos n hlen P hP k 6 hk (by omega)
  simp only [Nat.add_zero] at h0
  simp only [edgesOf, h0, h3, h6]

/-- Serialising all the triangles of a buffer in order gives the buffer back. -/
theorem partPos_range (m : Nat) :
    ∀ c : List (Fl K), c.length = m * 9 → partPos c (List.range m) = c := by
  induction m with
  | zero =>
    intro c hc
    simp only [Nat.zero_mul, List.length_eq_zero] at hc
    subst hc
    rfl
  | succ m ih =>
    intro c hc
    have hd : (c.drop 9).length = m * 9 := by rw [List.length_drop, hc]; omega
    have := ih (c.drop 9) hd
    rw [List.range_succ_eq_map]
    simp only [partPos, List.flatMap_cons, Nat.zero_mul, List.drop_zero, List.flatMap_map] at this ⊢
    have hfun : (fun a => List.take 9 (List.drop (Nat.succ a * 9) c)) =
        (fun k => List.take 9 (List.drop (k * 9) (List.drop 9 c))) := by
      funext k
      rw [List.drop_drop]
      congr 2
      rw [Nat.succ_mul]
      omega
    rw [hfun, this, List.take_append_drop]

end Serialise

/-! ## Idempotence on manifold inputs -/

theorem getD_inj_of_nodup {P : List Nat} (hP : P.Nodup) :
    ∀ k < P.length, ∀ l < P.length, P.getD k 0 = P.getD l 0 → k = l := by
  intro k hk l hl h
  rw [List.getD_eq_getElem _ _ hk, List.getD_eq_getElem _ _ hl] at h
  exact (hP.getElem_inj_iff).1 h

theorem getD_mem {P : List Nat} {k : Nat} (hk : k < P.length) : P.getD k 0 ∈ P := by
  rw [List.getD_eq_getElem _ _ hk]
  exact List.getElem_mem _

theorem exists_getD_of_mem {P : List Nat} {u : Nat} (hu : u ∈ P) :
    ∃ l, l < P.length ∧ P.getD l 0 = u := by
  obtain ⟨l, hl, h⟩ := List.getElem_of_mem hu
  exact ⟨l, hl, by rw [List.getD_eq_getElem _ _ hl]; exact h⟩

theorem eq_map_range_getD (P : List Nat) :
    P = (List.range P.length).map (fun k => P.getD k 0) := by
  apply List.ext_getElem
  · simp
  · intro i h1 h2
    simp only [List.getElem_map, List.getElem_range]
    rw [List.getD_eq_getElem _ _ h1]

theorem map_injOn_lists {f : Nat → Nat} {m : Nat}
    (hf : ∀ k < m, ∀ l < m, f k = f l → k = l) :
    ∀ l1 l2 : List Nat, (∀ x ∈ l1, x < m) → (∀ x ∈ l2, x < m) → l1.map f = l2.map f →
      l1 = l2 := by
  intro l1
  induction l1 with
  | nil =>
    intro l2 _ _ h
    cases l2 with
    | nil => rfl
    | cons b l2 => simp at h
  | cons a l1 ih =>
    intro l2 h1 h2 h
    cases l2 with
    | nil => simp at h
    | cons b l2 =>
      simp only [List.map_cons, List.cons.injEq] at h
      have hab := hf a (h1 a (by simp)) b (h2 b (by simp)) h.1
      rw [hab, ih l2 (fun x hx => h1 x (by simp [hx])) (fun x hx => h2 x (by simp [hx])) h.2]

section Idempotence

variable {K : Type} [LinearOrderedField K]

/-- A triangle of the input with a directed edge equal to `(v2, v1)` makes
`visitEdge(v1, v2, v3)` find a bucket. -/
theorem chosen_isSome_of_edge (pi : K) {pos : List (Fl K)} {n : Nat} (v1 v2 v3 : Vector3 K)
    {u : Nat} (hu : u < n) {f : Edge K} (hf : f ∈ edgesOf pos u)
    (hb : f.beq ⟨v2, v1⟩ = true) : chosen pi (buildEdgeMap pos n) v1 v2 v3 ≠ none := by
  have hrec : (f, (⟨u, normalOf pos u⟩ : Triangle K)) ∈
      (edgeRecords pos n).filter (fun p => p.1.beq ⟨v2, v1⟩) := by
    rw [List.mem_filter]
    exact ⟨mem_edgeRecords.2 ⟨u, hu, hf, rfl⟩, hb⟩
  have hfind := find_buildEdgeMap pos n ⟨v2, v1⟩
  have hne : ((edgeRecords pos n).filter (fun p => p.1.beq ⟨v2, v1⟩)).isEmpty = false := by
    cases hl : (edgeRecords pos n).filter (fun p => p.1.beq ⟨v2, v1⟩) with
    | nil => rw [hl] at hrec; simp at hrec
    | cons a l => rfl
  rw [hne] at hfind
  simp only [Bool.false_eq_true, if_false] at hfind
  unfold chosen
  rw [hfind]
  simp

/-- In a manifold input, what `visitEdge` looks at from a triangle of a closed part `P` is
the same triangle in `pos` and, renumbered, in the serialisation of `P`. -/
theorem chosen_partPos {pi : K} {pos : List (Fl K)} (hman : Manifold pos)
    (hlen : pos.length = pos.length / 9 * 9) (P : List Nat)
    (hP : ∀ t ∈ P, t < pos.length / 9) (v1 v2 v3 : Vector3 K)
    (hmem : ∀ u, chosen pi (buildEdgeMap pos (pos.length / 9)) v1 v2 v3 = some u → u ∈ P) :
    chosen pi (buildEdgeMap pos (pos.length / 9)) v1 v2 v3 =
      (chosen pi (buildEdgeMap (partPos pos P) P.length) v1 v2 v3).map
        (fun k => P.getD k 0) := by
  cases hc : chosen pi (buildEdgeMap (partPos pos P) P.length) v1 v2 v3 with
  | some l =>
    have hl : l < P.length := chosen_lt hc
    obtain ⟨f, hf, hb⟩ := chosen_edge hc
    rw [edgesOf_partPos pos _ hlen P hP l hl] at hf
    simp only [Option.map_some']
    exact chosen_of_manifold hman v1 v2 v3 (hP _ (getD_mem hl)) hf hb
  | none =>
    simp only [Option.map_none']
    cases hp : chosen pi (buildEdgeMap pos (pos.length / 9)) v1 v2 v3 with
    | none => rfl
    | some u =>
      exfalso
      obtain ⟨l, hl, hlu⟩ := exists_getD_of_mem (hmem u hp)
      obtain ⟨f, hf, hb⟩ := chosen_edge hp
      rw [← hlu, ← edgesOf_partPos pos _ hlen P hP l hl] at hf
      exact chosen_isSome_of_edge pi v1 v2 v3 hl hf hb hc

theorem neighbours_partPos {pi : K} {pos : List (Fl K)} (hman : Manifold pos)
    (hlen : pos.length = pos.length / 9 * 9) (P : List Nat)
    (hP : ∀ t ∈ P, t < pos.length / 9)
    (hclosed : ∀ t ∈ P, ∀ u ∈ neighbours pi pos (buildEdgeMap pos (pos.length / 9)) t, u ∈ P)
    (k : Nat) (hk : k < P.length) :
    neighbours pi pos (buildEdgeMap pos (pos.length / 9)) (P.getD k 0) =
      (neighbours pi (partPos pos P) (buildEdgeMap (partPos pos P) P.length) k).map
        (fun k => P.getD k 0) := by
  have h0 := vertexAt_partPos pos _ hlen P hP k 0 hk (by omega)
  have h3 := vertexAt_partPos pos _ hlen P hP k 3 hk (by omega)
  have h6 := vertexAt_partPos pos _ hlen P hP k 6 hk (by omega)
  simp only [Nat.add_zero] at h0
  have hcl := hclosed _ (getD_mem hk)
  simp only [neighbours, List.mem_append, Option.mem_toList, Option.mem_def] at hcl
  simp only [neighbours, h0, h3, h6, List.map_append]
  rw [chosen_partPos hman hlen P hP _ _ _ (fun u hu => hcl u (Or.inl (Or.inl hu))),
    chosen_partPos hman hlen P hP _ _ _ (fun u hu => hcl u (Or.inl (Or.inr hu))),
    chosen_partPos hman hlen P hP _ _ _ (fun u hu => hcl u (Or.inr hu))]
  congr 1
  · congr 1
    · cases chosen pi (buildEdgeMap (partPos pos P) P.length) (vertexAt pos (P.getD k 0 * 9))
        (vertexAt pos (P.getD k 0 * 9 + 3)) (vertexAt pos (P.getD k 0 * 9 + 6)) <;> rfl
    · cases chosen pi (buildEdgeMap (partPos pos P) P.length)
        (vertexAt pos (P.getD k 0 * 9 + 3)) (vertexAt pos (P.getD k 0 * 9 + 6))
        (vertexAt pos (P.getD k 0 * 9)) <;> rfl
  · cases chosen pi (buildEdgeMap (partPos pos P) P.length)
      (vertexAt pos (P.getD k 0 * 9 + 6)) (vertexAt pos (P.getD k 0 * 9))
      (vertexAt pos (P.getD k 0 * 9 + 3)) <;> rfl

end Idempotence

section IdempotenceMain

variable {K : Type} [LinearOrderedField K]

theorem OuterInv.lt_of_mem_part {nb : Nat → List Nat} {n i : Nat}
    {st : List Bool × List (Nat × List Nat)} (h : OuterInv nb n i st) :
    ∀ sp ∈ st.2, ∀ x ∈ sp.2, x < n := by
  intro sp hsp x hx
  have hmem : x ∈ (st.2.map Prod.snd).flatten := by
    simp only [List.mem_flatten, List.mem_map]
    exact ⟨sp.2, ⟨sp, hsp, rfl⟩, hx⟩
  have := lt_length_of_getD ((h.vis x).2 hmem)
  rw [h.len] at this
  exact this

/-- On a manifold input the run on the serialisation of a part records exactly one part,
all of its triangles in order. -/
theorem splitSeededParts_partPos (pi : K) (pos : List (Fl K)) (h9 : pos.length % 9 = 0)
    (h0 : pos.length ≠ 0) (hman : Manifold pos) (sp : Nat × List Nat)
    (hsp : sp ∈ splitSeededParts pi pos) :
    (partPos pos sp.2).length = sp.2.length * 9 ∧
      splitParts pi (partPos pos sp.2) = [List.range sp.2.length] := by
  obtain ⟨visited, h⟩ := splitSeededParts_inv pi pos h9 h0
  have hlen : pos.length = pos.length / 9 * 9 := by omega
  have hPlt : ∀ t ∈ sp.2, t < pos.length / 9 := h.lt_of_mem_part sp hsp
  obtain ⟨done', hok⟩ := PartsOK.partOK_of_mem _ _ h.parts sp hsp
  have hPnd : sp.2.Nodup := (List.nodup_append.1 hok.nodup).2.1
  have hsym : ∀ t u, t < pos.length / 9 →
      u ∈ neighbours pi pos (buildEdgeMap pos (pos.length / 9)) t →
      t ∈ neighbours pi pos (buildEdgeMap pos (pos.length / 9)) u := by
    intro t u ht hu
    exact mem_neighbours_of_manifold hman ht (sharesEdge_symm pos t u
      (sharesEdge_of_mem_neighbours hu))
  have hflat : ∀ x ∈ ((visited, splitSeededParts pi pos).2.map Prod.snd).flatten,
      x < pos.length / 9 := by
    intro x hx
    have := lt_length_of_getD ((h.vis x).2 hx)
    rw [h.len] at this
    exact this
  have hclosed := PartsOK.closed_of_symm hsym _ [] h.parts (by simpa using h.nodup) hflat
    (by simp) sp hsp
  obtain ⟨tlP, htlP⟩ := hok.hd
  have hclen := length_partPos pos _ hlen sp.2 hPlt
  refine ⟨hclen, ?_⟩
  have hm0 : sp.2.length ≠ 0 := by rw [htlP]; simp
  have hc9 : (partPos pos sp.2).length % 9 = 0 := by rw [hclen]; omega
  have hc0 : (partPos pos sp.2).length ≠ 0 := by rw [hclen]; omega
  have hcm : (partPos pos sp.2).length / 9 = sp.2.length := by rw [hclen]; omega
  obtain ⟨visitedC, hC⟩ := splitSeededParts_inv pi (partPos pos sp.2) hc9 hc0
  rw [hcm] at hC
  obtain ⟨tl, rest, hhead⟩ := splitSeededParts_head pi (partPos pos sp.2) hc9 hc0
  have hCparts := hC.parts
  simp only [hhead] at hCparts
  obtain ⟨hok0, hrest⟩ := hCparts
  simp only at hok0 hrest
  -- the two searches run in step
  have hf := getD_inj_of_nodup hPnd
  have hfn : ∀ k < sp.2.length, sp.2.getD k 0 < pos.length / 9 := fun k hk =>
    hPlt _ (getD_mem hk)
  obtain ⟨vis, hvlen, hvis, hseed, hrunP, -⟩ := hok.run
  obtain ⟨vis', hvlen', hvis', -, hrun', hstack'⟩ := hok0.run
  have hf0 : sp.2.getD 0 0 = sp.1 := by rw [htlP]; rfl
  have hsim0 : Sim (fun k => sp.2.getD k 0) sp.2.length (pos.length / 9)
      ⟨vis'.set 0 true, [0], []⟩ ⟨vis.set sp.1 true, [sp.1], []⟩ := by
    refine ⟨by show [sp.1] = [sp.2.getD 0 0]; rw [hf0], rfl, ?_, by simp [hvlen'],
      by simp [hvlen], ?_⟩
    · intro l hl
      simp only [List.mem_singleton] at hl
      omega
    · intro k hk
      simp only
      rw [getD_set_true_eq _ _ _ (by omega), getD_set_true_eq _ _ _ (by omega)]
      have h1 : vis'.getD k false = false := by
        cases hv : vis'.getD k false
        · rfl
        · exact absurd ((hvis' k).1 hv) (by simp)
      have h2 : vis.getD (sp.2.getD k 0) false = false := by
        cases hv : vis.getD (sp.2.getD k 0) false
        · rfl
        · exact absurd ((hvis _).1 hv)
            (fun hd => (List.nodup_append.1 hok.nodup).2.2 hd (getD_mem hk))
      rw [h1, h2]
      congr 1
      by_cases hk0 : k = 0
      · subst hk0
        rw [hf0]
        simp
      · have : sp.2.getD k 0 ≠ sp.1 := by
          rw [← hf0]
          exact fun e => hk0 (hf k hk 0 (by omega) e)
        rw [decide_eq_false hk0, decide_eq_false this]
  have hsim := Sim.dfs hf hfn (neighbours_lt pi (partPos pos sp.2) sp.2.length)
    (neighbours_partPos hman hlen sp.2 hPlt hclosed) (pos.length / 9) hsim0
  have hmle : sp.2.length ≤ pos.length / 9 := length_le_of_nodup_of_lt hPnd hPlt
  have hfuel := dfs_fuel_add (neighbours pi (partPos pos sp.2)
    (buildEdgeMap (partPos pos sp.2) sp.2.length)) (pos.length / 9 - sp.2.length)
    sp.2.length _ hstack'
  rw [Nat.add_sub_cancel' hmle] at hfuel
  have hpart := hsim.part
  rw [hfuel, ← hrunP, ← hrun'] at hpart
  have htlrange : 0 :: tl = List.range sp.2.length := by
    apply map_injOn_lists hf
    · intro x hx
      exact hC.lt_of_mem_part (0, 0 :: tl) (by simp [hhead]) x hx
    · intro x hx
      exact List.mem_range.1 hx
    · rw [← hpart]
      exact eq_map_range_getD sp.2
  -- nothing is left for a second part
  have hrestnil : rest = [] := by
    cases hr : rest with
    | nil => rfl
    | cons a rest' =>
      exfalso
      obtain ⟨tla, htla⟩ := PartsOK.hd_of_mem _ _ hrest a (by simp [hr])
      have ha : a.1 ∈ a.2 := by rw [htla]; simp
      have halt : a.1 < sp.2.length :=
        hC.lt_of_mem_part a (by simp [hhead, hr]) a.1 ha
      have hnd := hC.nodup
      simp only [hhead, hr, List.map_cons, List.flatten_cons] at hnd
      have hdisj := (List.nodup_append.1 hnd).2.2
      have h1 : a.1 ∈ (0 :: tl) := by rw [htlrange]; exact List.mem_range.2 halt
      exact hdisj h1 (List.mem_append_left _ ha)
  unfold splitParts
  rw [hhead, hrestnil, htlrange]
  rfl

/-- C4, amended (idempotence on manifold input): when no bucket of the index of a valid
input holds more than one record, running `splitDisjointGeometry` on one of its output
components returns exactly that component, unchanged. -/
theorem splitDisjointGeometry_idempotent_of_manifold (pi : K) (pos : List (Fl K))
    (h9 : pos.length % 9 = 0) (h0 : pos.length ≠ 0) (hman : Manifold pos) (c : List (Fl K))
    (hc : c ∈ splitDisjointGeometry pi pos) : splitDisjointGeometry pi c = [c] := by
  rw [splitDisjointGeometry_eq_map, splitParts, List.map_map, List.mem_map] at hc
  obtain ⟨sp, hsp, rfl⟩ := hc
  obtain ⟨hlen, hparts⟩ := splitSeededParts_partPos pi pos h9 h0 hman sp hsp
  rw [splitDisjointGeometry_eq_map]
  simp only [Function.comp_apply]
  rw [hparts]
  simp only [List.map_cons, List.map_nil]
  rw [partPos_range _ _ hlen]

end IdempotenceMain

/-- The amended idempotence at the two cubes: running again on the first component (the
first cube, its triangles in the order of discovery) returns that component alone. -/
theorem splitDisjointGeometry_idempotent_of_manifold_witness :
    twoCubes.length % 9 = 0 ∧ twoCubes.length ≠ 0 ∧ Manifold twoCubes ∧
      partPos twoCubes [0, 1, 4, 5, 8, 3, 6, 2, 11, 10, 7, 9] ∈
        splitDisjointGeometry M_PI_double twoCubes ∧
      splitDisjointGeometry M_PI_double
          (partPos twoCubes [0, 1, 4, 5, 8, 3, 6, 2, 11, 10, 7, 9]) =
        [partPos twoCubes [0, 1, 4, 5, 8, 3, 6, 2, 11, 10, 7, 9]] :=
  ⟨by decide!, by decide!, by unfold Manifold; decide!, by decide!,
    splitDisjointGeometry_idempotent_of_manifold M_PI_double twoCubes (by decide!) (by decide!)
      (by unfold Manifold; decide!) _ (by decide!)⟩

/-- C4 as stated fails: the valid input `tiedMesh` gives one component (the triangles in
the order 0, 2, 3, 1), and running `splitDisjointGeometry` on that component gives two
components, of 3 triangles and of 1 triangle. -/
theorem splitDisjointGeometry_not_idempotent :
    tiedMesh.length % 9 = 0 ∧ tiedMesh.length ≠ 0 ∧
      splitParts M_PI_double tiedMesh = [[0, 2, 3, 1]] ∧
      splitDisjointGeometry M_PI_double tiedMesh = [partPos tiedMesh [0, 2, 3, 1]] ∧
      splitParts M_PI_double (partPos tiedMesh [0, 2, 3, 1]) = [[0, 1, 2], [3]] ∧
      splitDisjointGeometry M_PI_double (partPos tiedMesh [0, 2, 3, 1]) ≠
        [partPos tiedMesh [0, 2, 3, 1]] := by
  refine ⟨by decide!, by decide!, by decide!, by decide!, by decide!, by decide!⟩

/-! ## The range of `notAtan2` -/

section Range

variable {K : Type} [LinearOrderedField K]

theorem decide_div_neg (a b : K) (ha : a ≠ 0) (hb : b ≠ 0) :
    decide (a / b < 0) = xor (decide (a < 0)) (decide (b < 0)) := by
  rcases lt_or_gt_of_ne ha with h1 | h1 <;> rcases lt_or_gt_of_ne hb with h2 | h2
  · have : ¬ a / b < 0 := not_lt.2 (div_pos_of_neg_of_neg h1 h2).le
    simp [h1, h2, this]
  · have : a / b < 0 := div_neg_of_neg_of_pos h1 h2
    simp [h1, not_lt.2 h2.le, this]
  · have : a / b < 0 := div_neg_of_pos_of_neg h1 h2
    simp [not_lt.2 h1.le, h2, this]
  · have : ¬ a / b < 0 := not_lt.2 (div_pos h1 h2).le
    simp [not_lt.2 h1.le, not_lt.2 h2.le, this]

@[simp]
theorem Fl.signbit_mkZero (s : Bool) : (mkZero s : Fl K).signbit = s := by
  cases s <;> simp [mkZero]

/-- The sign of a ratio that is not NaN is the exclusive or of the signs. -/
theorem Fl.signbit_div (y x : Fl K) (h : (y.div x).isnan = false) :
    (y.div x).signbit = xor y.signbit x.signbit := by
  cases y <;> cases x <;> simp [Fl.div] at h ⊢ <;> (try split_ifs at h ⊢) <;>
    simp_all [decide_div_neg]

/-- The test `x >= 0.0f && !signbit(x)` is the test of the sign bit when `x` is not NaN. -/
theorem branch_eq_signbit (x : Fl K) (h : x.isnan = false) :
    ((fin 0).le x && !x.signbit) = !x.signbit := by
  cases x with
  | nan => simp at h
  | inf s => cases s <;> simp [Fl.le]
  | nzero => simp [Fl.le]
  | fin q =>
    by_cases hq : q < 0
    · simp [Fl.le, hq, not_le.2 hq]
    · simp [Fl.le, hq, not_lt.1 hq]

/-- The term `normalized` of `notAtan2` is finite, within `pi/2` of zero and has the sign of
the ratio `alpha`. -/
theorem normalized_bounds (pi : K) (hpi : 0 < pi) (alpha : Fl K) (h : alpha.isnan = false) :
    ((((fin pi).mul (fin (1 / 2))).mul (copysign (fin 1) alpha)).mul
        ((fin 1).sub ((fin 1).div ((fin 1).add alpha.abs)))).isFin = true ∧
      (alpha.signbit = true →
        -(pi * (1 / 2)) ≤ ((((fin pi).mul (fin (1 / 2))).mul (copysign (fin 1) alpha)).mul
          ((fin 1).sub ((fin 1).div ((fin 1).add alpha.abs)))).toK ∧
        ((((fin pi).mul (fin (1 / 2))).mul (copysign (fin 1) alpha)).mul
          ((fin 1).sub ((fin 1).div ((fin 1).add alpha.abs)))).toK ≤ 0) ∧
      (alpha.signbit = false →
        0 ≤ ((((fin pi).mul (fin (1 / 2))).mul (copysign (fin 1) alpha)).mul
          ((fin 1).sub ((fin 1).div ((fin 1).add alpha.abs)))).toK ∧
        ((((fin pi).mul (fin (1 / 2))).mul (copysign (fin 1) alpha)).mul
          ((fin 1).sub ((fin 1).div ((fin 1).add alpha.abs)))).toK ≤ pi * (1 / 2)) := by
  have h1 : ¬ (1 : K) < 0 := not_lt.2 zero_le_one
  have h2 : ¬ pi * 2⁻¹ < 0 := not_lt.2 (by positivity)
  have h3 : (0 : K) ≤ pi * 2⁻¹ := by positivity
  cases alpha with
  | nan => simp at h
  | inf s =>
    cases s <;>
      simp [Fl.mul, Fl.div, Fl.add, Fl.sub, Fl.neg, Fl.abs, copysign, mkZero, hpi.ne', h1, h2, h3]
  | nzero =>
    simp [Fl.mul, Fl.div, Fl.add, Fl.sub, Fl.neg, Fl.abs, copysign, mkZero, hpi.ne', h1, h2, h3,
      hpi]
  | fin a =>
    by_cases ha : a = 0
    · subst ha
      simp [Fl.mul, Fl.div, Fl.add, Fl.sub, Fl.neg, Fl.abs, copysign, mkZero, hpi.ne', h1, h2, h3]
    · rw [normalized_fin pi a hpi.ne' ha]
      have hp : (0 : K) < pi * (1 / 2) := by positivity
      rcases lt_or_gt_of_ne ha with hneg | hpos
      · have hb := ratio_bounds_neg hneg
        refine ⟨rfl, fun _ => ⟨?_, ?_⟩, fun hc => by simp [Fl.signbit, hneg] at hc⟩
        · simp only [Fl.toK_fin]
          nlinarith [hb.1, hb.2]
        · simp only [Fl.toK_fin]
          nlinarith [hb.1, hb.2]
      · have hb := ratio_bounds_pos hpos
        refine ⟨rfl, fun hc => by simp [Fl.signbit, not_lt.2 hpos.le] at hc, fun _ => ⟨?_, ?_⟩⟩
        · simp only [Fl.toK_fin]
          nlinarith [hb.1, hb.2]
        · simp only [Fl.toK_fin]
          nlinarith [hb.1, hb.2]

/-- The term `normalized` of `notAtan2` is zero exactly when the ratio `alpha` is a zero. -/
theorem normalized_eq_zero_iff (pi : K) (hpi : 0 < pi) (alpha : Fl K) (h : alpha.isnan = false) :
    ((((fin pi).mul (fin (1 / 2))).mul (copysign (fin 1) alpha)).mul
        ((fin 1).sub ((fin 1).div ((fin 1).add alpha.abs)))).toK = 0 ↔ alpha.isZero = true := by
  have h1 : ¬ (1 : K) < 0 := not_lt.2 zero_le_one
  have h2 : ¬ pi * 2⁻¹ < 0 := not_lt.2 (by positivity)
  cases alpha with
  | nan => simp at h
  | inf s =>
    cases s <;>
      simp [Fl.mul, Fl.div, Fl.add, Fl.sub, Fl.neg, Fl.abs, copysign, mkZero, hpi.ne', h1, h2]
  | nzero =>
    simp [Fl.mul, Fl.div, Fl.add, Fl.sub, Fl.neg, Fl.abs, copysign, mkZero, hpi.ne', h1, h2, hpi]
  | fin a =>
    by_cases ha : a = 0
    · subst ha
      simp [Fl.mul, Fl.div, Fl.add, Fl.sub, Fl.neg, Fl.abs, copysign, mkZero, hpi.ne', h1, h2]
    · rw [normalized_fin pi a hpi.ne' ha]
      have hden : (1 : K) + |a| ≠ 0 := by
        have : (0 : K) ≤ |a| := abs_nonneg a
        linarith
      simp [Fl.isZero, ha, hpi.ne', hden]

/-- The range of `notAtan2`, in field values: the result lies in `[-pi, pi]`, and strictly
inside unless the ratio `y / x` is a zero and `x` has its sign bit set. -/
theorem notAtan2_mem_Icc (pi : K) (hpi : 0 < pi) (y x : Fl K) :
    (-pi ≤ (notAtan2 pi y x).toK ∧ (notAtan2 pi y x).toK ≤ pi) ∧
      ((-pi < (notAtan2 pi y x).toK ∧ (notAtan2 pi y x).toK < pi) ↔
        ¬ ((y.div x).isZero = true ∧ x.signbit = true)) := by
  unfold notAtan2
  simp only
  by_cases hnan : (y.div x).isnan = true
  · have hz : (y.div x).isZero = false := by
      cases hd : y.div x <;> simp_all
    simp [hnan, hpi.le, hpi, hz]
  · have hnan' : (y.div x).isnan = false := by simpa using hnan
    have hx : x.isnan = false := by
      cases hxn : x.isnan
      · rfl
      · exact absurd ((Fl.isnan_div y x).2 (Or.inr (Or.inl hxn))) hnan
    obtain ⟨hfin, hneg, hpos⟩ := normalized_bounds pi hpi (y.div x) hnan'
    have hzero := normalized_eq_zero_iff pi hpi (y.div x) hnan'
    rw [if_neg hnan, branch_eq_signbit x hx]
    have hsd := Fl.signbit_div y x hnan'
    cases hsx : x.signbit
    · simp only [Bool.not_false, if_true, Bool.false_eq_true, and_false, not_false_eq_true,
        iff_true]
      cases hs : (y.div x).signbit
      · have := hpos hs
        refine ⟨⟨?_, ?_⟩, ?_, ?_⟩ <;> nlinarith [this.1, this.2]
      · have := hneg hs
        refine ⟨⟨?_, ?_⟩, ?_, ?_⟩ <;> nlinarith [this.1, this.2]
    · simp only [Bool.not_true, Bool.false_eq_true, if_false, and_true]
      rw [hsx] at hsd
      rw [← hzero]
      cases hsy : y.signbit
      · rw [hsy] at hsd
        have hb := hneg (by simpa using hsd)
        have hc : copysign (fin pi) y = fin pi := by
          simp [copysign, hsy, Fl.abs, abs_of_pos hpi]
        rw [hc, Fl.toK_add hfin (by simp)]
        simp only [Fl.toK_fin]
        refine ⟨⟨?_, ?_⟩, fun h0 h1 => ?_, fun h0 => ⟨?_, ?_⟩⟩
        · nlinarith [hb.1, hb.2]
        · nlinarith [hb.1, hb.2]
        · rw [h1] at h0
          simp at h0
        · nlinarith [hb.1, hb.2]
        · rcases lt_or_eq_of_le hb.2 with h1 | h1
          · linarith
          · exact absurd h1 h0
      · rw [hsy] at hsd
        have hb := hpos (by simpa using hsd)
        have hc : copysign (fin pi) y = fin (-pi) := by
          simp [copysign, hsy, Fl.abs, Fl.neg, abs_of_pos hpi, hpi.ne']
        rw [hc, Fl.toK_add hfin (by simp)]
        simp only [Fl.toK_fin]
        refine ⟨⟨?_, ?_⟩, fun h0 h1 => ?_, fun h0 => ⟨?_, ?_⟩⟩
        · nlinarith [hb.1, hb.2]
        · nlinarith [hb.1, hb.2]
        · rw [h1] at h0
          simp at h0
        · rcases lt_or_eq_of_le hb.1 with h1 | h1
          · linarith
          · exact absurd h1.symm h0
        · nlinarith [hb.1, hb.2]

/-- The range of `notAtan2` in exact arithmetic: for `pi > 0` and every pair of floats
`(y, x)`, NaN, zeros and infinities included, `notAtan2(y, x)` is a finite float of the
closed range `[-pi, pi]`, both for the C comparisons and in field values; it lies in the
open range `(-pi, pi)` unless the ratio `y / x` is a zero and the sign bit of `x` is set, and
for every negative finite `x` it is `pi` at `y = +0.0` and `-pi` at `y = -0.0`. -/
theorem notAtan2_closed_range (pi : K) (hpi : 0 < pi) (y x : Fl K) :
    (notAtan2 pi y x).isFin = true ∧
      (fin (-pi)).le (notAtan2 pi y x) = true ∧ (notAtan2 pi y x).le (fin pi) = true ∧
      ((-pi < (notAtan2 pi y x).toK ∧ (notAtan2 pi y x).toK < pi) ↔
        ¬ ((y.div x).isZero = true ∧ x.signbit = true)) ∧
      (∀ q : K, q < 0 →
        notAtan2 pi (fin 0) (fin q) = fin pi ∧ notAtan2 pi nzero (fin q) = fin (-pi)) := by
  have hf := notAtan2_isFin pi y x
  have hr := notAtan2_mem_Icc pi hpi y x
  refine ⟨hf, ?_, ?_, hr.2, ?_⟩
  · cases hn : notAtan2 pi y x with
    | nan => rw [hn] at hf; simp at hf
    | inf s => rw [hn] at hf; simp at hf
    | nzero => rw [hn] at hr; simpa [Fl.le] using hr.1.1
    | fin r => rw [hn] at hr; simpa [Fl.le] using hr.1.1
  · cases hn : notAtan2 pi y x with
    | nan => rw [hn] at hf; simp at hf
    | inf s => rw [hn] at hf; simp at hf
    | nzero => rw [hn] at hr; simpa [Fl.le] using hr.1.2
    | fin r => rw [hn] at hr; simpa [Fl.le] using hr.1.2
  · intro q hq
    have h2 : ¬ pi * 2⁻¹ < 0 := not_lt.2 (by positivity)
    constructor
    · simp [notAtan2, Fl.div, Fl.mul, Fl.add, Fl.sub, Fl.neg, Fl.abs, copysign, Fl.le, mkZero,
        hq.ne, not_le.2 hq, hq, hpi.ne', abs_of_pos hpi, not_lt.2 hpi.le, hpi]
    · simp [notAtan2, Fl.div, Fl.mul, Fl.add, Fl.sub, Fl.neg, Fl.abs, copysign, Fl.le, mkZero,
        hq.ne, not_le.2 hq, hq, hpi.ne', abs_of_pos hpi, not_lt.2 hpi.le, hpi, h2]

/-- In exact arithmetic, at `y = +0.0`, `x = -1` the result is `pi` itself, which is finite,
at most `pi`, and not strictly inside the range. -/
theorem notAtan2_closed_range_witness :
    (notAtan2 M_PI_double (fin 0) (fin (-1))).isFin = true ∧
      (fin (-M_PI_double)).le (notAtan2 M_PI_double (fin 0) (fin (-1))) = true ∧
      (notAtan2 M_PI_double (fin 0) (fin (-1))).le (fin M_PI_double) = true ∧
      ((-M_PI_double < (notAtan2 M_PI_double (fin 0) (fin (-1))).toK ∧
          (notAtan2 M_PI_double (fin 0) (fin (-1))).toK < M_PI_double) ↔
        ¬ (((fin 0 : Fl ℚ).div (fin (-1))).isZero = true ∧ (fin (-1) : Fl ℚ).signbit = true)) ∧
      (∀ q : ℚ, q < 0 →
        notAtan2 M_PI_double (fin 0) (fin q) = fin M_PI_double ∧
          notAtan2 M_PI_double nzero (fin q) = fin (-M_PI_double)) :=
  notAtan2_closed_range M_PI_double (by decide!) (fin 0) (fin (-1))

/-- In exact arithmetic `notAtan2(+0.0, -1)` is `pi` and `notAtan2(-0.0, -1)` is `-pi`,
neither of which is strictly between `-pi` and `pi`. -/
theorem notAtan2_attains_endpoints :
    notAtan2 M_PI_double (fin 0) (fin (-1)) = fin M_PI_double ∧
      (notAtan2 M_PI_double (fin 0) (fin (-1))).lt (fin M_PI_double) = false ∧
      notAtan2 M_PI_double nzero (fin (-1)) = fin (-M_PI_double) ∧
      (fin (-M_PI_double)).lt (notAtan2 M_PI_double nzero (fin (-1))) = false := by
  decide!

end Range

/-! ## The stored buckets of the edge index -/

section Buckets

variable {K : Type} [LinearOrderedField K]

theorem EdgeMap.pushBack_ne_nil (m : EdgeMap K) (e : Edge K) (t : Triangle K)
    (h : ∀ kb ∈ m, kb.2 ≠ []) : ∀ kb ∈ m.pushBack e t, kb.2 ≠ [] := by
  induction m with
  | nil => simp [EdgeMap.pushBack]
  | cons kb rest ih =>
    obtain ⟨k, b⟩ := kb
    simp only [EdgeMap.pushBack]
    split_ifs with hk
    · intro kb hkb
      rcases List.mem_cons.1 hkb with rfl | hkb
      · simp
      · exact h kb (List.mem_cons_of_mem _ hkb)
    · intro kb hkb
      rcases List.mem_cons.1 hkb with rfl | hkb
      · exact h _ (List.mem_cons_self _ _)
      · exact ih (fun kb hkb => h kb (List.mem_cons_of_mem _ hkb)) kb hkb

theorem EdgeMap.pushBack_perm (m : EdgeMap K) (e : Edge K) (t : Triangle K) :
    ((m.pushBack e t).flatMap Prod.snd).Perm (m.flatMap Prod.snd ++ [t]) := by
  induction m with
  | nil => simp [EdgeMap.pushBack]
  | cons kb rest ih =>
    obtain ⟨k, b⟩ := kb
    simp only [EdgeMap.pushBack]
    split_ifs with hk
    · simp only [List.flatMap_cons, List.append_assoc]
      exact List.Perm.append_left b List.perm_append_comm
    · simp only [List.flatMap_cons, List.append_assoc]
      exact List.Perm.append_left b ih

theorem EdgeMap.pushBack_sublist (m : EdgeMap K) (e : Edge K) (t : Triangle K)
    (l : List (Triangle K)) (h : ∀ kb ∈ m, kb.2.Sublist l) :
    ∀ kb ∈ m.pushBack e t, kb.2.Sublist (l ++ [t]) := by
  induction m with
  | nil =>
    intro kb hkb
    simp only [EdgeMap.pushBack, List.mem_singleton] at hkb
    subst hkb
    exact List.sublist_append_right l [t]
  | cons kb rest ih =>
    obtain ⟨k, b⟩ := kb
    simp only [EdgeMap.pushBack]
    split_ifs with hk
    · intro kb hkb
      rcases List.mem_cons.1 hkb with rfl | hkb
      · exact List.Sublist.append (h _ (List.mem_cons_self _ _)) (List.Sublist.refl _)
      · exact (h kb (List.mem_cons_of_mem _ hkb)).trans (List.sublist_append_left l [t])
    · intro kb hkb
      rcases List.mem_cons.1 hkb with rfl | hkb
      · exact (h _ (List.mem_cons_self _ _)).trans (List.sublist_append_left l [t])
      · exact ih (fun kb hkb => h kb (List.mem_cons_of_mem _ hkb)) kb hkb

theorem EdgeMap.pushBack_key (m : EdgeMap K) (e : Edge K) (t : Triangle K) :
    ∀ kb ∈ m.pushBack e t, kb.1 = e ∨ ∃ kb' ∈ m, kb'.1 = kb.1 := by
  induction m with
  | nil =>
    intro kb hkb
    simp only [EdgeMap.pushBack, List.mem_singleton] at hkb
    subst hkb
    exact Or.inl rfl
  | cons kb rest ih =>
    obtain ⟨k, b⟩ := kb
    simp only [EdgeMap.pushBack]
    split_ifs with hk
    · intro kb hkb
      rcases List.mem_cons.1 hkb with rfl | hkb
      · exact Or.inr ⟨(k, b), List.mem_cons_self _ _, rfl⟩
      · exact Or.inr ⟨kb, List.mem_cons_of_mem _ hkb, rfl⟩
    · intro kb hkb
      rcases List.mem_cons.1 hkb with rfl | hkb
      · exact Or.inr ⟨(k, b), List.mem_cons_self _ _, rfl⟩
      · rcases ih kb hkb with h1 | ⟨kb', h1, h2⟩
        · exact Or.inl h1
        · exact Or.inr ⟨kb', List.mem_cons_of_mem _ h1, h2⟩

theorem EdgeMap.pushBack_pairwise (m : EdgeMap K) (e : Edge K) (t : Triangle K)
    (h : m.Pairwise (fun a b => ¬ a.1.beq b.1 = true)) :
    (m.pushBack e t).Pairwise (fun a b => ¬ a.1.beq b.1 = true) := by
  induction m with
  | nil => simp [EdgeMap.pushBack]
  | cons kb rest ih =>
    obtain ⟨k, b⟩ := kb
    rw [List.pairwise_cons] at h
    simp only [EdgeMap.pushBack]
    split_ifs with hk
    · rw [List.pairwise_cons]
      exact ⟨h.1, h.2⟩
    · rw [List.pairwise_cons]
      refine ⟨?_, ih h.2⟩
      intro kb hkb
      rcases EdgeMap.pushBack_key rest e t kb hkb with h1 | ⟨kb', h1, h2⟩
      · rw [h1]; exact hk
      · rw [← h2]; exact h.1 kb' h1

theorem EdgeMap.pushBack_single (m : EdgeMap K) (e : Edge K) (t : Triangle K)
    (h : ∀ kb ∈ m, ¬ kb.1.beq kb.1 = true → kb.2.length = 1) :
    ∀ kb ∈ m.pushBack e t, ¬ kb.1.beq kb.1 = true → kb.2.length = 1 := by
  induction m with
  | nil =>
    intro kb hkb
    simp only [EdgeMap.pushBack, List.mem_singleton] at hkb
    subst hkb
    simp
  | cons kb rest ih =>
    obtain ⟨k, b⟩ := kb
    simp only [EdgeMap.pushBack]
    split_ifs with hk
    · intro kb hkb
      rcases List.mem_cons.1 hkb with rfl | hkb
      · intro hn
        exact absurd (Edge.ebeq_trans hk (by rw [Edge.ebeq_symm]; exact hk)) hn
      · exact h kb (List.mem_cons_of_mem _ hkb)
    · intro kb hkb
      rcases List.mem_cons.1 hkb with rfl | hkb
      · exact h _ (List.mem_cons_self _ _)
      · exact ih (fun kb hkb => h kb (List.mem_cons_of_mem _ hkb)) kb hkb

/-- What a sequence of insertions into the empty index leaves in the stored buckets. -/
theorem EdgeMap.insertAll_inv (ins : List (Edge K × Triangle K)) :
    (∀ kb ∈ ins.foldl (fun m p => EdgeMap.pushBack m p.1 p.2) ([] : EdgeMap K), kb.2 ≠ []) ∧
      ((ins.foldl (fun m p => EdgeMap.pushBack m p.1 p.2) ([] : EdgeMap K)).flatMap
        Prod.snd).Perm (ins.map Prod.snd) ∧
      (∀ kb ∈ ins.foldl (fun m p => EdgeMap.pushBack m p.1 p.2) ([] : EdgeMap K),
        kb.2.Sublist (ins.map Prod.snd)) ∧
      (ins.foldl (fun m p => EdgeMap.pushBack m p.1 p.2) ([] : EdgeMap K)).Pairwise
        (fun a b => ¬ a.1.beq b.1 = true) ∧
      (∀ kb ∈ ins.foldl (fun m p => EdgeMap.pushBack m p.1 p.2) ([] : EdgeMap K),
        ¬ kb.1.beq kb.1 = true → kb.2.length = 1) := by
  induction ins using List.reverseRecOn with
  | nil => simp
  | append_singleton ins p ih =>
    obtain ⟨h1, h2, h3, h4, h5⟩ := ih
    rw [List.foldl_append, List.foldl_cons, List.foldl_nil, List.map_append, List.map_singleton]
    exact ⟨EdgeMap.pushBack_ne_nil _ _ _ h1,
      (EdgeMap.pushBack_perm _ _ _).trans (List.Perm.append_right _ h2),
      EdgeMap.pushBack_sublist _ _ _ _ h3, EdgeMap.pushBack_pairwise _ _ _ h4,
      EdgeMap.pushBack_single _ _ _ h5⟩

/-- A stored bucket whose key equals itself is the bucket a lookup of the key finds. -/
theorem EdgeMap.find_of_mem (m : EdgeMap K) (h : m.Pairwise (fun a b => ¬ a.1.beq b.1 = true))
    (kb : Edge K × List (Triangle K)) (hkb : kb ∈ m) (hr : kb.1.beq kb.1 = true) :
    m.find kb.1 = some kb.2 := by
  induction m with
  | nil => simp at hkb
  | cons kb' rest ih =>
    rw [List.pairwise_cons] at h
    rcases List.mem_cons.1 hkb with rfl | hkb
    · simp [EdgeMap.find, hr]
    · have := h.1 kb hkb
      simp only [EdgeMap.find, this, if_false]
      exact ih h.2 hkb

theorem map_triIdx_edgeRecords (pos : List (Fl K)) (n : Nat) :
    ((edgeRecords pos n).map Prod.snd).map Triangle.triIdx =
      (List.range n).flatMap (fun i => [i, i, i]) := by
  simp [edgeRecords, List.map_flatMap, edgesOf, Function.comp_def]

theorem pairwise_triples (n : Nat) :
    ((List.range n).flatMap (fun i => [i, i, i])).Pairwise (fun a b => a ≤ b) := by
  induction n with
  | zero => simp
  | succ n ih =>
    rw [List.range_succ, List.flatMap_append, List.pairwise_append]
    refine ⟨ih, by simp, ?_⟩
    intro a ha b hb
    simp only [List.mem_flatMap, List.mem_range] at ha
    obtain ⟨i, hi, ha⟩ := ha
    simp at ha hb
    omega

theorem length_edgeRecords (pos : List (Fl K)) (n : Nat) : (edgeRecords pos n).length = 3 * n := by
  have := congrArg List.length (map_triIdx_edgeRecords pos n)
  rw [List.length_map, List.length_map] at this
  rw [this]
  clear this
  induction n with
  | zero => simp
  | succ n ih =>
    rw [List.range_succ, List.flatMap_append, List.length_append, ih]
    simp
    omega

/-- C12 (edge index contents): with `n = len(pos) / 9`, the insertions of the index-building
loop are, for `i = 0 .. n-1` in this order, the three records `{i, (v2-v1) x (v3-v1)}` under
the keys `(v1,v2)`, `(v2,v3)`, `(v3,v1)` of triangle `i`; the bucket found for a key `q` holds
exactly the records inserted under a key equal to `q`, in the order of insertion, and no
bucket is found when there is none; a stored bucket whose key equals itself is the bucket
found for its key, and one whose key does not equal itself (a NaN coordinate) holds the one
record it was created with; every stored bucket is non-empty with non-decreasing triangle
indices; the buckets together hold every inserted record exactly once, `3 * n` records in
all. -/
theorem buildEdgeMap_contents (pos : List (Fl K)) :
    edgeRecords pos (pos.length / 9) =
        (List.range (pos.length / 9)).flatMap (fun i =>
          [((⟨vertexAt pos (i * 9), vertexAt pos (i * 9 + 3)⟩ : Edge K),
              (⟨i, ((vertexAt pos (i * 9 + 3)).sub (vertexAt pos (i * 9))).cross
                ((vertexAt pos (i * 9 + 6)).sub (vertexAt pos (i * 9)))⟩ : Triangle K)),
           (⟨vertexAt pos (i * 9 + 3), vertexAt pos (i * 9 + 6)⟩,
              ⟨i, ((vertexAt pos (i * 9 + 3)).sub (vertexAt pos (i * 9))).cross
                ((vertexAt pos (i * 9 + 6)).sub (vertexAt pos (i * 9)))⟩),
           (⟨vertexAt pos (i * 9 + 6), vertexAt pos (i * 9)⟩,
              ⟨i, ((vertexAt pos (i * 9 + 3)).sub (vertexAt pos (i * 9))).cross
                ((vertexAt pos (i * 9 + 6)).sub (vertexAt pos (i * 9)))⟩)]) ∧
      (∀ q : Edge K, (buildEdgeMap pos (pos.length / 9)).find q =
        if ((edgeRecords pos (pos.length / 9)).filter (fun p => p.1.beq q)).isEmpty then none
        else some (((edgeRecords pos (pos.length / 9)).filter (fun p => p.1.beq q)).map
          Prod.snd)) ∧
      (∀ kb ∈ buildEdgeMap pos (pos.length / 9), kb.1.beq kb.1 = true →
        (buildEdgeMap pos (pos.length / 9)).find kb.1 = some kb.2) ∧
      (∀ kb ∈ buildEdgeMap pos (pos.length / 9), ¬ kb.1.beq kb.1 = true →
        kb.2.length = 1) ∧
      (∀ kb ∈ buildEdgeMap pos (pos.length / 9),
        kb.2 ≠ [] ∧ kb.2.Pairwise (fun s t => s.triIdx ≤ t.triIdx)) ∧
      ((buildEdgeMap pos (pos.length / 9)).flatMap Prod.snd).Perm
        ((edgeRecords pos (pos.length / 9)).map Prod.snd) ∧
      ((buildEdgeMap pos (pos.length / 9)).map (fun kb => kb.2.length)).sum =
        3 * (pos.length / 9) := by
  obtain ⟨h1, h2, h3, h4, h5⟩ := EdgeMap.insertAll_inv (edgeRecords pos (pos.length / 9))
  rw [← buildEdgeMap_eq] at h1 h2 h3 h4 h5
  refine ⟨?_, find_buildEdgeMap pos _, ?_, h5, ?_, h2, ?_⟩
  · simp [edgeRecords, edgesOf, normalOf]
  · intro kb hkb hr
    exact EdgeMap.find_of_mem _ h4 kb hkb hr
  · intro kb hkb
    refine ⟨h1 kb hkb, ?_⟩
    have hs := (h3 kb hkb).map Triangle.triIdx
    rw [map_triIdx_edgeRecords] at hs
    have := List.Pairwise.sublist hs (pairwise_triples _)
    rw [List.pairwise_map] at this
    exact this
  · have := h2.length_eq
    rw [List.length_map, length_edgeRecords, List.length_flatMap] at this
    exact this

end Buckets

/-! ## The lookups of `visitEdge` stay in bounds -/

section Bounds

variable {K : Type} [LinearOrderedField K]

theorem length_visited_visitEdge (pi : K) (edgeMap : EdgeMap K) (v1 v2 v3 : Vector3 K)
    (s : Traversal) : (visitEdge pi edgeMap v1 v2 v3 s).visited.length = s.visited.length := by
  unfold visitEdge
  split
  · rfl
  · simp only
    split_ifs <;> simp

theorem length_visited_whileLoop (pi : K) (pos : List (Fl K)) (edgeMap : EdgeMap K) :
    ∀ (fuel : Nat) (s : Traversal),
      (whileLoop pi pos edgeMap fuel s).visited.length = s.visited.length := by
  intro fuel
  induction fuel with
  | zero => intro s; rfl
  | succ fuel ih =>
    intro s
    unfold whileLoop
    split
    · rfl
    · rw [ih]
      simp only [popAndVisit, length_visited_visitEdge]

/-- C17 (in-bounds neighbour lookup): on an input whose length is a multiple of 9, with
`triCount = len(pos) / 9`, every bucket stored in the edge index is non-empty; a bucket that
`edgeMap.find` returns is non-empty, and for every `v1, v2, v3` the index that
`findNextTriangleWithSharedEdge` returns on it is smaller than `triCount`, so that
`nextTriIdx * 9 + 8` is smaller than `len(pos)`; `visitEdge` and the `while` loop leave the
size of `visited` unchanged. -/
theorem visitEdge_lookup_in_bounds (pi : K) (pos : List (Fl K)) (h9 : pos.length % 9 = 0) :
    (∀ kb ∈ buildEdgeMap pos (pos.length / 9), kb.2 ≠ []) ∧
      (∀ (q : Edge K) (tris : List (Triangle K)),
        (buildEdgeMap pos (pos.length / 9)).find q = some tris →
          tris ≠ [] ∧ ∀ v1 v2 v3 : Vector3 K,
            findNextTriangleWithSharedEdge pi v1 v2 v3 tris < pos.length / 9 ∧
            findNextTriangleWithSharedEdge pi v1 v2 v3 tris * 9 + 8 < pos.length) ∧
      (∀ (v1 v2 v3 : Vector3 K) (s : Traversal),
        (visitEdge pi (buildEdgeMap pos (pos.length / 9)) v1 v2 v3 s).visited.length =
          s.visited.length) ∧
      (∀ (fuel : Nat) (s : Traversal),
        (whileLoop pi pos (buildEdgeMap pos (pos.length / 9)) fuel s).visited.length =
          s.visited.length) := by
  refine ⟨?_, ?_, fun v1 v2 v3 s => length_visited_visitEdge pi _ v1 v2 v3 s,
    length_visited_whileLoop pi pos _⟩
  · have := (EdgeMap.insertAll_inv (edgeRecords pos (pos.length / 9))).1
    rw [← buildEdgeMap_eq] at this
    exact this
  · intro q tris hf
    obtain ⟨hne, hall⟩ := find_buildEdgeMap_some hf
    refine ⟨hne, fun v1 v2 v3 => ?_⟩
    obtain ⟨c, hc, hu⟩ := findNext_mem pi v1 v2 v3 tris hne
    have hlt : findNextTriangleWithSharedEdge pi v1 v2 v3 tris < pos.length / 9 := by
      rw [hu]; exact (hall c hc).1
    exact ⟨hlt, by omega⟩

/-- The bounds at the tetrahedron. -/
theorem visitEdge_lookup_in_bounds_witness :
    tetrahedron.length % 9 = 0 ∧
      (∀ kb ∈ buildEdgeMap tetrahedron (tetrahedron.length / 9), kb.2 ≠ []) ∧
      (∀ (q : Edge ℚ) (tris : List (Triangle ℚ)),
        (buildEdgeMap tetrahedron (tetrahedron.length / 9)).find q = some tris →
          tris ≠ [] ∧ ∀ v1 v2 v3 : Vector3 ℚ,
            findNextTriangleWithSharedEdge M_PI_double v1 v2 v3 tris < tetrahedron.length / 9 ∧
            findNextTriangleWithSharedEdge M_PI_double v1 v2 v3 tris * 9 + 8 <
              tetrahedron.length) ∧
      (∀ (v1 v2 v3 : Vector3 ℚ) (s : Traversal),
        (visitEdge M_PI_double (buildEdgeMap tetrahedron (tetrahedron.length / 9))
          v1 v2 v3 s).visited.length = s.visited.length) ∧
      (∀ (fuel : Nat) (s : Traversal),
        (whileLoop M_PI_double tetrahedron (buildEdgeMap tetrahedron (tetrahedron.length / 9))
          fuel s).visited.length = s.visited.length) :=
  ⟨by decide, visitEdge_lookup_in_bounds M_PI_double tetrahedron (by decide)⟩

end Bounds

/-! ## The fast path of the resolver -/

section FastPath

variable {K : Type} [LinearOrderedField K]

/-- C19 (fast path agrees with the general loop): on a candidate list of exactly one
element the scanning loop selects that element, in the form of the primary version
(`resolverLoop`) and in the form of `findNextTriangle` of `wasm/src/split-geometry.cpp`
whatever `std::sqrt` returns, so the shortcut of `findNextTriangleWithSharedEdge` returns
what the loop would; the angle compared against the initial best `-INFINITY` is finite
(neither NaN nor an infinity) and strictly greater than it. -/
theorem findNextTriangle_singleton (pi : K) (sqrt : Fl K → Fl K) (v1 v2 v3 : Vector3 K)
    (t : Triangle K) :
    resolverLoop pi v1 v2 v3 [t] = t.triIdx ∧
      findNextTriangleWithSharedEdge pi v1 v2 v3 [t] = resolverLoop pi v1 v2 v3 [t] ∧
      findNextTriangle pi sqrt v1 v2 v3 [t] = (t.triIdx : Int) ∧
      (candidateAngle pi ((v2.sub v1).cross (v3.sub v1)) (v2.sub v1) t.triNormal).isFin = true ∧
      (inf true).lt
        (candidateAngle pi ((v2.sub v1).cross (v3.sub v1)) (v2.sub v1) t.triNormal) = true := by
  have hfin := candidateAngle_isFin pi ((v2.sub v1).cross (v3.sub v1)) (v2.sub v1) t.triNormal
  have hlt := Fl.ninf_lt_of_isFin hfin
  have h1 : resolverLoop pi v1 v2 v3 [t] = t.triIdx := by
    simp only [resolverLoop, List.foldl_cons, List.foldl_nil, resolverStep, hlt, if_true]
  refine ⟨h1, by rw [h1]; rfl, ?_, hfin, hlt⟩
  simp only [findNextTriangle, List.foldl_cons, List.foldl_nil]
  have : (inf true).lt
      (if ((fin pi).sub ((fin (1 / 1000)).mul ((v2.sub v1).length sqrt))).lt
          (notAtan2 pi ((((v2.sub v1).cross (v3.sub v1)).cross t.triNormal).dot (v2.sub v1))
            (((v2.sub v1).cross (v3.sub v1)).dot t.triNormal))
        then (fin pi).neg
        else notAtan2 pi ((((v2.sub v1).cross (v3.sub v1)).cross t.triNormal).dot (v2.sub v1))
            (((v2.sub v1).cross (v3.sub v1)).dot t.triNormal)) = true := by
    apply Fl.ninf_lt_of_isFin
    split_ifs
    · simp
    · exact notAtan2_isFin _ _ _
  rw [if_pos this]

end FastPath

/-! ## Characterisation of the components in the general case -/

theorem PartsOK.at_split {nb : Nat → List Nat} {n : Nat} {sp : Nat × List Nat}
    {B : List (Nat × List Nat)} :
    ∀ (A : List (Nat × List Nat)) (done : List Nat), PartsOK nb n done (A ++ sp :: B) →
      PartOK nb n (done ++ (A.map Prod.snd).flatten) sp.1 sp.2 := by
  intro A
  induction A with
  | nil => intro done h; simpa using h.1
  | cons a A ih =>
    intro done h
    have := ih (done ++ a.2) h.2
    simpa using this

section Characterisation

variable {K : Type} [LinearOrderedField K]

/-- The triangles `visitEdge` looks at from triangle `t`: for one of the three rotations of
its vertices the reverse key is in the index and the resolver picks `u` from its bucket. -/
theorem mem_neighbours_iff (pi : K) (pos : List (Fl K)) (edgeMap : EdgeMap K) (t u : Nat) :
    u ∈ neighbours pi pos edgeMap t ↔
      ∃ r ∈ [(vertexAt pos (t * 9), vertexAt pos (t * 9 + 3), vertexAt pos (t * 9 + 6)),
             (vertexAt pos (t * 9 + 3), vertexAt pos (t * 9 + 6), vertexAt pos (t * 9)),
             (vertexAt pos (t * 9 + 6), vertexAt pos (t * 9), vertexAt pos (t * 9 + 3))],
        ∃ tris, edgeMap.find ⟨r.2.1, r.1⟩ = some tris ∧
          findNextTriangleWithSharedEdge pi r.1 r.2.1 r.2.2 tris = u := by
  simp only [neighbours, chosen, List.mem_append, Option.mem_toList, Option.mem_def,
    Option.map_eq_some', List.mem_cons, List.mem_singleton, List.not_mem_nil, or_false,
    exists_eq_or_imp, exists_eq_left, or_assoc]

/-- C15 (component characterisation, general case): in the run on a valid input, for every
part `sp` of the result, `A` being the parts emitted before it and `B` those emitted after:
the part starts with its seed; every later triangle of the part is a triangle that
`visitEdge` looks at (the resolver's choice for an edge whose reverse key is in the index)
from a triangle that comes earlier in the part; and whatever `visitEdge` looks at from a
triangle of the part lies in the part or in a part of `A`, and in no part of `B`. -/
theorem splitDisjointGeometry_component_characterisation (pi : K) (pos : List (Fl K))
    (h9 : pos.length % 9 = 0) (h0 : pos.length ≠ 0)
    (A : List (Nat × List Nat)) (sp : Nat × List Nat) (B : List (Nat × List Nat))
    (hsplit : splitSeededParts pi pos = A ++ sp :: B) :
    sp.2.head? = some sp.1 ∧
      (∀ p u q, sp.2 = p ++ u :: q → p ≠ [] →
        ∃ t ∈ p, u ∈ neighbours pi pos (buildEdgeMap pos (pos.length / 9)) t) ∧
      (∀ t ∈ sp.2, ∀ u ∈ neighbours pi pos (buildEdgeMap pos (pos.length / 9)) t,
        (u ∈ sp.2 ∨ ∃ a ∈ A, u ∈ a.2) ∧ ∀ b ∈ B, u ∉ b.2) ∧
      (∀ t u, u ∈ neighbours pi pos (buildEdgeMap pos (pos.length / 9)) t ↔
        ∃ r ∈ [(vertexAt pos (t * 9), vertexAt pos (t * 9 + 3), vertexAt pos (t * 9 + 6)),
               (vertexAt pos (t * 9 + 3), vertexAt pos (t * 9 + 6), vertexAt pos (t * 9)),
               (vertexAt pos (t * 9 + 6), vertexAt pos (t * 9), vertexAt pos (t * 9 + 3))],
          ∃ tris, (buildEdgeMap pos (pos.length / 9)).find ⟨r.2.1, r.1⟩ = some tris ∧
            findNextTriangleWithSharedEdge pi r.1 r.2.1 r.2.2 tris = u) := by
  obtain ⟨visited, h⟩ := splitSeededParts_inv pi pos h9 h0
  have hparts := h.parts
  have hnd := h.nodup
  simp only [hsplit] at hparts hnd
  have hok := PartsOK.at_split A [] hparts
  simp only [List.nil_append] at hok
  have hin : ∀ t ∈ sp.2, ∀ u ∈ neighbours pi pos (buildEdgeMap pos (pos.length / 9)) t,
      u ∈ sp.2 ∨ ∃ a ∈ A, u ∈ a.2 := by
    intro t ht u hu
    rcases List.mem_append.1 (hok.closed t ht u hu) with hd | hP
    · simp only [List.mem_flatten, List.mem_map] at hd
      obtain ⟨P, ⟨a, ha, rfl⟩, huP⟩ := hd
      exact Or.inr ⟨a, ha, huP⟩
    · exact Or.inl hP
  refine ⟨?_, ?_, ?_, fun t u => mem_neighbours_iff pi pos _ t u⟩
  · obtain ⟨tl, htl⟩ := hok.hd
    rw [htl]; rfl
  · intro p u q hP hp
    rcases hok.reach p u q hP with rfl | hr
    · exact absurd rfl hp
    · exact hr
  · intro t ht u hu
    refine ⟨hin t ht u hu, ?_⟩
    intro b hb hub
    simp only [List.map_append, List.map_cons, List.flatten_append, List.flatten_cons] at hnd
    have hB : u ∈ (B.map Prod.snd).flatten := by
      simp only [List.mem_flatten, List.mem_map]
      exact ⟨b.2, ⟨b, hb, rfl⟩, hub⟩
    rcases hin t ht u hu with hP | ⟨a, ha, hua⟩
    · have := (List.nodup_append.1 (List.nodup_append.1 hnd).2.1).2.2 hP
      exact this hB
    · have hA : u ∈ (A.map Prod.snd).flatten := by
        simp only [List.mem_flatten, List.mem_map]
        exact ⟨a.2, ⟨a, ha, rfl⟩, hua⟩
      have := (List.nodup_append.1 hnd).2.2 hA
      exact this (List.mem_append_right _ hB)

/-- The characterisation at the second cube of `twoCubes`, whose run records the parts seeded
at `0` and at `12`. -/
theorem splitDisjointGeometry_component_characterisation_witness :
    twoCubes.length % 9 = 0 ∧ twoCubes.length ≠ 0 ∧
      splitSeededParts M_PI_double twoCubes =
        [(0, [0, 1, 4, 5, 8, 3, 6, 2, 11, 10, 7, 9])] ++
          (12, [12, 13, 16, 17, 20, 15, 18, 14, 23, 22, 19, 21]) :: [] ∧
      (∀ p u q, [12, 13, 16, 17, 20, 15, 18, 14, 23, 22, 19, 21] = p ++ u :: q → p ≠ [] →
        ∃ t ∈ p, u ∈ neighbours M_PI_double twoCubes
          (buildEdgeMap twoCubes (twoCubes.length / 9)) t) ∧
      (∀ t ∈ [12, 13, 16, 17, 20, 15, 18, 14, 23, 22, 19, 21],
        ∀ u ∈ neighbours M_PI_double twoCubes (buildEdgeMap twoCubes (twoCubes.length / 9)) t,
          (u ∈ [12, 13, 16, 17, 20, 15, 18, 14, 23, 22, 19, 21] ∨
            ∃ a ∈ [(0, [0, 1, 4, 5, 8, 3, 6, 2, 11, 10, 7, 9])], u ∈ a.2) ∧
          ∀ b ∈ ([] : List (Nat × List Nat)), u ∉ b.2) :=
  ⟨by decide!, by decide!, by decide!,
    (splitDisjointGeometry_component_characterisation M_PI_double twoCubes (by decide!)
      (by decide!) [(0, [0, 1, 4, 5, 8, 3, 6, 2, 11, 10, 7, 9])]
      (12, [12, 13, 16, 17, 20, 15, 18, 14, 23, 22, 19, 21]) [] (by decide!)).2.1,
    (splitDisjointGeometry_component_characterisation M_PI_double twoCubes (by decide!)
      (by decide!) [(0, [0, 1, 4, 5, 8, 3, 6, 2, 11, 10, 7, 9])]
      (12, [12, 13, 16, 17, 20, 15, 18, 14, 23, 22, 19, 21]) [] (by decide!)).2.2.1⟩

end Characterisation

/-! ## Termination and the visited flags -/

theorem getD_set_of_getD (v : List Bool) (u i : Nat) (h : v.getD i false = true) :
    (v.set u true).getD i false = true := by
  have hi := lt_length_of_getD h
  by_cases hu : u < v.length
  · exact (getD_set_true v u i hu).2 (Or.inr h)
  · rw [List.set_eq_of_length_le (by omega)]
    exact h

section Termination

variable {K : Type} [LinearOrderedField K]

/-- A call of `visitEdge` either leaves the state alone or flags one triangle whose flag was
clear and pushes it. -/
theorem visitEdge_cases (pi : K) (edgeMap : EdgeMap K) (v1 v2 v3 : Vector3 K) (s : Traversal) :
    visitEdge pi edgeMap v1 v2 v3 s = s ∨
      ∃ u, s.visited.getD u false = false ∧
        visitEdge pi edgeMap v1 v2 v3 s = ⟨s.visited.set u true, u :: s.stack, s.part⟩ := by
  rw [visitEdge_eq]
  cases chosen pi edgeMap v1 v2 v3 with
  | none => exact Or.inl rfl
  | some u =>
    simp only [Option.toList, List.foldl_cons, List.foldl_nil]
    by_cases hv : s.visited.getD u false = true
    · exact Or.inl (pushNew_of_visited hv)
    · have hv' : s.visited.getD u false = false := by simpa using hv
      exact Or.inr ⟨u, hv', pushNew_of_not_visited hv'⟩

theorem visitEdge_mono (pi : K) (edgeMap : EdgeMap K) (v1 v2 v3 : Vector3 K) (s : Traversal)
    (i : Nat) (h : s.visited.getD i false = true) :
    (visitEdge pi edgeMap v1 v2 v3 s).visited.getD i false = true := by
  rcases visitEdge_cases pi edgeMap v1 v2 v3 s with h1 | ⟨u, _, h1⟩
  · rw [h1]; exact h
  · rw [h1]; exact getD_set_of_getD _ _ _ h

theorem whileLoop_mono (pi : K) (pos : List (Fl K)) (edgeMap : EdgeMap K) (i : Nat) :
    ∀ (fuel : Nat) (s : Traversal), s.visited.getD i false = true →
      (whileLoop pi pos edgeMap fuel s).visited.getD i false = true := by
  intro fuel
  induction fuel with
  | zero => intro s h; exact h
  | succ fuel ih =>
    intro s h
    unfold whileLoop
    split
    · exact h
    · apply ih
      simp only [popAndVisit]
      exact visitEdge_mono _ _ _ _ _ _ _ (visitEdge_mono _ _ _ _ _ _ _
        (visitEdge_mono _ _ _ _ _ _ _ h))

/-- C16 (termination and visit-once): in the run on a valid input with
`triCount = len(pos) / 9`, the `while` loop of every part `sp` ends with an empty stack
within `triCount` iterations from the flags left by the parts `A` emitted before (more
iterations change nothing), having popped exactly the triangles of the part; the parts hold
no triangle twice and `triCount` triangles in all, which is the total number of pops; a call
of `visitEdge` either leaves the state alone or sets the flag of one triangle whose flag was
clear and pushes that triangle; and a flag that is set stays set through `visitEdge` and
through the `while` loop. -/
theorem splitDisjointGeometry_terminates (pi : K) (pos : List (Fl K))
    (h9 : pos.length % 9 = 0) (h0 : pos.length ≠ 0) :
    (∀ A sp B, splitSeededParts pi pos = A ++ sp :: B →
      ∃ visited : List Bool, visited.length = pos.length / 9 ∧
        (∀ j, visited.getD j false = true ↔ ∃ a ∈ A, j ∈ a.2) ∧
        (traverseFrom pi pos (buildEdgeMap pos (pos.length / 9)) (pos.length / 9)
          visited sp.1).stack = [] ∧
        (traverseFrom pi pos (buildEdgeMap pos (pos.length / 9)) (pos.length / 9)
          visited sp.1).part = sp.2 ∧
        ∀ g, whileLoop pi pos (buildEdgeMap pos (pos.length / 9)) (pos.length / 9 + g)
            ⟨visited.set sp.1 true, [sp.1], []⟩ =
          traverseFrom pi pos (buildEdgeMap pos (pos.length / 9)) (pos.length / 9)
            visited sp.1) ∧
      (splitParts pi pos).flatten.Nodup ∧
      ((splitParts pi pos).map List.length).sum = pos.length / 9 ∧
      (∀ (edgeMap : EdgeMap K) (v1 v2 v3 : Vector3 K) (s : Traversal),
        visitEdge pi edgeMap v1 v2 v3 s = s ∨
          ∃ u, s.visited.getD u false = false ∧
            visitEdge pi edgeMap v1 v2 v3 s = ⟨s.visited.set u true, u :: s.stack, s.part⟩) ∧
      (∀ (edgeMap : EdgeMap K) (v1 v2 v3 : Vector3 K) (s : Traversal) (i : Nat),
        s.visited.getD i false = true →
          (visitEdge pi edgeMap v1 v2 v3 s).visited.getD i false = true) ∧
      (∀ (edgeMap : EdgeMap K) (fuel : Nat) (s : Traversal) (i : Nat),
        s.visited.getD i false = true →
          (whileLoop pi pos edgeMap fuel s).visited.getD i false = true) := by
  obtain ⟨visited, h⟩ := splitSeededParts_inv pi pos h9 h0
  refine ⟨?_, h.nodup, ?_, fun em v1 v2 v3 s => visitEdge_cases pi em v1 v2 v3 s,
    fun em v1 v2 v3 s i hi => visitEdge_mono pi em v1 v2 v3 s i hi,
    fun em fuel s i hi => whileLoop_mono pi pos em i fuel s hi⟩
  · intro A sp B hsplit
    have hparts := h.parts
    simp only [hsplit] at hparts
    have hok := PartsOK.at_split A [] hparts
    simp only [List.nil_append] at hok
    obtain ⟨vis, hlen, hvis, hseed, hP, hstack⟩ := hok.run
    refine ⟨vis, hlen, ?_, ?_, ?_, ?_⟩
    · intro j
      rw [hvis j]
      simp only [List.mem_flatten, List.mem_map]
      constructor
      · rintro ⟨P, ⟨a, ha, rfl⟩, hj⟩
        exact ⟨a, ha, hj⟩
      · rintro ⟨a, ha, hj⟩
        exact ⟨a.2, ⟨a, ha, rfl⟩, hj⟩
    · simp only [traverseFrom, whileLoop_eq_dfs]
      exact hstack
    · simp only [traverseFrom, whileLoop_eq_dfs]
      exact hP.symm
    · intro g
      simp only [traverseFrom, whileLoop_eq_dfs]
      exact dfs_fuel_add _ g _ _ hstack
  · have := (splitParts_perm pi pos h9 h0).length_eq
    rw [List.length_flatten, List.length_range] at this
    exact this

/-- The counts at `twoCubes`: no triangle is popped twice and 24 triangles are popped in all. -/
theorem splitDisjointGeometry_terminates_witness :
    twoCubes.length % 9 = 0 ∧ twoCubes.length ≠ 0 ∧
      (splitParts M_PI_double twoCubes).flatten.Nodup ∧
      ((splitParts M_PI_double twoCubes).map List.length).sum = twoCubes.length / 9 :=
  ⟨by decide!, by decide!,
    (splitDisjointGeometry_terminates M_PI_double twoCubes (by decide!) (by decide!)).2.1,
    (splitDisjointGeometry_terminates M_PI_double twoCubes (by decide!) (by decide!)).2.2.1⟩

end Termination

/-! ## The result of a valid input is not empty -/

theorem length_le_length_flatten {α : Type} :
    ∀ L : List (List α), (∀ P ∈ L, P ≠ []) → L.length ≤ L.flatten.length := by
  intro L
  induction L with
  | nil => intro _; simp
  | cons P L ih =>
    intro h
    have h1 : P ≠ [] := h P (by simp)
    have h2 := ih (fun Q hQ => h Q (by simp [hQ]))
    have h3 : 0 < P.length := List.length_pos.2 h1
    simp only [List.flatten_cons, List.length_append, List.length_cons]
    omega

section NonEmpty

variable {K : Type} [LinearOrderedField K]

/-- C18 (non-empty result on valid input): when `len(pos)` is a non-zero multiple of 9 the
result has at least one and at most `len(pos) / 9` components, every component is non-empty
with a length that is a multiple of 9, and the lengths of the components sum to `len(pos)`;
and for every input the result is empty exactly when `len(pos) % 9 != 0` or
`len(pos) = 0`. -/
theorem splitDisjointGeometry_nonempty (pi : K) (pos : List (Fl K)) :
    (pos.length % 9 = 0 → pos.length ≠ 0 →
        1 ≤ (splitDisjointGeometry pi pos).length ∧
        (splitDisjointGeometry pi pos).length ≤ pos.length / 9 ∧
        (∀ c ∈ splitDisjointGeometry pi pos, c ≠ [] ∧ c.length % 9 = 0) ∧
        ((splitDisjointGeometry pi pos).map List.length).sum = pos.length) ∧
      (splitDisjointGeometry pi pos = [] ↔ (pos.length % 9 ≠ 0 ∨ pos.length = 0)) := by
  have main : pos.length % 9 = 0 → pos.length ≠ 0 →
        1 ≤ (splitDisjointGeometry pi pos).length ∧
        (splitDisjointGeometry pi pos).length ≤ pos.length / 9 ∧
        (∀ c ∈ splitDisjointGeometry pi pos, c ≠ [] ∧ c.length % 9 = 0) ∧
        ((splitDisjointGeometry pi pos).map List.length).sum = pos.length := by
    intro h9 h0
    obtain ⟨visited, h⟩ := splitSeededParts_inv pi pos h9 h0
    have hlen : pos.length = pos.length / 9 * 9 := by omega
    have hne : ∀ P ∈ splitParts pi pos, P ≠ [] := by
      intro P hP
      simp only [splitParts, List.mem_map] at hP
      obtain ⟨sp, hsp, rfl⟩ := hP
      obtain ⟨tl, htl⟩ := PartsOK.hd_of_mem _ _ h.parts sp hsp
      rw [htl]; simp
    have hlt : ∀ P ∈ splitParts pi pos, ∀ t ∈ P, t < pos.length / 9 := by
      intro P hP t ht
      simp only [splitParts, List.mem_map] at hP
      obtain ⟨sp, hsp, rfl⟩ := hP
      exact h.lt_of_mem_part sp hsp t ht
    have hperm := splitParts_perm pi pos h9 h0
    have hcount : (splitParts pi pos).length ≤ pos.length / 9 := by
      have := length_le_length_flatten _ hne
      rw [hperm.length_eq, List.length_range] at this
      exact this
    obtain ⟨tl, rest, hhead⟩ := splitSeededParts_head pi pos h9 h0
    rw [splitDisjointGeometry_eq_map]
    refine ⟨?_, by simpa using hcount, ?_, ?_⟩
    · simp [splitParts, hhead]
    · intro c hc
      simp only [List.mem_map] at hc
      obtain ⟨P, hP, rfl⟩ := hc
      have hl := length_partPos pos _ hlen P (hlt P hP)
      have hpl : 0 < P.length := List.length_pos.2 (hne P hP)
      constructor
      · intro hnil
        rw [hnil] at hl
        simp only [List.length_nil] at hl
        omega
      · omega
    · rw [← List.length_flatten, partPos_flatten,
        length_partPos pos _ hlen _ (fun t ht => by
          have := (mem_splitParts_flatten pi pos h9 h0 t).1 ht
          exact this),
        hperm.length_eq, List.length_range]
      omega
  refine ⟨main, ?_⟩
  constructor
  · intro hnil
    by_contra hcon
    have h9 : pos.length % 9 = 0 := by omega
    have h0 : pos.length ≠ 0 := by omega
    have := (main h9 h0).1
    rw [hnil] at this
    simp at this
  · intro h
    unfold splitDisjointGeometry
    rcases h with h | h
    · simp [h]
    · simp [h]

/-- The counts at `twoCubes`: two components of 108 floats each. -/
theorem splitDisjointGeometry_nonempty_witness :
    twoCubes.length % 9 = 0 ∧ twoCubes.length ≠ 0 ∧
      1 ≤ (splitDisjointGeometry M_PI_double twoCubes).length ∧
      (splitDisjointGeometry M_PI_double twoCubes).length ≤ twoCubes.length / 9 ∧
      (∀ c ∈ splitDisjointGeometry M_PI_double twoCubes, c ≠ [] ∧ c.length % 9 = 0) ∧
      ((splitDisjointGeometry M_PI_double twoCubes).map List.length).sum = twoCubes.length :=
  ⟨by decide!, by decide!,
    (splitDisjointGeometry_nonempty M_PI_double twoCubes).1 (by decide!) (by decide!)⟩

end NonEmpty

/-! ## The normal does not depend on the rotation of the vertices -/

theorem Vector3.toRing_normal {K : Type} [LinearOrderedField K] {v1 v2 v3 : Vector3 K}
    (h1 : v1.isFin = true) (h2 : v2.isFin = true) (h3 : v3.isFin = true) :
    ((v2.sub v1).cross (v3.sub v1)).toRing =
      (v2.toRing.sub v1.toRing).cross (v3.toRing.sub v1.toRing) := by
  have ha := Vector3.isFin_vsub h2 h1
  have hb := Vector3.isFin_vsub h3 h1
  obtain ⟨c1, c2, c3⟩ := Vector3.toK_cross ha hb
  obtain ⟨a1, a2, a3⟩ := Vector3.toK_vsub h2 h1
  obtain ⟨b1, b2, b3⟩ := Vector3.toK_vsub h3 h1
  simp only [Vector3.toRing, RingVector3.sub, RingVector3.cross, c1, c2, c3, a1, a2,
    a3, b1, b2, b3]

/-- C20 (the normal is invariant under cyclic rotation of the vertices, exact arithmetic):
over a commutative ring, `(v2-v1) x (v3-v1) = (v3-v2) x (v1-v2) = (v1-v3) x (v2-v3)` for the
subtraction and cross product of `vector3.h`; hence for float vectors with finite
coordinates the normal computed from the rotated vertices `(v2, v3, v1)` and `(v3, v1, v2)`
(the `curTriNormal` of the rotated `visitEdge` calls, the per-edge normals of
`addToEdgeMap`) is finite and has the same field values as the normal computed once from
`(v1, v2, v3)`. -/
theorem normal_cyclic :
    (∀ (R : Type) [CommRing R] (v1 v2 v3 : RingVector3 R),
        (v2.sub v1).cross (v3.sub v1) = (v3.sub v2).cross (v1.sub v2) ∧
        (v3.sub v2).cross (v1.sub v2) = (v1.sub v3).cross (v2.sub v3)) ∧
      (∀ (K : Type) [LinearOrderedField K] (v1 v2 v3 : Vector3 K),
        v1.isFin = true → v2.isFin = true → v3.isFin = true →
          ((v2.sub v1).cross (v3.sub v1)).isFin = true ∧
          ((v3.sub v2).cross (v1.sub v2)).isFin = true ∧
          ((v1.sub v3).cross (v2.sub v3)).isFin = true ∧
          ((v3.sub v2).cross (v1.sub v2)).toRing = ((v2.sub v1).cross (v3.sub v1)).toRing ∧
          ((v1.sub v3).cross (v2.sub v3)).toRing = ((v2.sub v1).cross (v3.sub v1)).toRing) := by
  have ring_part : ∀ (R : Type) [CommRing R] (v1 v2 v3 : RingVector3 R),
        (v2.sub v1).cross (v3.sub v1) = (v3.sub v2).cross (v1.sub v2) ∧
        (v3.sub v2).cross (v1.sub v2) = (v1.sub v3).cross (v2.sub v3) := by
    intro R _ v1 v2 v3
    simp only [RingVector3.sub, RingVector3.cross, RingVector3.mk.injEq]
    refine ⟨⟨?_, ?_, ?_⟩, ?_, ?_, ?_⟩ <;> ring
  refine ⟨ring_part, ?_⟩
  intro K _ v1 v2 v3 h1 h2 h3
  refine ⟨Vector3.isFin_cross (Vector3.isFin_vsub h2 h1) (Vector3.isFin_vsub h3 h1),
    Vector3.isFin_cross (Vector3.isFin_vsub h3 h2) (Vector3.isFin_vsub h1 h2),
    Vector3.isFin_cross (Vector3.isFin_vsub h1 h3) (Vector3.isFin_vsub h2 h3), ?_, ?_⟩
  · rw [Vector3.toRing_normal h2 h3 h1, Vector3.toRing_normal h1 h2 h3]
    exact (ring_part K v1.toRing v2.toRing v3.toRing).1.symm
  · rw [Vector3.toRing_normal h3 h1 h2, Vector3.toRing_normal h1 h2 h3]
    have := ring_part K v1.toRing v2.toRing v3.toRing
    exact (this.1.trans this.2).symm

/-- The rotation invariance at the first face of the tetrahedron. -/
theorem normal_cyclic_witness :
    (((vec 0 1 0).sub (vec 1 0 0)).cross ((vec 0 0 0).sub (vec 1 0 0))).toRing =
        (((vec 1 0 0).sub (vec 0 0 0)).cross ((vec 0 1 0).sub (vec 0 0 0))).toRing ∧
      (((vec 0 0 0).sub (vec 0 1 0)).cross ((vec 1 0 0).sub (vec 0 1 0))).toRing =
        (((vec 1 0 0).sub (vec 0 0 0)).cross ((vec 0 1 0).sub (vec 0 0 0))).toRing :=
  ⟨(normal_cyclic.2 ℚ (vec 0 0 0) (vec 1 0 0) (vec 0 1 0) rfl rfl rfl).2.2.2.1,
    (normal_cyclic.2 ℚ (vec 0 0 0) (vec 1 0 0) (vec 0 1 0) rfl rfl rfl).2.2.2.2⟩

/-! ## Connected manifold inputs give one component -/

theorem length_filter_le_one {α : Type} (R : α → α → Prop) (p : α → Bool) :
    ∀ l : List α, l.Pairwise R → (∀ x y, p x = true → p y = true → ¬ R x y) →
      (l.filter p).length ≤ 1 := by
  intro l
  induction l with
  | nil => intro _ _; simp
  | cons x l ih =>
    intro hl hp
    rw [List.pairwise_cons] at hl
    by_cases hx : p x = true
    · have hnil : l.filter p = [] := by
        rw [List.filter_eq_nil_iff]
        intro y hy hpy
        exact hp x y hx hpy (hl.1 y hy)
      rw [List.filter_cons_of_pos hx, hnil]
      simp
    · rw [List.filter_cons_of_neg hx]
      exact ih hl.2 hp

section Connected

variable {K : Type} [LinearOrderedField K]

/-- An input in which no key equals the key of more than one inserted record is manifold. -/
theorem manifold_of_filter {pos : List (Fl K)}
    (h : ∀ q : Edge K,
      ((edgeRecords pos (pos.length / 9)).filter (fun p => p.1.beq q)).length ≤ 1) :
    Manifold pos := by
  obtain ⟨h1, h2, h3, h4, h5⟩ := EdgeMap.insertAll_inv (edgeRecords pos (pos.length / 9))
  rw [← buildEdgeMap_eq] at h1 h2 h3 h4 h5
  intro kb hkb
  by_cases hr : kb.1.beq kb.1 = true
  · have hf := EdgeMap.find_of_mem _ h4 kb hkb hr
    rw [find_buildEdgeMap] at hf
    split_ifs at hf
    simp only [Option.some.injEq] at hf
    rw [← hf, List.length_map]
    exact h kb.1
  · rw [h5 kb hkb hr]

/-- An input whose inserted keys are pairwise unequal is manifold. -/
theorem manifold_of_pairwise {pos : List (Fl K)}
    (h : ((edgeRecords pos (pos.length / 9)).map Prod.fst).Pairwise
      (fun e f => e.beq f = false)) : Manifold pos := by
  apply manifold_of_filter
  intro q
  have := length_filter_le_one (fun e f : Edge K => e.beq f = false) (fun e => e.beq q)
    _ h (fun x y hx hy hxy => by
      have hy' : q.beq y = true := by rw [Edge.ebeq_symm]; exact hy
      have hxy' : x.beq y = false := hxy
      rw [Edge.ebeq_trans hx hy'] at hxy'
      simp at hxy')
  rw [List.filter_map, List.length_map] at this
  exact this

/-- On a manifold input in which a chain of edge-sharing triangles joins triangle 0 to every
triangle, the run records one part, seeded at 0, that holds every triangle once. -/
theorem splitSeededParts_of_connected (pi : K) (pos : List (Fl K)) (h9 : pos.length % 9 = 0)
    (h0 : pos.length ≠ 0) (hman : Manifold pos)
    (hconn : ∀ j < pos.length / 9, Relation.ReflTransGen
      (fun a b => a < pos.length / 9 ∧ b < pos.length / 9 ∧ sharesEdge pos a b = true) 0 j) :
    ∃ tl, splitSeededParts pi pos = [(0, 0 :: tl)] ∧
      (0 :: tl).Perm (List.range (pos.length / 9)) := by
  obtain ⟨visited, h⟩ := splitSeededParts_inv pi pos h9 h0
  have hsym : ∀ t u, t < pos.length / 9 →
      u ∈ neighbours pi pos (buildEdgeMap pos (pos.length / 9)) t →
      t ∈ neighbours pi pos (buildEdgeMap pos (pos.length / 9)) u := by
    intro t u ht hu
    exact mem_neighbours_of_manifold hman ht (sharesEdge_symm pos t u
      (sharesEdge_of_mem_neighbours hu))
  obtain ⟨tl, rest, hhead⟩ := splitSeededParts_head pi pos h9 h0
  have hnd := h.nodup
  simp only [hhead, List.map_cons, List.flatten_cons] at hnd
  have hall : ∀ j < pos.length / 9, j ∈ 0 :: tl := by
    intro j hj
    have hchain : Relation.ReflTransGen
        (fun a b => a < pos.length / 9 ∧
          b ∈ neighbours pi pos (buildEdgeMap pos (pos.length / 9)) a) 0 j :=
      (hconn j hj).mono (fun a b hab => ⟨hab.1, mem_neighbours_of_manifold hman hab.2.1 hab.2.2⟩)
    obtain ⟨sp, hsp, h0sp, hjsp⟩ := (h.same_part_iff hsym (j := j) (by omega)).2 hchain
    simp only [hhead, List.mem_cons] at hsp
    rcases hsp with rfl | hsp
    · exact hjsp
    · exfalso
      have h0rest : 0 ∈ (rest.map Prod.snd).flatten := by
        simp only [List.mem_flatten, List.mem_map]
        exact ⟨sp.2, ⟨sp, hsp, rfl⟩, h0sp⟩
      exact (List.nodup_append.1 hnd).2.2 (by simp) h0rest
  have hrest : rest = [] := by
    cases hr : rest with
    | nil => rfl
    | cons sp rest' =>
      exfalso
      have hsp : sp ∈ splitSeededParts pi pos := by simp [hhead, hr]
      obtain ⟨tl', htl'⟩ := PartsOK.hd_of_mem _ _ h.parts sp hsp
      have hx : sp.1 ∈ sp.2 := by rw [htl']; simp
      have hlt := h.lt_of_mem_part sp hsp sp.1 hx
      have hrm : sp.1 ∈ (rest.map Prod.snd).flatten := by
        simp only [List.mem_flatten, List.mem_map]
        exact ⟨sp.2, ⟨sp, by simp [hr], rfl⟩, hx⟩
      exact (List.nodup_append.1 hnd).2.2 (hall sp.1 hlt) hrm
  refine ⟨tl, by rw [hhead, hrest], ?_⟩
  have hperm := splitParts_perm pi pos h9 h0
  simpa [splitParts, hhead, hrest] using hperm

end Connected

/-! ## The single tetrahedron -/

section Tetrahedron

variable {K : Type} [LinearOrderedField K]

theorem edges_meshOf_four (p q r s : Vector3 K × Vector3 K × Vector3 K) :
    edgesOf (meshOf [p, q, r, s]) 0 = faceEdges p ∧ edgesOf (meshOf [p, q, r, s]) 1 = faceEdges q ∧
      edgesOf (meshOf [p, q, r, s]) 2 = faceEdges r ∧
      edgesOf (meshOf [p, q, r, s]) 3 = faceEdges s :=
  ⟨rfl, rfl, rfl, rfl⟩

theorem keys_meshOf_four (p q r s : Vector3 K × Vector3 K × Vector3 K) :
    (edgeRecords (meshOf [p, q, r, s]) 4).map Prod.fst =
      [p, q, r, s].flatMap faceEdges :=
  rfl

/-- Two different faces of the tetrahedron have a directed edge of the one equal to the
reverse of a directed edge of the other. -/
theorem tetrahedronFaces_share (a b c d : Vector3 K) (haa : a.beq a = true)
    (hbb : b.beq b = true) (hcc : c.beq c = true) (hdd : d.beq d = true) :
    ∀ F ∈ tetrahedronFaces a b c d, ∀ G ∈ tetrahedronFaces a b c d, F ≠ G →
      ((faceEdges F).any fun e => (faceEdges G).any fun f => f.beq ⟨e.v2, e.v1⟩) = true := by
  intro F hF G hG hne
  simp only [tetrahedronFaces, List.mem_cons, List.mem_singleton, List.not_mem_nil,
    or_false] at hF hG
  rcases hF with rfl | rfl | rfl | rfl <;> rcases hG with rfl | rfl | rfl | rfl <;>
    first
    | exact absurd rfl hne
    | simp [faceEdges, Edge.beq, haa, hbb, hcc, hdd]

/-- No two of the twelve directed edges of the tetrahedron are equal. -/
theorem tetrahedronFaces_keys (a b c d : Vector3 K) (haa : a.beq a = true)
    (hbb : b.beq b = true) (hcc : c.beq c = true) (hdd : d.beq d = true)
    (hab : a.beq b = false) (hac : a.beq c = false) (had : a.beq d = false)
    (hbc : b.beq c = false) (hbd : b.beq d = false) (hcd : c.beq d = false) :
    ((tetrahedronFaces a b c d).flatMap faceEdges).Pairwise (fun e f => e.beq f = false) := by
  have hba : b.beq a = false := by rw [Vector3.vbeq_symm]; exact hab
  have hca : c.beq a = false := by rw [Vector3.vbeq_symm]; exact hac
  have hda : d.beq a = false := by rw [Vector3.vbeq_symm]; exact had
  have hcb : c.beq b = false := by rw [Vector3.vbeq_symm]; exact hbc
  have hdb : d.beq b = false := by rw [Vector3.vbeq_symm]; exact hbd
  have hdc : d.beq c = false := by rw [Vector3.vbeq_symm]; exact hcd
  simp [tetrahedronFaces, faceEdges, Edge.beq, haa, hbb, hcc, hdd, hab, hac, had, hbc, hbd, hcd,
    hba, hca, hda, hcb, hdb, hdc]

theorem tetrahedronFaces_nodup (a b c d : Vector3 K) (haa : a.beq a = true)
    (hbb : b.beq b = true) (hcc : c.beq c = true)
    (hab : a.beq b = false) (hbc : b.beq c = false) (hbd : b.beq d = false)
    (hcd : c.beq d = false) : (tetrahedronFaces a b c d).Nodup := by
  have h1 : a ≠ b := fun e => by rw [e, hbb] at hab; simp at hab
  have h2 : b ≠ c := fun e => by rw [e, hcc] at hbc; simp at hbc
  have h3 : b ≠ d := fun e => by rw [← e, hbb] at hbd; simp at hbd
  have h4 : c ≠ d := fun e => by rw [← e, hcc] at hcd; simp at hcd
  simp [tetrahedronFaces, h1, h2, h3, h4, h1.symm, h2.symm, h3.symm, h4.symm]

/-- C13 (amended): for vertices `a`, `b`, `c`, `d` that are equal to themselves (no NaN
coordinate) and pairwise unequal under `Vector3::operator==`, the buffer of the
faces `(a,b,c)`, `(a,c,d)`, `(a,d,b)`, `(b,d,c)` listed in any order has 36 floats and
`splitDisjointGeometry` returns exactly one component for it, of 36 floats, which is the
serialisation of a part holding each of the four triangle indices once. -/
theorem splitDisjointGeometry_tetrahedron (pi : K) (a b c d : Vector3 K)
    (haa : a.beq a = true) (hbb : b.beq b = true) (hcc : c.beq c = true) (hdd : d.beq d = true)
    (hab : a.beq b = false) (hac : a.beq c = false) (had : a.beq d = false)
    (hbc : b.beq c = false) (hbd : b.beq d = false) (hcd : c.beq d = false)
    (faces : List (Vector3 K × Vector3 K × Vector3 K))
    (hperm : faces.Perm (tetrahedronFaces a b c d)) :
    (meshOf faces).length = 36 ∧
      ∃ P, splitParts pi (meshOf faces) = [P] ∧ P.Perm [0, 1, 2, 3] ∧
        splitDisjointGeometry pi (meshOf faces) = [partPos (meshOf faces) P] ∧
        (partPos (meshOf faces) P).length = 36 := by
  have hlen4 : faces.length = 4 := hperm.length_eq
  rcases faces with _ | ⟨p, _ | ⟨q, _ | ⟨r, _ | ⟨s, _ | ⟨t, l⟩⟩⟩⟩⟩ <;>
    simp only [List.length_cons, List.length_nil] at hlen4 <;> try omega
  have hlen : (meshOf [p, q, r, s]).length = 36 := rfl
  have hn : (meshOf [p, q, r, s]).length / 9 = 4 := by rw [hlen]
  have hnd : [p, q, r, s].Nodup :=
    hperm.nodup_iff.2 (tetrahedronFaces_nodup a b c d haa hbb hcc hab hbc hbd hcd)
  simp only [List.nodup_cons, List.mem_cons, List.mem_singleton, List.not_mem_nil, or_false,
    not_or, List.nodup_nil, and_true, not_false_eq_true] at hnd
  obtain ⟨⟨hpq, hpr, hps⟩, ⟨hqr, hqs⟩, hrs⟩ := hnd
  have hp : p ∈ tetrahedronFaces a b c d := hperm.subset (by simp)
  have hq : q ∈ tetrahedronFaces a b c d := hperm.subset (by simp)
  have hr : r ∈ tetrahedronFaces a b c d := hperm.subset (by simp)
  have hs : s ∈ tetrahedronFaces a b c d := hperm.subset (by simp)
  have hshare := tetrahedronFaces_share a b c d haa hbb hcc hdd
  have hman : Manifold (meshOf [p, q, r, s]) := by
    apply manifold_of_pairwise
    rw [hn, keys_meshOf_four]
    exact (hperm.flatMap_right faceEdges).pairwise_iff
      (fun {x y} (h : x.beq y = false) => by
        show y.beq x = false
        rw [Edge.ebeq_symm]; exact h)
      |>.2 (tetrahedronFaces_keys a b c d haa hbb hcc hdd hab hac had hbc hbd hcd)
  have h01 : sharesEdge (meshOf [p, q, r, s]) 0 1 = true := hshare p hp q hq hpq
  have h02 : sharesEdge (meshOf [p, q, r, s]) 0 2 = true := hshare p hp r hr hpr
  have h03 : sharesEdge (meshOf [p, q, r, s]) 0 3 = true := hshare p hp s hs hps
  have hconn : ∀ j < (meshOf [p, q, r, s]).length / 9, Relation.ReflTransGen
      (fun a b => a < (meshOf [p, q, r, s]).length / 9 ∧
        b < (meshOf [p, q, r, s]).length / 9 ∧
        sharesEdge (meshOf [p, q, r, s]) a b = true) 0 j := by
    intro j hj
    rw [hn] at hj
    have h4 : (0 : Nat) < (meshOf [p, q, r, s]).length / 9 := by rw [hn]; omega
    interval_cases j
    · exact Relation.ReflTransGen.refl
    · exact Relation.ReflTransGen.single ⟨h4, by rw [hn]; omega, h01⟩
    · exact Relation.ReflTransGen.single ⟨h4, by rw [hn]; omega, h02⟩
    · exact Relation.ReflTransGen.single ⟨h4, by rw [hn]; omega, h03⟩
  obtain ⟨tl, hparts, hpermP⟩ := splitSeededParts_of_connected pi (meshOf [p, q, r, s])
    (by rw [hlen]) (by rw [hlen]; omega) hman hconn
  refine ⟨hlen, 0 :: tl, ?_, ?_, ?_, ?_⟩
  · simp [splitParts, hparts]
  · rw [hn] at hpermP
    exact hpermP
  · rw [splitDisjointGeometry_eq_map]
    simp [splitParts, hparts]
  · rw [length_partPos (meshOf [p, q, r, s]) 4 hlen (0 :: tl)
      (fun t ht => by
        have := hpermP.subset ht
        rw [hn] at this
        exact List.mem_range.1 this)]
    have := hpermP.length_eq
    rw [hn, List.length_range] at this
    rw [this]

/-- The tetrahedron on `(0,0,0)`, `(1,0,0)`, `(0,1,0)`, `(0,0,1)` with its faces listed in
the reverse order. -/
theorem splitDisjointGeometry_tetrahedron_witness :
    ((tetrahedronFaces (vec 0 0 0) (vec 1 0 0) (vec 0 1 0) (vec 0 0 1)).reverse.Perm
        (tetrahedronFaces (vec 0 0 0) (vec 1 0 0) (vec 0 1 0) (vec 0 0 1))) ∧
      (meshOf (tetrahedronFaces (vec 0 0 0) (vec 1 0 0) (vec 0 1 0)
        (vec 0 0 1)).reverse).length = 36 ∧
      ∃ P, splitParts M_PI_double (meshOf (tetrahedronFaces (vec 0 0 0) (vec 1 0 0) (vec 0 1 0)
          (vec 0 0 1)).reverse) = [P] ∧ P.Perm [0, 1, 2, 3] ∧
        splitDisjointGeometry M_PI_double (meshOf (tetrahedronFaces (vec 0 0 0) (vec 1 0 0)
          (vec 0 1 0) (vec 0 0 1)).reverse) =
          [partPos (meshOf (tetrahedronFaces (vec 0 0 0) (vec 1 0 0) (vec 0 1 0)
            (vec 0 0 1)).reverse) P] ∧
        (partPos (meshOf (tetrahedronFaces (vec 0 0 0) (vec 1 0 0) (vec 0 1 0)
          (vec 0 0 1)).reverse) P).length = 36 :=
  ⟨List.reverse_perm _,
    splitDisjointGeometry_tetrahedron M_PI_double (vec 0 0 0) (vec 1 0 0) (vec 0 1 0)
      (vec 0 0 1) (by decide!) (by decide!) (by decide!) (by decide!) (by decide!) (by decide!)
      (by decide!) (by decide!) (by decide!) (by decide!) _ (List.reverse_perm _)⟩

end Tetrahedron

/-! ## The queue and the stack find the same components -/

theorem pushNewQueue_rel {s s' : Traversal} (hv : s.visited = s'.visited)
    (hp : s.part = s'.part) (hs : s.stack.Perm s'.stack) (u : Nat) :
    (pushNew s u).visited = (pushNewQueue s' u).visited ∧
      (pushNew s u).part = (pushNewQueue s' u).part ∧
      (pushNew s u).stack.Perm (pushNewQueue s' u).stack := by
  unfold pushNew pushNewQueue
  rw [← hv]
  split_ifs
  · refine ⟨rfl, hp, ?_⟩
    simp only
    exact (List.Perm.cons u hs).trans (List.perm_append_singleton u s'.stack).symm
  · exact ⟨hv, hp, hs⟩

theorem foldl_pushNewQueue_rel (l : List Nat) :
    ∀ s s' : Traversal, s.visited = s'.visited → s.part = s'.part → s.stack.Perm s'.stack →
      (l.foldl pushNew s).visited = (l.foldl pushNewQueue s').visited ∧
        (l.foldl pushNew s).part = (l.foldl pushNewQueue s').part ∧
        (l.foldl pushNew s).stack.Perm (l.foldl pushNewQueue s').stack := by
  induction l with
  | nil => intro s s' hv hp hs; exact ⟨hv, hp, hs⟩
  | cons u l ih =>
    intro s s' hv hp hs
    obtain ⟨h1, h2, h3⟩ := pushNewQueue_rel hv hp hs u
    exact ih _ _ h1 h2 h3

/-- The invariant of the `while` loop does not depend on the order of the pending
triangles. -/
theorem DfsInv.of_perm {nb : Nat → List Nat} {n : Nat} {done : List Nat} {seed : Nat}
    {s s' : Traversal} (h : DfsInv nb n done seed s) (hv : s.visited = s'.visited)
    (hp : s.part = s'.part) (hs : s.stack.Perm s'.stack) : DfsInv nb n done seed s' := by
  have hperm : (done ++ (s.part ++ s.stack)).Perm (done ++ (s'.part ++ s'.stack)) := by
    rw [← hp]
    exact List.Perm.append_left _ (List.Perm.append_left _ hs)
  refine ⟨by rw [← hv]; exact h.len, hperm.nodup_iff.1 h.nodup, ?_, ?_, ?_, ?_, ?_⟩
  · intro i
    rw [← hv, h.vis i]
    exact hperm.mem_iff
  · rcases h.hd with ⟨h1, h2⟩ | h1
    · left
      rw [h2] at hs
      exact ⟨by rw [← hp]; exact h1, List.perm_singleton.1 hs.symm⟩
    · right
      rw [← hp]; exact h1
  · rw [← hp]; exact h.reachP
  · intro u hu
    rw [← hp]
    exact h.reachS u (hs.mem_iff.2 hu)
  · rw [← hp, ← hv]; exact h.closed

/-- One iteration of the loop with the queue keeps the invariant. -/
theorem DfsInv.iterateQueue {nb : Nat → List Nat} {n : Nat} {done : List Nat} {seed : Nat}
    {s : Traversal} (hnb : ∀ t < n, ∀ u ∈ nb t, u < n) (h : DfsInv nb n done seed s)
    {t : Nat} {rest : List Nat} (hst : s.stack = t :: rest) :
    DfsInv nb n done seed
        ((nb t).foldl pushNewQueue { s with stack := rest, part := s.part ++ [t] }) ∧
      ((nb t).foldl pushNewQueue { s with stack := rest, part := s.part ++ [t] }).part =
        s.part ++ [t] := by
  obtain ⟨h1, h2, h3⟩ := foldl_pushNewQueue_rel (nb t)
    { s with stack := rest, part := s.part ++ [t] }
    { s with stack := rest, part := s.part ++ [t] } rfl rfl (List.Perm.refl _)
  refine ⟨(h.iterate hnb hst).of_perm h1 h2 h3, ?_⟩
  have ht : t < n := h.lt_of_mem (by simp [hst])
  obtain ⟨new, -, h5, -⟩ :=
    foldl_pushNew n (nb t) { s with stack := rest, part := s.part ++ [t] } h.len (hnb t ht)
  rw [← h2, h5]

/-- The loop with the queue keeps the invariant and, given one unit of fuel for each triangle
not yet in a part, ends with the queue empty. -/
theorem DfsInv.runQueue {nb : Nat → List Nat} {n : Nat} {done : List Nat} {seed : Nat}
    (hnb : ∀ t < n, ∀ u ∈ nb t, u < n) :
    ∀ (fuel : Nat) (s : Traversal), DfsInv nb n done seed s →
      n ≤ fuel + (done ++ s.part).length →
      DfsInv nb n done seed (bfs nb fuel s) ∧ (bfs nb fuel s).stack = [] := by
  intro fuel
  induction fuel with
  | zero =>
    intro s h hf
    refine ⟨h, ?_⟩
    have := length_le_of_nodup_of_lt h.nodup (fun i hi => h.lt_of_mem hi)
    simp only [List.length_append] at this hf
    have : s.stack.length = 0 := by omega
    simpa using this
  | succ fuel ih =>
    intro s h hf
    unfold bfs
    split
    · rename_i hs; exact ⟨h, hs⟩
    · rename_i t rest hs
      obtain ⟨hstep, hpart⟩ := h.iterateQueue hnb hs
      apply ih _ hstep
      rw [hpart]
      simp only [List.length_append, List.length_singleton] at hf ⊢
      omega

/-- When the loop has ended, the part holds the triangles that chains of neighbour steps
avoiding the earlier parts reach from the seed. -/
theorem DfsInv.mem_part_iff {nb : Nat → List Nat} {n : Nat} {done : List Nat} {seed : Nat}
    {s : Traversal} (h : DfsInv nb n done seed s) (hs : s.stack = []) (u : Nat) :
    u ∈ s.part ↔ Relation.ReflTransGen (fun a b => b ∈ nb a ∧ b ∉ done) seed u := by
  have hpart : ∃ tl, s.part = seed :: tl := by
    rcases h.hd with ⟨_, h2⟩ | h1
    · rw [hs] at h2; simp at h2
    · exact h1
  have hnd := h.nodup
  rw [hs, List.append_nil] at hnd
  have hdisj : ∀ x ∈ s.part, x ∉ done := fun x hx hd => (List.nodup_append.1 hnd).2.2 hd hx
  constructor
  · have key : ∀ k, ∀ p u q, s.part = p ++ u :: q → p.length = k →
        Relation.ReflTransGen (fun a b => b ∈ nb a ∧ b ∉ done) seed u := by
      intro k
      induction k using Nat.strong_induction_on with
      | _ k ih =>
        intro p u q hP hk
        rcases h.reachP p u q hP with rfl | ⟨t, ht, hut⟩
        · obtain ⟨tl, htl⟩ := hpart
          rw [htl] at hP
          simp only [List.nil_append, List.cons.injEq] at hP
          rw [hP.1]
        · obtain ⟨p1, p2, rfl⟩ := List.append_of_mem ht
          have hseed_t := ih p1.length (by rw [← hk]; simp) p1 t (p2 ++ u :: q)
            (by rw [hP]; simp) rfl
          exact hseed_t.tail ⟨hut, hdisj u (by rw [hP]; simp)⟩
    intro hu
    obtain ⟨p, q, hpq⟩ := List.append_of_mem hu
    exact key p.length p u q hpq rfl
  · intro hchain
    induction hchain with
    | refl =>
      obtain ⟨tl, htl⟩ := hpart
      rw [htl]; simp
    | tail _ hbc ih =>
      have := (h.vis _).1 (h.closed _ ih _ hbc.1)
      rw [hs, List.append_nil] at this
      rcases List.mem_append.1 this with hd | hp
      · exact absurd hd hbc.2
      · exact hp

theorem eq_of_getD_iff {v w : List Bool} (hlen : v.length = w.length)
    (h : ∀ i, v.getD i false = true ↔ w.getD i false = true) : v = w := by
  apply List.ext_getElem hlen
  intro i h1 h2
  have := h i
  rw [List.getD_eq_getElem _ _ h1, List.getD_eq_getElem _ _ h2] at this
  cases hv : v[i] <;> cases hw : w[i] <;> simp_all

/-- From the same flags and the same seed the stack and the queue flag the same triangles
and collect the same triangles, in possibly different orders. -/
theorem dfs_bfs_perm {nb : Nat → List Nat} {n : Nat} {done : List Nat} {seed : Nat}
    (hnb : ∀ t < n, ∀ u ∈ nb t, u < n) {s : Traversal} (h : DfsInv nb n done seed s)
    (hfuel : n ≤ n + (done ++ s.part).length) :
    (dfs nb n s).visited = (bfs nb n s).visited ∧ (dfs nb n s).part.Perm (bfs nb n s).part := by
  obtain ⟨hd, hds⟩ := DfsInv.run hnb n s h hfuel
  obtain ⟨hb, hbs⟩ := DfsInv.runQueue hnb n s h hfuel
  have hndd := hd.nodup
  have hndb := hb.nodup
  rw [hds, List.append_nil] at hndd
  rw [hbs, List.append_nil] at hndb
  have hmem : ∀ u, u ∈ (dfs nb n s).part ↔ u ∈ (bfs nb n s).part := by
    intro u
    rw [hd.mem_part_iff hds, hb.mem_part_iff hbs]
  refine ⟨?_, ?_⟩
  · apply eq_of_getD_iff (by rw [hd.len, hb.len])
    intro i
    rw [hd.vis i, hb.vis i, hds, hbs]
    simp only [List.append_nil, List.mem_append, hmem]
  · rw [List.perm_ext_iff_of_nodup (List.nodup_append.1 hndd).2.1 (List.nodup_append.1 hndb).2.1]
    exact hmem

/-- The outer loops with the stack and with the queue run in step: same flags, same seeds,
parts with the same triangles. -/
theorem components_queue_rel {nb : Nat → List Nat} {n : Nat}
    (hnb : ∀ t < n, ∀ u ∈ nb t, u < n) :
    List.Forall₂ (fun a b : Nat × List Nat => a.1 = b.1 ∧ a.2.Perm b.2)
      (components nb n).2 (componentsQueue nb n).2 := by
  have key : ∀ k, k ≤ n →
      OuterInv nb n k ((List.range k).foldl (componentsStep nb n) (List.replicate n false, [])) ∧
      ((List.range k).foldl (componentsStep nb n) (List.replicate n false, [])).1 =
        ((List.range k).foldl (componentsQueueStep nb n) (List.replicate n false, [])).1 ∧
      List.Forall₂ (fun a b : Nat × List Nat => a.1 = b.1 ∧ a.2.Perm b.2)
        ((List.range k).foldl (componentsStep nb n) (List.replicate n false, [])).2
        ((List.range k).foldl (componentsQueueStep nb n) (List.replicate n false, [])).2 := by
    intro k
    induction k with
    | zero => intro _; exact ⟨OuterInv.start nb n, rfl, List.Forall₂.nil⟩
    | succ k ih =>
      intro hk
      obtain ⟨hinv, hvis, hrel⟩ := ih (by omega)
      rw [List.range_succ, List.foldl_append, List.foldl_append]
      refine ⟨hinv.next hnb (by omega), ?_⟩
      generalize (List.range k).foldl (componentsStep nb n) (List.replicate n false, []) = st
        at hinv hvis hrel ⊢
      generalize (List.range k).foldl (componentsQueueStep nb n) (List.replicate n false, []) = st'
        at hvis hrel ⊢
      simp only [List.foldl_cons, List.foldl_nil, componentsStep, componentsQueueStep, ← hvis]
      by_cases hv : st.1.getD k false = true
      · simp only [hv, if_true]
        exact ⟨hvis, hrel⟩
      · have hv' : st.1.getD k false = false := by simpa using hv
        simp only [hv', Bool.false_eq_true, if_false]
        obtain ⟨h1, h2⟩ := dfs_bfs_perm hnb (DfsInv.of_seed hinv (by omega) hv') (by simp)
        refine ⟨h1, ?_⟩
        apply List.rel_append hrel
        exact List.Forall₂.cons ⟨rfl, h2⟩ List.Forall₂.nil
  exact (key n le_rfl).2.2

section QueueLink

variable {K : Type} [LinearOrderedField K]

theorem visitEdgeQueue_eq (pi : K) (edgeMap : EdgeMap K) (v1 v2 v3 : Vector3 K)
    (s : Traversal) :
    visitEdgeQueue pi edgeMap v1 v2 v3 s =
      (chosen pi edgeMap v1 v2 v3).toList.foldl pushNewQueue s := by
  unfold visitEdgeQueue chosen
  cases edgeMap.find ⟨v2, v1⟩ <;> rfl

theorem popAndVisitQueue_eq (pi : K) (pos : List (Fl K)) (edgeMap : EdgeMap K) (t : Nat)
    (s : Traversal) :
    popAndVisitQueue pi pos edgeMap t s =
      (neighbours pi pos edgeMap t).foldl pushNewQueue { s with part := s.part ++ [t] } := by
  simp only [popAndVisitQueue, neighbours, visitEdgeQueue_eq, List.foldl_append]

theorem whileLoopQueue_eq_bfs (pi : K) (pos : List (Fl K)) (edgeMap : EdgeMap K) :
    ∀ (fuel : Nat) (s : Traversal),
      whileLoopQueue pi pos edgeMap fuel s = bfs (neighbours pi pos edgeMap) fuel s := by
  intro fuel
  induction fuel with
  | zero => intro s; rfl
  | succ fuel ih =>
    intro s
    unfold whileLoopQueue bfs
    split
    · rfl
    · rw [popAndVisitQueue_eq, ih]

theorem partsStepQueue_eq (pi : K) (pos : List (Fl K)) (edgeMap : EdgeMap K) (n : Nat) :
    partsStepQueue pi pos edgeMap n = componentsQueueStep (neighbours pi pos edgeMap) n := by
  funext st i
  simp only [partsStepQueue, componentsQueueStep, whileLoopQueue_eq_bfs]

theorem splitSeededPartsQueue_eq (pi : K) (pos : List (Fl K)) (h9 : pos.length % 9 = 0)
    (h0 : pos.length / 9 ≠ 0) :
    splitSeededPartsQueue pi pos =
      (componentsQueue (neighbours pi pos (buildEdgeMap pos (pos.length / 9)))
        (pos.length / 9)).2 := by
  simp only [splitSeededPartsQueue, h9, h0, ne_eq, not_true_eq_false, if_false,
    partsStepQueue_eq, componentsQueue]

/-- C14 (traversal-discipline independence): on the same edge index and with the same
resolver, the run with the stack and the run with the queue record the same number of parts,
and part by part the same seed and the same triangle indices, each once, in possibly
different orders. -/
theorem splitSeededParts_queue (pi : K) (pos : List (Fl K)) :
    (splitSeededParts pi pos).length = (splitSeededPartsQueue pi pos).length ∧
      List.Forall₂ (fun a b : Nat × List Nat => a.1 = b.1 ∧ a.2.Perm b.2)
        (splitSeededParts pi pos) (splitSeededPartsQueue pi pos) := by
  have main : List.Forall₂ (fun a b : Nat × List Nat => a.1 = b.1 ∧ a.2.Perm b.2)
      (splitSeededParts pi pos) (splitSeededPartsQueue pi pos) := by
    by_cases h9 : pos.length % 9 = 0
    · by_cases h0 : pos.length / 9 = 0
      · simp [splitSeededParts, splitSeededPartsQueue, h0]
      · rw [splitSeededParts_eq pi pos h9 h0, splitSeededPartsQueue_eq pi pos h9 h0]
        exact components_queue_rel (neighbours_lt pi pos _)
    · simp [splitSeededParts, splitSeededPartsQueue, h9]
  exact ⟨main.length_eq, main⟩

/-- The two runs at `twoCubes`: two parts each, seeded at `0` and `12`, the triangles of a
part in different orders. -/
theorem splitSeededParts_queue_witness :
    splitSeededParts M_PI_double twoCubes =
        [(0, [0, 1, 4, 5, 8, 3, 6, 2, 11, 10, 7, 9]),
         (12, [12, 13, 16, 17, 20, 15, 18, 14, 23, 22, 19, 21])] ∧
      splitSeededPartsQueue M_PI_double twoCubes =
        [(0, [0, 9, 7, 1, 8, 6, 10, 4, 5, 3, 11, 2]),
         (12, [12, 21, 19, 13, 20, 18, 22, 16, 17, 15, 23, 14])] ∧
      List.Forall₂ (fun a b : Nat × List Nat => a.1 = b.1 ∧ a.2.Perm b.2)
        (splitSeededParts M_PI_double twoCubes) (splitSeededPartsQueue M_PI_double twoCubes) :=
  ⟨by decide!, by decide!, (splitSeededParts_queue M_PI_double twoCubes).2⟩

end QueueLink

/-- Counterexample to C13 as stated: the vertices `a = (NaN,0,0)`, `b = (1,0,0)`,
`c = (0,1,0)`, `d = (NaN,1,1)` are pairwise distinct, as values and under
`Vector3::operator==`, and the tetrahedron on them gives three components; the vertices
`(0,0,0)`, `(-0.0,0,0)`, `(0,1,0)`, `(0,0,1)` are pairwise distinct as values and their
tetrahedron gives two components. -/
theorem splitDisjointGeometry_tetrahedron_nan :
    ((⟨nan, fin 0, fin 0⟩ : Vector3 ℚ) ≠ vec 1 0 0 ∧ (⟨nan, fin 0, fin 0⟩ : Vector3 ℚ) ≠ vec 0 1 0 ∧
        (⟨nan, fin 0, fin 0⟩ : Vector3 ℚ) ≠ ⟨nan, fin 1, fin 1⟩ ∧ vec 1 0 0 ≠ vec 0 1 0 ∧
        vec 1 0 0 ≠ (⟨nan, fin 1, fin 1⟩ : Vector3 ℚ) ∧
        vec 0 1 0 ≠ (⟨nan, fin 1, fin 1⟩ : Vector3 ℚ)) ∧
      ((⟨nan, fin 0, fin 0⟩ : Vector3 ℚ).beq (vec 1 0 0) = false ∧
        (⟨nan, fin 0, fin 0⟩ : Vector3 ℚ).beq (vec 0 1 0) = false ∧
        (⟨nan, fin 0, fin 0⟩ : Vector3 ℚ).beq ⟨nan, fin 1, fin 1⟩ = false ∧
        (vec 1 0 0).beq (vec 0 1 0) = false ∧
        (vec 1 0 0).beq (⟨nan, fin 1, fin 1⟩ : Vector3 ℚ) = false ∧
        (vec 0 1 0).beq (⟨nan, fin 1, fin 1⟩ : Vector3 ℚ) = false) ∧
      (splitDisjointGeometry M_PI_double (meshOf (tetrahedronFaces ⟨nan, fin 0, fin 0⟩
        (vec 1 0 0) (vec 0 1 0) ⟨nan, fin 1, fin 1⟩))).length = 3 ∧
      (vec 0 0 0 ≠ (⟨nzero, fin 0, fin 0⟩ : Vector3 ℚ) ∧ vec 0 0 0 ≠ vec 0 1 0 ∧
        vec 0 0 0 ≠ vec 0 0 1 ∧ (⟨nzero, fin 0, fin 0⟩ : Vector3 ℚ) ≠ vec 0 1 0 ∧
        (⟨nzero, fin 0, fin 0⟩ : Vector3 ℚ) ≠ vec 0 0 1 ∧ vec 0 1 0 ≠ vec 0 0 1) ∧
      (splitDisjointGeometry M_PI_double (meshOf (tetrahedronFaces (vec 0 0 0)
        ⟨nzero, fin 0, fin 0⟩ (vec 0 1 0) (vec 0 0 1)))).length = 2 := by
  decide!

/-! ## The code in binary floating point at the endpoints of the documented ranges -/

/-- C9 (evaluation at `y = 2^-30`, `x = 1`, and at `y = 2^100`, `x = 2^-100`): the arguments
are positive binary32 values; in binary floating point `notAtan2(2^-30, 1)` is `+0.0`,
because `1.0f + 2^-30` is `1.0f`, and `notAtan2(2^100, 2^-100)` is `13176795 / 2^23`, the
binary32 value nearest to `M_PI / 2`, which is greater than `pi / 2`: neither lies in the
open interval `(0, pi/2)`. -/
theorem notAtan2_binary32_quadrant :
    f32 (fin (1 / 2 ^ 30)) = fin (1 / 2 ^ 30) ∧ f32 (fin 1) = fin 1 ∧
      f32 (fin (2 ^ 100)) = fin (2 ^ 100) ∧ f32 (fin (1 / 2 ^ 100)) = fin (1 / 2 ^ 100) ∧
      f32 ((fin 1).add (fin (1 / 2 ^ 30) : Fl ℚ)) = fin 1 ∧
      Binary32.notAtan2 M_PI_double (fin (1 / 2 ^ 30)) (fin 1) = fin 0 ∧
      Binary32.notAtan2 M_PI_double (fin (2 ^ 100)) (fin (1 / 2 ^ 100)) =
        fin (13176795 / 8388608) ∧
      Real.pi / 2 < ((13176795 / 8388608 : ℚ) : ℝ) := by
  refine ⟨by decide!, by decide!, by decide!, by decide!, by decide!, by decide!, by decide!,
    ?_⟩
  have := Real.pi_lt_d20
  push_cast
  linarith

/-- C7 (evaluation at a fan on a short edge): for the reference triangle `(0,0,0)`,
`(0,0,2^-10)`, `(1,0,0)` and the candidates `fanCandidates` at about 10, 90 and 170 degrees,
all of binary32 coordinates, `findNextTriangleWithSharedEdge` in binary floating point
returns index 1, the 90-degree candidate, for each of the six orders of the list: the angle
computed for the 170-degree candidate, `13175661 / 2^22`, exceeds `M_PI - epsilon` and is
replaced by `-M_PI`.  With the shared edge of length 1 it returns index 2 for each order. -/
theorem findNextTriangleWithSharedEdge_binary32_fan :
    (∀ tris ∈ fanCandidates.permutations,
        Binary32.findNextTriangleWithSharedEdge M_PI_double (vec 0 0 0) (vec 0 0 (1 / 2 ^ 10))
          (vec 1 0 0) tris = 1) ∧
      Binary32.notAtan2 M_PI_double
          (Binary32.dot (Binary32.cross (vec 0 (1 / 2 ^ 10) 0) (vec (-sin10) (-cos10) 0))
            (vec 0 0 (1 / 2 ^ 10)))
          (Binary32.dot (vec 0 (1 / 2 ^ 10) 0) (vec (-sin10) (-cos10) 0)) =
        fin (13175661 / 4194304) ∧
      Binary32.candidateAngle M_PI_double (vec 0 (1 / 2 ^ 10) 0) (vec 0 0 (1 / 2 ^ 10))
          (vec (-sin10) (-cos10) 0) = fin (-(13176795 / 4194304)) ∧
      f32 (fin cos10) = fin cos10 ∧ f32 (fin sin10) = fin sin10 ∧
      (∀ tris ∈ fanCandidates.permutations,
        Binary32.findNextTriangleWithSharedEdge M_PI_double (vec 0 0 0) (vec 0 0 1)
          (vec 1 0 0) tris = 2) := by
  refine ⟨by decide!, by decide!, by decide!, by decide!, by decide!, by decide!⟩

/-- On the fan of the short edge the resolver of `wasm/src/split-geometry.cpp`, whose
`epsilon` is scaled by the length of the edge, returns index 2, the 170-degree candidate,
for each order of the list, whenever `std::sqrt` returns `2^-10` for `2^-20`. -/
theorem findNextTriangle_binary32_fan (sqrt : Fl ℚ → Fl ℚ)
    (hsqrt : sqrt (fin (1 / 2 ^ 20)) = fin (1 / 2 ^ 10)) :
    ∀ tris ∈ fanCandidates.permutations,
      Binary32.findNextTriangle M_PI_double sqrt (vec 0 0 0) (vec 0 0 (1 / 2 ^ 10))
        (vec 1 0 0) tris = 2 := by
  have harg : f32 ((f32 ((f32 (((Binary32.vsub (vec 0 0 (1 / 2 ^ 10)) (vec 0 0 0)).x).mul
      ((Binary32.vsub (vec 0 0 (1 / 2 ^ 10)) (vec 0 0 0)).x))).add
      (f32 (((Binary32.vsub (vec 0 0 (1 / 2 ^ 10)) (vec 0 0 0)).y).mul
      ((Binary32.vsub (vec 0 0 (1 / 2 ^ 10)) (vec 0 0 0)).y))))).add
      (f32 (((Binary32.vsub (vec 0 0 (1 / 2 ^ 10)) (vec 0 0 0)).z).mul
      ((Binary32.vsub (vec 0 0 (1 / 2 ^ 10)) (vec 0 0 0)).z)))) = fin (1 / 2 ^ 20) := by
    decide!
  have key : ∀ tris, Binary32.findNextTriangle M_PI_double sqrt (vec 0 0 0)
      (vec 0 0 (1 / 2 ^ 10)) (vec 1 0 0) tris =
      Binary32.findNextTriangle M_PI_double (fun _ => fin (1 / 2 ^ 10)) (vec 0 0 0)
        (vec 0 0 (1 / 2 ^ 10)) (vec 1 0 0) tris := by
    intro tris
    simp only [Binary32.findNextTriangle, harg, hsqrt]
  intro tris htris
  rw [key]
  revert tris
  decide!

end StlViewer
